import Mathlib

/-! The VLE coupled model graph (`vle/graph/CoupledModel.cpp`).

A shallow embedding of `vle::graph::CoupledModel`.  Models live in a heap that
is addressed by `ModelId` (the C++ `Model*`); every operation of the class is
a function from a heap to an `Outcome`, which is either a normal return or a
thrown exception, and in both cases carries the heap as the operation left it
(a C++ exception does not undo the writes made before the `throw`).

Two smaller embeddings follow the graph: the `main` function of the
observation daemon (`apps/oov/main.cpp`), as a function from the behaviour of
its environment to the way the process ends, and the storage plugin
(`vle/oov/plugins/Storage.cpp`), whose matrix is represented by the calls made
on it.
-/

namespace vle.graph

/-- Address of a model object: the C++ `Model*` (a null pointer is `none` in
the parameters that the source tests against null). -/
abbrev ModelId := Nat

/-- Modelled from the spec: the exception classes (`utils/Exception.hpp`) and
the macros `AssertS(type, test)`, `Assert(type, test, message)` and
`Throw(type, message)` that raise them are not among the sources.
`DevsGraphError` is the graph error of the spec, raised at once by a failed
assertion or a `Throw`; `InternalError` is the class thrown by the template
`Assert(bool)` of `utils/Debug.hpp`. -/
inductive Error where
  | DevsGraphError
  | InternalError
deriving DecidableEq, Repr

/-- Modelled from the spec: `ModelPortList` is declared in `Model.hpp`, which
is not among the sources.  The spec describes a port list as a multiset of
(peer model, peer port) pairs that is enumerated in insertion order. -/
abbrev ModelPortList := List (ModelId × String)

/-- The `ConnectionList` of the source: `std::map < std::string, ModelPortList >`,
kept as an association list searched from the front. -/
abbrev ConnectionList := List (String × ModelPortList)

/-- The `ModelList` of the source: `std::map < std::string, Model* >`. -/
abbrev ModelList := List (String × ModelId)

/-- Lookup `std::map::find`: the value stored under key `k`, if any. -/
def mapFind {β : Type} (k : String) : List (String × β) → Option β
  | [] => none
  | (k', v) :: m => if k' = k then some v else mapFind k m

/-- In-place update of the value stored under `k` (a write through the
reference returned by a successful lookup). -/
def mapModify {β : Type} (k : String) (f : β → β) : List (String × β) → List (String × β)
  | [] => []
  | (k', v) :: m => if k' = k then (k', f v) :: m else (k', v) :: mapModify k f m

/-- Assignment `m[k] = v` of `std::map`: overwrites the value of an existing
key, otherwise inserts the pair at its place in key order (the lexicographic
order of the characters, written on the character lists so that it can be
evaluated). -/
def mapInsert {β : Type} (k : String) (v : β) : List (String × β) → List (String × β)
  | [] => [(k, v)]
  | (k', v') :: m =>
    if k' = k then (k, v) :: m
    else if k.data < k'.data then (k, v) :: (k', v') :: m
    else (k', v') :: mapInsert k v m

/-- Removal `std::map::erase` of the entry stored under `k`. -/
def mapErase {β : Type} (k : String) : List (String × β) → List (String × β)
  | [] => []
  | (k', v) :: m => if k' = k then m else (k', v) :: mapErase k m

/-- The three concrete kinds of model. -/
inductive Kind where
  | atomic
  | coupled
  | novle
deriving DecidableEq, Repr

/-- A model object.  The first four fields are those of the base class `Model`
(name, parent, input and output port lists); the last three are the members a
`CoupledModel` adds (`m_modelList`, `m_internalInputList`,
`m_internalOutputList`) and are empty for the other kinds. -/
structure Model where
  name : String
  parent : Option ModelId
  inPortList : ConnectionList
  outPortList : ConnectionList
  kind : Kind
  modelList : ModelList
  internalInputList : ConnectionList
  internalOutputList : ConnectionList

/-- The heap of model objects. -/
abbrev Heap := ModelId → Model

/-- Result of running an operation: normal return with a value, or a thrown
exception; both carry the heap at that point.  The third case is reserved for
the recursive destructor, whose embedding is driven by a recursion budget. -/
inductive Outcome (α : Type) where
  | ok (v : α) (h : Heap)
  | throw (e : Error) (h : Heap)
  | outOfFuel

/-- The heap an operation leaves behind, whether it returned or threw. -/
def Outcome.heap {α : Type} : Outcome α → Option Heap
  | .ok _ h => some h
  | .throw _ h => some h
  | .outOfFuel => none

/-- The exception an operation threw, if it threw. -/
def Outcome.error {α : Type} : Outcome α → Option Error
  | .ok _ _ => none
  | .throw e _ => some e
  | .outOfFuel => none

/-- Sequencing of two operations: the second runs on the heap left by the
first, and an exception of the first propagates with its heap. -/
def Outcome.andThen {α β : Type} (r : Outcome α) (f : α → Heap → Outcome β) : Outcome β :=
  match r with
  | .ok v h => f v h
  | .throw e h => .throw e h
  | .outOfFuel => .outOfFuel

/-! ## Port lists -/

/-- Modelled from the spec: `ModelPortList::add` (Model.hpp, not among the
sources) records one more (peer model, peer port) entry; duplicates are kept. -/
def ModelPortList.add (l : ModelPortList) (m : ModelId) (port : String) : ModelPortList :=
  l ++ [(m, port)]

/-- Modelled from the spec: `ModelPortList::remove` (Model.hpp, not among the
sources) takes one (peer model, peer port) entry out of the multiset, and does
nothing when there is none. -/
def ModelPortList.remove (l : ModelPortList) (m : ModelId) (port : String) : ModelPortList :=
  l.erase (m, port)

/-- Modelled from the spec: `ModelPortList::remove_all` (Model.hpp, not among
the sources) empties the list. -/
def ModelPortList.remove_all (_l : ModelPortList) : ModelPortList := []

/-- Modelled from the spec: `ModelPortList::merge` (Model.hpp, not among the
sources) adds every entry of the other list to this one ("merging port
lists"). -/
def ModelPortList.merge (l other : ModelPortList) : ModelPortList :=
  l ++ other

/-- Modelled from the spec: `ModelPortList::exist` (Model.hpp, not among the
sources) tells whether the entry is in the list. -/
def ModelPortList.exist (l : ModelPortList) (m : ModelId) (port : String) : Bool :=
  decide ((m, port) ∈ l)

/-! ## Access to the four connection tables of a model -/

/-- The list behind input port `p` of model `x`, if the port exists. -/
def inPort (h : Heap) (x : ModelId) (p : String) : Option ModelPortList :=
  mapFind p (h x).inPortList

/-- The list behind output port `p` of model `x`, if the port exists. -/
def outPort (h : Heap) (x : ModelId) (p : String) : Option ModelPortList :=
  mapFind p (h x).outPortList

/-- The internal input list `p` of coupled model `x`, if it exists. -/
def internalInPort (h : Heap) (x : ModelId) (p : String) : Option ModelPortList :=
  mapFind p (h x).internalInputList

/-- The internal output list `p` of coupled model `x`, if it exists. -/
def internalOutPort (h : Heap) (x : ModelId) (p : String) : Option ModelPortList :=
  mapFind p (h x).internalOutputList

/-- Write through the reference to the list of input port `p` of `x`. -/
def modInPort (h : Heap) (x : ModelId) (p : String) (f : ModelPortList → ModelPortList) : Heap :=
  Function.update h x { h x with inPortList := mapModify p f (h x).inPortList }

/-- Write through the reference to the list of output port `p` of `x`. -/
def modOutPort (h : Heap) (x : ModelId) (p : String) (f : ModelPortList → ModelPortList) : Heap :=
  Function.update h x { h x with outPortList := mapModify p f (h x).outPortList }

/-- Write through the reference to internal input list `p` of `x`. -/
def modInternalInPort (h : Heap) (x : ModelId) (p : String)
    (f : ModelPortList → ModelPortList) : Heap :=
  Function.update h x { h x with internalInputList := mapModify p f (h x).internalInputList }

/-- Write through the reference to internal output list `p` of `x`. -/
def modInternalOutPort (h : Heap) (x : ModelId) (p : String)
    (f : ModelPortList → ModelPortList) : Heap :=
  Function.update h x { h x with internalOutputList := mapModify p f (h x).internalOutputList }

/-- Modelled from the spec: `Model::getInPort` (Model.hpp, not among the
sources) yields the list of an existing input port and raises the graph error
when the model has no input port of that name, as `getInternalInPort` does. -/
def getInPort (h : Heap) (x : ModelId) (p : String) : Except Error ModelPortList :=
  match inPort h x p with
  | some l => .ok l
  | none => .error .DevsGraphError

/-- Modelled from the spec: `Model::getOutPort` (Model.hpp, not among the
sources) yields the list of an existing output port and raises the graph error
when the model has no output port of that name, as `getInternalOutPort` does. -/
def getOutPort (h : Heap) (x : ModelId) (p : String) : Except Error ModelPortList :=
  match outPort h x p with
  | some l => .ok l
  | none => .error .DevsGraphError

/-- Source `CoupledModel::getInternalInPort`: throws when the name is not found. -/
def getInternalInPort (h : Heap) (this : ModelId) (name : String) : Except Error ModelPortList :=
  match mapFind name (h this).internalInputList with
  | none => .error .DevsGraphError
  | some l => .ok l

/-- Source `CoupledModel::getInternalOutPort`: throws when the name is not found. -/
def getInternalOutPort (h : Heap) (this : ModelId) (name : String) : Except Error ModelPortList :=
  match mapFind name (h this).internalOutputList with
  | none => .error .DevsGraphError
  | some l => .ok l

/-! ## Adding connections -/

/-- Source `CoupledModel::addInputConnection(portSrc, Model* dst, portDst)`. -/
def addInputConnection (this : ModelId) (portSrc : String) (dst : Option ModelId)
    (portDst : String) (h : Heap) : Outcome Unit :=
  match dst with
  | none => .throw .DevsGraphError h
  | some d =>
    if d = this then .throw .DevsGraphError h
    else
      match getInternalInPort h this portSrc with
      | .error e => .throw e h
      | .ok _ =>
        let h1 := modInternalInPort h this portSrc (fun outs => outs.add d portDst)
        match getInPort h1 d portDst with
        | .error e => .throw e h1
        | .ok _ => .ok () (modInPort h1 d portDst (fun ins => ins.add this portSrc))

/-- Source `CoupledModel::addOutputConnection(Model* src, portSrc, portDst)`. -/
def addOutputConnection (this : ModelId) (src : Option ModelId) (portSrc : String)
    (portDst : String) (h : Heap) : Outcome Unit :=
  match src with
  | none => .throw .DevsGraphError h
  | some s =>
    if s = this then .throw .DevsGraphError h
    else
      match getOutPort h s portSrc with
      | .error e => .throw e h
      | .ok _ =>
        let h1 := modOutPort h s portSrc (fun outs => outs.add this portDst)
        match getInternalOutPort h1 this portDst with
        | .error e => .throw e h1
        | .ok _ => .ok () (modInternalOutPort h1 this portDst (fun ins => ins.add s portSrc))

/-- Source `CoupledModel::addInternalConnection(Model* src, portSrc, Model* dst, portDst)`. -/
def addInternalConnection (this : ModelId) (src : Option ModelId) (portSrc : String)
    (dst : Option ModelId) (portDst : String) (h : Heap) : Outcome Unit :=
  match src, dst with
  | some s, some d =>
    if s = this ∨ d = this then .throw .DevsGraphError h
    else
      match getOutPort h s portSrc with
      | .error e => .throw e h
      | .ok _ =>
        let h1 := modOutPort h s portSrc (fun outs => outs.add d portDst)
        match getInPort h1 d portDst with
        | .error e => .throw e h1
        | .ok _ => .ok () (modInPort h1 d portDst (fun ins => ins.add s portSrc))
  | _, _ => .throw .DevsGraphError h

/-! ## Removing connections -/

/-- Source `CoupledModel::delConnection(Model* src, portSrc, Model* dst, portDst)`:
only `dst` is tested against null, and the second list is looked up with
`dst->getOutPort(portDst)`. -/
def delConnection (_this : ModelId) (src : ModelId) (portSrc : String) (dst : Option ModelId)
    (portDst : String) (h : Heap) : Outcome Unit :=
  match dst with
  | none => .throw .DevsGraphError h
  | some d =>
    match getOutPort h src portSrc with
    | .error e => .throw e h
    | .ok _ =>
      let h1 := modOutPort h src portSrc (fun outs => outs.remove d portDst)
      match getOutPort h1 d portDst with
      | .error e => .throw e h1
      | .ok _ => .ok () (modOutPort h1 d portDst (fun ins => ins.remove src portSrc))

/-- Source `CoupledModel::delInputConnection(portSrc, Model* dst, portDst)`. -/
def delInputConnection (this : ModelId) (portSrc : String) (dst : Option ModelId)
    (portDst : String) (h : Heap) : Outcome Unit :=
  match dst with
  | none => .throw .DevsGraphError h
  | some d =>
    if d = this then .throw .DevsGraphError h
    else
      match getInternalInPort h this portSrc with
      | .error e => .throw e h
      | .ok _ =>
        let h1 := modInternalInPort h this portSrc (fun outs => outs.remove d portDst)
        match getInPort h1 d portDst with
        | .error e => .throw e h1
        | .ok _ => .ok () (modInPort h1 d portDst (fun ins => ins.remove this portSrc))

/-- Source `CoupledModel::delOutputConnection(Model* src, portSrc, portDst)`. -/
def delOutputConnection (this : ModelId) (src : Option ModelId) (portSrc : String)
    (portDst : String) (h : Heap) : Outcome Unit :=
  match src with
  | none => .throw .DevsGraphError h
  | some s =>
    if s = this then .throw .DevsGraphError h
    else
      match getOutPort h s portSrc with
      | .error e => .throw e h
      | .ok _ =>
        let h1 := modOutPort h s portSrc (fun outs => outs.remove this portDst)
        match getInternalOutPort h1 this portDst with
        | .error e => .throw e h1
        | .ok _ => .ok () (modInternalOutPort h1 this portDst (fun ins => ins.remove s portSrc))

/-- Source `CoupledModel::delInternalConnection(Model* src, portSrc, Model* dst, portDst)`. -/
def delInternalConnection (this : ModelId) (src : Option ModelId) (portSrc : String)
    (dst : Option ModelId) (portDst : String) (h : Heap) : Outcome Unit :=
  match src, dst with
  | some s, some d =>
    if s = this ∨ d = this then .throw .DevsGraphError h
    else
      match getOutPort h s portSrc with
      | .error e => .throw e h
      | .ok _ =>
        let h1 := modOutPort h s portSrc (fun outs => outs.remove d portDst)
        match getInPort h1 d portDst with
        | .error e => .throw e h1
        | .ok _ => .ok () (modInPort h1 d portDst (fun ins => ins.remove s portSrc))
  | _, _ => .throw .DevsGraphError h

/-- Inner loop of the first half of `delAllConnection(Model* m)`: for every
entry `(peer, pport)` of the list of input port `port` of `m`, take the mirror
entry `(m, port)` out of the peer's list (an internal input list of `this`
when the peer is `this`, an output port list of the peer otherwise). -/
def delAllConnection.inLoop (this m : ModelId) (port : String) :
    ModelPortList → Heap → Outcome Unit
  | [], h => .ok () h
  | (peer, pport) :: rest, h =>
    if peer = this then
      match getInternalInPort h this pport with
      | .error e => .throw e h
      | .ok _ =>
        delAllConnection.inLoop this m port rest
          (modInternalInPort h this pport (fun l => l.remove m port))
    else
      match getOutPort h peer pport with
      | .error e => .throw e h
      | .ok _ =>
        delAllConnection.inLoop this m port rest
          (modOutPort h peer pport (fun l => l.remove m port))

/-- Inner loop of the second half of `delAllConnection(Model* m)`, over the
entries of the list of output port `port` of `m`. -/
def delAllConnection.outLoop (this m : ModelId) (port : String) :
    ModelPortList → Heap → Outcome Unit
  | [], h => .ok () h
  | (peer, pport) :: rest, h =>
    if peer = this then
      match getInternalOutPort h this pport with
      | .error e => .throw e h
      | .ok _ =>
        delAllConnection.outLoop this m port rest
          (modInternalOutPort h this pport (fun l => l.remove m port))
    else
      match getInPort h peer pport with
      | .error e => .throw e h
      | .ok _ =>
        delAllConnection.outLoop this m port rest
          (modInPort h peer pport (fun l => l.remove m port))

/-- First outer loop of `delAllConnection(Model* m)`, over the input ports of
`m`: the inner loop, then `ins.remove_all()`. -/
def delAllConnection.inputs (this m : ModelId) : ConnectionList → Heap → Outcome Unit
  | [], h => .ok () h
  | (port, ins) :: rest, h =>
    (delAllConnection.inLoop this m port ins h).andThen fun _ h1 =>
      delAllConnection.inputs this m rest (modInPort h1 m port ModelPortList.remove_all)

/-- Second outer loop of `delAllConnection(Model* m)`, over the output ports
of `m`. -/
def delAllConnection.outputs (this m : ModelId) : ConnectionList → Heap → Outcome Unit
  | [], h => .ok () h
  | (port, ins) :: rest, h =>
    (delAllConnection.outLoop this m port ins h).andThen fun _ h1 =>
      delAllConnection.outputs this m rest (modOutPort h1 m port ModelPortList.remove_all)

/-- Source `CoupledModel::delAllConnection(Model* m)`. -/
def delAllConnection (this : ModelId) (m : Option ModelId) (h : Heap) : Outcome Unit :=
  match m with
  | none => .throw .DevsGraphError h
  | some m =>
    (delAllConnection.inputs this m (h m).inPortList h).andThen fun _ h1 =>
      delAllConnection.outputs this m (h1 m).outPortList h1

/-- Iteration over the values of a `ModelList`, stopping at the first
exception. -/
def forEachModel (f : ModelId → Heap → Outcome Unit) : ModelList → Heap → Outcome Unit
  | [], h => .ok () h
  | (_, c) :: rest, h => (f c h).andThen fun _ h1 => forEachModel f rest h1

/-- Source `CoupledModel::delAllConnection()`: `delAllConnection(child)` for every
child. -/
def delAllConnectionOfChildren (this : ModelId) (h : Heap) : Outcome Unit :=
  forEachModel (fun c => delAllConnection this (some c)) (h this).modelList h

/-- Effect of `delete model`.  For a coupled model this is the body of
`CoupledModel::~CoupledModel`: `delAllConnection()`, then `delete` of every
child.  Modelled from the spec: the destructors of `Model`, `AtomicModel` and
`NoVLEModel` are not among the sources; a leaf owns nothing in the graph, so
they leave the other objects alone.  The first argument bounds the depth of
the recursion into the children. -/
def destroy : Nat → ModelId → Heap → Outcome Unit
  | 0, _, _ => .outOfFuel
  | fuel + 1, x, h =>
    match (h x).kind with
    | .coupled =>
      (delAllConnectionOfChildren x h).andThen fun _ h1 =>
        forEachModel (destroy fuel) (h1 x).modelList h1
    | _ => .ok () h

/-! ## Children -/

/-- Modelled from the spec: `CoupledModel::exist(name)` is declared in
`CoupledModel.hpp`, which is not among the sources; it tells whether a child
of that name exists. -/
def exist (h : Heap) (this : ModelId) (name : String) : Bool :=
  (mapFind name (h this).modelList).isSome

/-- Source `CoupledModel::findModel`: the child of that name, or null. -/
def findModel (h : Heap) (this : ModelId) (name : String) : Option ModelId :=
  mapFind name (h this).modelList

/-- Source `CoupledModel::getModel`: the coupled model itself when the name is
its own, otherwise `findModel`. -/
def getModel (h : Heap) (this : ModelId) (modelname : String) : Option ModelId :=
  if (h this).name = modelname then some this else findModel h this modelname

/-- Modelled from the spec: `Model::setParent` (Model.hpp, not among the
sources) stores the parent pointer. -/
def setParent (h : Heap) (x : ModelId) (p : Option ModelId) : Heap :=
  Function.update h x { h x with parent := p }

/-- Assignment `m_modelList[name] = model` on coupled model `this`. -/
def setChild (h : Heap) (this : ModelId) (name : String) (model : ModelId) : Heap :=
  Function.update h this { h this with modelList := mapInsert name model (h this).modelList }

/-- Call `m_modelList.erase(it)` on coupled model `this`, `it` being the entry
found under `name`. -/
def eraseChild (h : Heap) (this : ModelId) (name : String) : Heap :=
  Function.update h this { h this with modelList := mapErase name (h this).modelList }

/-- Source `CoupledModel::addModel`. -/
def addModel (this : ModelId) (model : ModelId) (h : Heap) : Outcome Unit :=
  if exist h this (h model).name then .throw .DevsGraphError h
  else
    let h1 := setParent h model (some this)
    .ok () (setChild h1 this (h1 model).name model)

/-- Modelled from the spec: the constructors `AtomicModel(name, parent)`,
`CoupledModel(name, parent)` and `NoVLEModel(name, parent)` (only the second is
among the sources, and it only calls `Model(name, parent)`) create a model
that is empty: it has the given name and parent, no port and no child. -/
def newModel (kind : Kind) (name : String) (parent : Option ModelId) : Model :=
  { name := name, parent := parent, inPortList := [], outPortList := [], kind := kind,
    modelList := [], internalInputList := [], internalOutputList := [] }

/-- Common body of `addAtomicModel`, `addNoVLEModel` and `addCoupledModel`;
`x` is the address that `new` returns. -/
def addChildOfKind (kind : Kind) (this : ModelId) (name : String) (x : ModelId) (h : Heap) :
    Outcome ModelId :=
  if exist h this name then .throw .DevsGraphError h
  else
    let h1 := Function.update h x (newModel kind name (some this))
    .ok x (setChild h1 this name x)

/-- Source `CoupledModel::addAtomicModel`. -/
def addAtomicModel (this : ModelId) (name : String) (x : ModelId) (h : Heap) : Outcome ModelId :=
  addChildOfKind .atomic this name x h

/-- Source `CoupledModel::addNoVLEModel`. -/
def addNoVLEModel (this : ModelId) (name : String) (x : ModelId) (h : Heap) : Outcome ModelId :=
  addChildOfKind .novle this name x h

/-- Source `CoupledModel::addCoupledModel`. -/
def addCoupledModel (this : ModelId) (name : String) (x : ModelId) (h : Heap) : Outcome ModelId :=
  addChildOfKind .coupled this name x h

/-- Source `CoupledModel::delModel`; the first argument is the recursion budget of
`delete model`. -/
def delModel (fuel : Nat) (this : ModelId) (model : ModelId) (h : Heap) : Outcome Unit :=
  match mapFind (h model).name (h this).modelList with
  | some _ =>
    (delAllConnection this (some model) h).andThen fun _ h1 =>
      destroy fuel model (eraseChild h1 this (h model).name)
  | none => .ok () h

/-- Source `CoupledModel::detachModel`: the entry found under the name of `model`
gets a null parent and is erased. -/
def detachModel (this : ModelId) (model : ModelId) (h : Heap) : Outcome Unit :=
  match mapFind (h model).name (h this).modelList with
  | some c =>
    let h1 := setParent h c none
    .ok () (eraseChild h1 this (h model).name)
  | none => .throw .DevsGraphError h

/-- Source `CoupledModel::attachModel`. -/
def attachModel (this : ModelId) (model : ModelId) (h : Heap) : Outcome Unit :=
  if exist h this (h model).name then .throw .DevsGraphError h
  else
    (match (h model).parent with
      | some par => detachModel par model h
      | none => Outcome.ok () h).andThen fun _ h1 =>
    let h2 := setChild h1 this (h1 model).name model
    .ok () (setParent h2 model (some this))

/-- Source `CoupledModel::attachModels`. -/
def attachModels (this : ModelId) (models : ModelList) (h : Heap) : Outcome Unit :=
  forEachModel (attachModel this) models h

/-- Source `CoupledModel::detachModels`. -/
def detachModels (this : ModelId) (models : ModelList) (h : Heap) : Outcome Unit :=
  forEachModel (detachModel this) models h

/-! ## Replacing and moving children -/

/-- Modelled from the spec: `Model::addInputPort` (Model.hpp, not among the
sources) is idempotent: it returns the list of the port, which it creates
empty when the model has no input port of that name. -/
def addInputPort (h : Heap) (x : ModelId) (name : String) : Heap :=
  match inPort h x name with
  | some _ => h
  | none => Function.update h x { h x with inPortList := mapInsert name [] (h x).inPortList }

/-- Modelled from the spec: `Model::addOutputPort` (Model.hpp, not among the
sources), the counterpart of `addInputPort` for output ports. -/
def addOutputPort (h : Heap) (x : ModelId) (name : String) : Heap :=
  match outPort h x name with
  | some _ => h
  | none => Function.update h x { h x with outPortList := mapInsert name [] (h x).outPortList }

/-- First block of `replace`: every input port of the old model is created on
the new one and the old list is merged into it. -/
def replace.inputs (newmodel : ModelId) : ConnectionList → Heap → Heap
  | [], h => h
  | (port, lst) :: rest, h =>
    replace.inputs newmodel rest
      (modInPort (addInputPort h newmodel port) newmodel port (fun l => l.merge lst))

/-- Second block of `replace`, for the output ports. -/
def replace.outputs (newmodel : ModelId) : ConnectionList → Heap → Heap
  | [], h => h
  | (port, lst) :: rest, h =>
    replace.outputs newmodel rest
      (modOutPort (addOutputPort h newmodel port) newmodel port (fun l => l.merge lst))

/-- Source `CoupledModel::replace`. -/
def replace (fuel : Nat) (this : ModelId) (oldmodel newmodel : Option ModelId) (h : Heap) :
    Outcome Unit :=
  match oldmodel, newmodel with
  | some o, some n =>
    let h1 := replace.inputs n (h o).inPortList h
    let h2 := replace.outputs n (h1 o).outPortList h1
    (delModel fuel this o h2).andThen fun _ h3 => addModel this n h3
  | _, _ => .throw .DevsGraphError h

/-- The four strings pushed by `getBasicConnections` for the entries of one
port list. -/
def getBasicConnections.entries (h : Heap) (m : ModelId) (port : String) :
    ModelPortList → List String
  | [] => []
  | (peer, pport) :: rest =>
    [(h m).name, port, (h peer).name, pport] ++ getBasicConnections.entries h m port rest

/-- Loop of `getBasicConnections` over the output ports of one model. -/
def getBasicConnections.ports (h : Heap) (m : ModelId) : ConnectionList → List String
  | [] => []
  | (port, lst) :: rest =>
    getBasicConnections.entries h m port lst ++ getBasicConnections.ports h m rest

/-- Source `CoupledModel::getBasicConnections`. -/
def getBasicConnections (h : Heap) (this : ModelId) : ModelList → Except Error (List String)
  | [] => .ok []
  | (_, m) :: rest =>
    if (h m).parent = some this then
      match getBasicConnections h this rest with
      | .ok l => .ok (getBasicConnections.ports h m (h m).outPortList ++ l)
      | .error e => .error e
    else .error .DevsGraphError

/-- Name-based `CoupledModel::addInternalConnection(src, portSrc, dst, portDst)`. -/
def addInternalConnectionByName (this : ModelId) (src portSrc dst portDst : String) (h : Heap) :
    Outcome Unit :=
  addInternalConnection this (getModel h this src) portSrc (getModel h this dst) portDst h

/-- Loop of `setBasicConnections`, four strings at a time. -/
def setBasicConnections.loop (this : ModelId) : List String → Heap → Outcome Unit
  | source :: portsource :: destination :: portdestination :: rest, h =>
    (addInternalConnectionByName this source portsource destination portdestination h).andThen
      fun _ h1 => setBasicConnections.loop this rest h1
  | _, h => .ok () h

/-- Source `CoupledModel::setBasicConnections`. -/
def setBasicConnections (this : ModelId) (lst : List String) (h : Heap) : Outcome Unit :=
  if lst.length % 4 = 0 then setBasicConnections.loop this lst h
  else .throw .DevsGraphError h

/-- Source `CoupledModel::haveConnectionWithOtherModel`: some entry of some list of
`cnts` has a peer whose name is not a key of `mdls`. -/
def haveConnectionWithOtherModel (h : Heap) (cnts : ConnectionList) (mdls : ModelList) : Bool :=
  cnts.any fun pl => pl.2.any fun e => (mapFind (h e.1).name mdls).isNone

/-- Source `CoupledModel::hasConnectionProblem`. -/
def hasConnectionProblem (h : Heap) (lst : ModelList) : Bool :=
  lst.any fun km =>
    haveConnectionWithOtherModel h (h km.2).inPortList lst
      || haveConnectionWithOtherModel h (h km.2).outPortList lst

/-- Source `CoupledModel::displace`. -/
def displace (this : ModelId) (models : ModelList) (destination : ModelId) (h : Heap) :
    Outcome Unit :=
  if hasConnectionProblem h models then .throw .DevsGraphError h
  else
    match getBasicConnections h this models with
    | .error e => .throw e h
    | .ok cnts =>
      (detachModels this models h).andThen fun _ h1 =>
        (attachModels destination models h1).andThen fun _ h2 =>
          setBasicConnections destination cnts h2

/-! ## Connections given by model names -/

/-- Name-based `CoupledModel::addInputConnection(portSrc, dst, portDst)`. -/
def addInputConnectionByName (this : ModelId) (portSrc dst portDst : String) (h : Heap) :
    Outcome Unit :=
  addInputConnection this portSrc (getModel h this dst) portDst h

/-- Name-based `CoupledModel::addOutputConnection(src, portSrc, portDst)`. -/
def addOutputConnectionByName (this : ModelId) (src portSrc portDst : String) (h : Heap) :
    Outcome Unit :=
  addOutputConnection this (getModel h this src) portSrc portDst h

/-- Name-based `CoupledModel::delInputConnection(portSrc, dst, portDst)`. -/
def delInputConnectionByName (this : ModelId) (portSrc dst portDst : String) (h : Heap) :
    Outcome Unit :=
  delInputConnection this portSrc (getModel h this dst) portDst h

/-- Name-based `CoupledModel::delOutputConnection(src, portSrc, portDst)`. -/
def delOutputConnectionByName (this : ModelId) (src portSrc portDst : String) (h : Heap) :
    Outcome Unit :=
  delOutputConnection this (getModel h this src) portSrc portDst h

/-- Name-based `CoupledModel::delInternalConnection(src, portSrc, dst, portDst)`. -/
def delInternalConnectionByName (this : ModelId) (src portSrc dst portDst : String)
    (h : Heap) : Outcome Unit :=
  delInternalConnection this (getModel h this src) portSrc (getModel h this dst) portDst h

/-! ## Removing all children -/

/-- Loop of `CoupledModel::delAllModel`.  The iterator is stepped twice in every
round, once at the end of the body and once in the header of the `for`.  The
walk is over the entries that the map had on entry; `delModel` erases the entry
the iterator points to, and the reading most favourable to the code is taken,
in which the iterator nevertheless steps to the entry that followed.  A round
that starts on the last entry then steps the iterator beyond `end()`; from
there the C++ standard gives the program no meaning, which is the result
`none`. -/
def delAllModel.loop (fuel : Nat) (this : ModelId) : ModelList → Heap → Option (Outcome Unit)
  | [], h => some (.ok () h)
  | [(_, c)], h =>
    match delModel fuel this c h with
    | .ok _ _ => none
    | r => some r
  | (_, c) :: _ :: rest, h =>
    match delModel fuel this c h with
    | .ok _ h1 => delAllModel.loop fuel this rest h1
    | r => some r

/-- Source `CoupledModel::delAllModel`; the first argument is the recursion
budget of the `delete` statements. -/
def delAllModel (fuel : Nat) (this : ModelId) (h : Heap) : Option (Outcome Unit) :=
  delAllModel.loop fuel this (h this).modelList h

/-! ## Writing the XML text -/

/-- Inner loop of the first block of `CoupledModel::writeConnections`: the
entries of internal output list `port`. -/
def writeConnections.outputPort (h : Heap) (this : ModelId) (port : String) :
    ModelPortList → String → String
  | [], out => out
  | (m, p) :: lst, out =>
    writeConnections.outputPort h this port lst
      (out ++ "<connection type=\"output\">\n"
        ++ " <origin model=\"" ++ (h m).name ++ "\" "
        ++ "port=\"" ++ p ++ "\" />\n"
        ++ " <destination model=\"" ++ (h this).name ++ "\" "
        ++ "port=\"" ++ port ++ "\" />\n"
        ++ "</connection>\n")

/-- First loop of `CoupledModel::writeConnections`, over `m_internalOutputList`. -/
def writeConnections.outputs (h : Heap) (this : ModelId) : ConnectionList → String → String
  | [], out => out
  | (port, lst) :: rest, out =>
    writeConnections.outputs h this rest (writeConnections.outputPort h this port lst out)

/-- Inner loop of the second block of `CoupledModel::writeConnections`: the
entries of internal input list `port`. -/
def writeConnections.inputPort (h : Heap) (this : ModelId) (port : String) :
    ModelPortList → String → String
  | [], out => out
  | (m, p) :: lst, out =>
    writeConnections.inputPort h this port lst
      (out ++ "<connection type=\"input\">\n"
        ++ " <origin model=\"" ++ (h this).name ++ "\" "
        ++ "port=\"" ++ port ++ "\" />\n"
        ++ " <destination model=\"" ++ (h m).name ++ "\" "
        ++ "port=\"" ++ p ++ "\" />\n"
        ++ "</connection>\n")

/-- Second loop of `CoupledModel::writeConnections`, over `m_internalInputList`. -/
def writeConnections.inputs (h : Heap) (this : ModelId) : ConnectionList → String → String
  | [], out => out
  | (port, lst) :: rest, out =>
    writeConnections.inputs h this rest (writeConnections.inputPort h this port lst out)

/-- Innermost loop of the third block of `CoupledModel::writeConnections`: the
entries of output port `port` of child `child`, those whose peer is `this`
being skipped. -/
def writeConnections.internalPort (h : Heap) (this child : ModelId) (port : String) :
    ModelPortList → String → String
  | [], out => out
  | (m, p) :: lst, out =>
    if m ≠ this then
      writeConnections.internalPort h this child port lst
        (out ++ "<connection type=\"internal\">\n"
          ++ " <origin model=\"" ++ (h child).name ++ "\" "
          ++ "port=\"" ++ port ++ "\" />\n"
          ++ " <destination model=\"" ++ (h m).name
          ++ "\" port=\"" ++ p ++ "\" />\n"
          ++ "</connection>\n")
    else writeConnections.internalPort h this child port lst out

/-- Middle loop of the third block: the output ports of child `child`. -/
def writeConnections.internalPorts (h : Heap) (this child : ModelId) :
    ConnectionList → String → String
  | [], out => out
  | (port, lst) :: rest, out =>
    writeConnections.internalPorts h this child rest
      (writeConnections.internalPort h this child port lst out)

/-- Third loop of `CoupledModel::writeConnections`, over the children. -/
def writeConnections.children (h : Heap) (this : ModelId) : ModelList → String → String
  | [], out => out
  | (_, c) :: rest, out =>
    writeConnections.children h this rest
      (writeConnections.internalPorts h this c (h c).outPortList out)

/-- Source `CoupledModel::writeConnections`; the stream is the text written so
far. -/
def writeConnections (h : Heap) (this : ModelId) (out : String) : String :=
  let out1 := writeConnections.outputs h this (h this).internalOutputList out
  let out2 := writeConnections.inputs h this (h this).internalInputList out1
  writeConnections.children h this (h this).modelList out2

/-- Loop of `CoupledModel::writeXML` over the children: `writeXML` of every
child in turn. -/
def writeXML.children (f : ModelId → String → Option String) :
    ModelList → String → Option String
  | [], out => some out
  | (_, c) :: rest, out =>
    match f c out with
    | some out1 => writeXML.children f rest out1
    | none => none

/-- Source `CoupledModel::writeXML`.  `Model::writePortListXML` and the
`writeXML` of the leaf models are not among the sources and are left as the
parameters `ports` and `leaf`; the virtual call on a child goes to this
function when the child is coupled, and the first argument bounds the depth
of that recursion. -/
def writeXML (ports leaf : Heap → ModelId → String → String) :
    Nat → Heap → ModelId → String → Option String
  | 0, _, _, _ => none
  | fuel + 1, h, this, out =>
    match (h this).kind with
    | .coupled =>
      let out1 := out ++ "<model name=\"" ++ (h this).name ++ "\" " ++ " type=\"coupled\" >\n"
      let out2 := ports h this out1
      let out3 := out2 ++ "<submodels>\n"
      match writeXML.children (writeXML ports leaf fuel h) (h this).modelList out3 with
      | none => none
      | some out4 =>
        let out5 := out4 ++ "<connections>\n"
        let out6 := writeConnections h this out5
        some (out6 ++ "<connections>\n")
    | _ => some (leaf h this out)

/-! ## Testing for a connection -/

/-- Modelled from the spec: `Model::existInputPort` (Model.hpp, not among the
sources) tells whether the model has an input port of that name. -/
def existInputPort (h : Heap) (x : ModelId) (name : String) : Bool :=
  (inPort h x name).isSome

/-- Modelled from the spec: `Model::existOutputPort` (Model.hpp, not among the
sources) tells whether the model has an output port of that name. -/
def existOutputPort (h : Heap) (x : ModelId) (name : String) : Bool :=
  (outPort h x name).isSome

/-- Modelled from the spec: `CoupledModel::existInternalInputPort` is declared
in `CoupledModel.hpp`, which is not among the sources; it tells whether the
coupled model has an internal input list of that name. -/
def existInternalInputPort (h : Heap) (this : ModelId) (name : String) : Bool :=
  (internalInPort h this name).isSome

/-- Modelled from the spec: `CoupledModel::existInternalOutputPort` is declared
in `CoupledModel.hpp`, which is not among the sources; it tells whether the
coupled model has an internal output list of that name. -/
def existInternalOutputPort (h : Heap) (this : ModelId) (name : String) : Bool :=
  (internalOutPort h this name).isSome

/-- Source `CoupledModel::existInputConnection`. -/
def existInputConnection (h : Heap) (this : ModelId) (portsrc dst portdst : String) :
    Except Error Bool :=
  match findModel h this dst with
  | none => .ok false
  | some mdst =>
    if !existInputPort h mdst portdst then .ok false
    else if !existInternalInputPort h this portsrc then .ok false
    else
      match getInternalInPort h this portsrc with
      | .error e => .error e
      | .ok mp_src =>
        match getInPort h mdst portdst with
        | .error e => .error e
        | .ok mp_dst =>
          if !mp_src.exist mdst portdst then .ok false
          else if !mp_dst.exist this portsrc then .ok false
          else .ok true

/-- Source `CoupledModel::existOutputConnection`. -/
def existOutputConnection (h : Heap) (this : ModelId) (src portsrc portdst : String) :
    Except Error Bool :=
  match findModel h this src with
  | none => .ok false
  | some msrc =>
    if !existOutputPort h msrc portsrc then .ok false
    else if !existInternalOutputPort h this portdst then .ok false
    else
      match getOutPort h msrc portsrc with
      | .error e => .error e
      | .ok mp_src =>
        match getInternalOutPort h this portdst with
        | .error e => .error e
        | .ok mp_dst =>
          if !mp_src.exist this portdst then .ok false
          else if !mp_dst.exist msrc portsrc then .ok false
          else .ok true

/-- Source `CoupledModel::existInternalConnection`. -/
def existInternalConnection (h : Heap) (this : ModelId) (src portsrc dst portdst : String) :
    Except Error Bool :=
  match findModel h this src, findModel h this dst with
  | some msrc, some mdst =>
    if !existOutputPort h msrc portsrc then .ok false
    else if !existInputPort h mdst portdst then .ok false
    else
      match getOutPort h msrc portsrc with
      | .error e => .error e
      | .ok mp_src =>
        match getInPort h mdst portdst with
        | .error e => .error e
        | .ok mp_dst =>
          if !mp_src.exist mdst portdst then .ok false
          else if !mp_dst.exist msrc portsrc then .ok false
          else .ok true
  | _, _ => .ok false

/-! ## Building a new name -/

/-- Largest value of the C++ type `int`, the type of the counter of
`buildNewName`. -/
def INT_MAX : Nat := 2147483647

/-- How a run of `buildNewName` ends: it returns a name, or it executes `++i`
on the largest `int` (signed overflow, to which C++ gives no meaning), or the
budget of iterations given to the run is used up. -/
inductive NameResult where
  | name (s : String)
  | overflow
  | outOfFuel
deriving DecidableEq

/-- The `do ... while` loop of `CoupledModel::buildNewName`, started with
counter `i`; the first argument after the name bounds the number of
iterations.  The text `boost::format("%1%-%2%") % name % i` is the name, a
dash and the decimal digits of `i`.  The loop condition of the source is
`exist(name)`. -/
def buildNewName.loop (h : Heap) (this : ModelId) (name : String) : Nat → Nat → NameResult
  | 0, _ => .outOfFuel
  | fuel + 1, i =>
    let newname := name ++ "-" ++ toString i
    if i = INT_MAX then .overflow
    else if exist h this name then buildNewName.loop h this name fuel (i + 1)
    else .name newname

/-- Source `CoupledModel::buildNewName`; the first argument bounds the number
of iterations of the loop. -/
def buildNewName (fuel : Nat) (h : Heap) (this : ModelId) (pfx : String) : NameResult :=
  let name := if pfx.isEmpty then "runtimebuilding" else pfx
  buildNewName.loop h this name fuel 0

/-! ## Specification vocabulary -/

/-- The four connection tables a model object can carry. -/
inductive Table where
  | inP
  | outP
  | internalIn
  | internalOut
deriving DecidableEq, Repr

/-- The list stored in table `t` of model `x` under port name `r`. -/
def table (h : Heap) (t : Table) (x : ModelId) (r : String) : Option ModelPortList :=
  match t with
  | .inP => inPort h x r
  | .outP => outPort h x r
  | .internalIn => internalInPort h x r
  | .internalOut => internalOutPort h x r

/-- The whole of table `t` of model `x`. -/
def rawTable (h : Heap) (t : Table) (x : ModelId) : ConnectionList :=
  match t with
  | .inP => (h x).inPortList
  | .outP => (h x).outPortList
  | .internalIn => (h x).internalInputList
  | .internalOut => (h x).internalOutputList

/-- Write through the reference to the list in slot `s`; the four writers
`modInPort`, `modOutPort`, `modInternalInPort` and `modInternalOutPort` are its
instances. -/
def modTable (h : Heap) (s : Table × ModelId × String) (f : ModelPortList → ModelPortList) :
    Heap :=
  match s.1 with
  | .inP => modInPort h s.2.1 s.2.2 f
  | .outP => modOutPort h s.2.1 s.2.2 f
  | .internalIn => modInternalInPort h s.2.1 s.2.2 f
  | .internalOut => modInternalOutPort h s.2.1 s.2.2 f

/-- The list in slot `s`, empty when the port does not exist. -/
def tableD (h : Heap) (s : Table × ModelId × String) : ModelPortList :=
  (table h s.1 s.2.1 s.2.2).getD []

/-- Two connection tables with the same port names in the same order, whose
lists are related by `R` port by port. -/
def ListRel (R : ModelPortList → ModelPortList → Prop) (a b : ConnectionList) : Prop :=
  List.Forall₂ (fun x y => x.1 = y.1 ∧ R x.2 y.2) a b

/-- Two heaps that differ only in the contents of port lists, the list of
table `t` of model `x` having changed according to `R t x`. -/
def HeapRel (R : Table → ModelId → ModelPortList → ModelPortList → Prop) (h hh : Heap) : Prop :=
  ∀ x, (hh x).name = (h x).name ∧ (hh x).parent = (h x).parent ∧ (hh x).kind = (h x).kind ∧
    (hh x).modelList = (h x).modelList ∧
    ∀ t, ListRel (R t x) (rawTable h t x) (rawTable hh t x)

/-- Common shape of the two inner loops of `delAllConnection(Model* m)`: for
every entry `(peer, pport)` of a list of `m`, the mirror entry `(m, port)` is
removed from the list in slot `slot peer pport`, which must exist. -/
def pruneLoop (slot : ModelId → String → Table × ModelId × String) (m : ModelId)
    (port : String) : ModelPortList → Heap → Outcome Unit
  | [], h => .ok () h
  | (peer, pport) :: rest, h =>
    match table h (slot peer pport).1 (slot peer pport).2.1 (slot peer pport).2.2 with
    | none => .throw .DevsGraphError h
    | some _ =>
      pruneLoop slot m port rest (modTable h (slot peer pport) (fun l => l.remove m port))

/-- Common shape of the two outer loops of `delAllConnection(Model* m)`, over
the ports of table `own` of `m`. -/
def pruneAll (own : Table) (slot : ModelId → String → Table × ModelId × String) (m : ModelId) :
    ConnectionList → Heap → Outcome Unit
  | [], h => .ok () h
  | (port, ins) :: rest, h =>
    (pruneLoop slot m port ins h).andThen fun _ h1 =>
      pruneAll own slot m rest (modTable h1 (own, m, port) ModelPortList.remove_all)

/-- The entry `e` of a port list does not refer to model `m`. -/
def notAbout (m : ModelId) (e : ModelId × String) : Bool :=
  !decide (e.1 = m)

/-- What the removal of the connections of `m` may do to the list of table `t`
of model `x`: entries are only taken out, and in the tables selected by `keep`
only entries that refer to `m` are. -/
def Rprune (keep : Table → ModelId → Prop) (m : ModelId) (t : Table) (x : ModelId)
    (l l' : ModelPortList) : Prop :=
  List.Sublist l' l ∧
    (keep t x →
      l'.filter (notAbout m) = l.filter (notAbout m))

/-- What the destruction of the models of `S` may do to a list of model `x`:
entries are only taken out, and nothing changes outside `S`. -/
def Rdestroy (S : ModelId → Prop) (_t : Table) (x : ModelId) (l l' : ModelPortList) : Prop :=
  List.Sublist l' l ∧ (¬ S x → l' = l)

/-- The set `S` holds `m` and everything below it: it is closed under "child
of", nobody in it has `m` as a child, and its members other than `m` are
connected to members of `S` only (the children of a coupled model are coupled
to their siblings and to their parent). -/
def Subtree (h : Heap) (S : ModelId → Prop) (m : ModelId) : Prop :=
  S m ∧
  (∀ x, S x → ∀ kc ∈ (h x).modelList, S kc.2 ∧ kc.2 ≠ m) ∧
  (∀ x, S x → x ≠ m → ∀ pl ∈ (h x).inPortList ++ (h x).outPortList, ∀ e ∈ pl.2, S e.1)

/-- Every quadruple (source, port, destination, port) of a flat list of basic
connections has a source name and a destination name that satisfy `K`. -/
def AllQuads (K : String → Prop) : List String → Prop
  | s :: _ :: d :: _ :: rest => K s ∧ K d ∧ AllQuads K rest
  | _ => True

/-- What `setBasicConnections` may do to a list of model `x` when it connects
the models of `models`: the lists of the other models are left alone. -/
def Rconnect (models : ModelList) (_t : Table) (x : ModelId) (l l' : ModelPortList) : Prop :=
  (∀ k, (k, x) ∉ models) → l' = l

/-- Outbound list of `(a, p)` as seen inside coupled model `P`: an internal
input list of `P` when `a` is `P` itself (an input port of `P` is a source for
its children), the output port list of `a` otherwise. -/
def outbound (h : Heap) (P a : ModelId) (p : String) : ModelPortList :=
  if a = P then (internalInPort h P p).getD [] else (outPort h a p).getD []

/-- Inbound list of `(b, q)` as seen inside coupled model `P`: an internal
output list of `P` when `b` is `P` itself, the input port list of `b`
otherwise. -/
def inbound (h : Heap) (P b : ModelId) (q : String) : ModelPortList :=
  if b = P then (internalOutPort h P q).getD [] else (inPort h b q).getD []

/-- The models whose couplings coupled model `P` manages: `P` and its
children. -/
def inScope (h : Heap) (P a : ModelId) : Prop :=
  a = P ∨ ∃ k, (k, a) ∈ (h P).modelList

/-- Mirror invariant inside `P`: a connection from `(a, p)` to `(b, q)` occurs
as often in the outbound list of its source as in the inbound list of its
destination. -/
def Mirror (h : Heap) (P : ModelId) : Prop :=
  ∀ a b p q, inScope h P a → inScope h P b →
    List.count (b, q) (outbound h P a p) = List.count (a, p) (inbound h P b q)

/-- Slot holding the outbound list of `(a, p)` inside `P`. -/
def outSlot (P a : ModelId) (p : String) : Table × ModelId × String :=
  if a = P then (.internalIn, P, p) else (.outP, a, p)

/-- Slot holding the inbound list of `(b, q)` inside `P`. -/
def inSlot (P b : ModelId) (q : String) : Table × ModelId × String :=
  if b = P then (.internalOut, P, q) else (.inP, b, q)

/-- The port named by slot `s` exists. -/
def hasSlot (h : Heap) (s : Table × ModelId × String) : Prop :=
  (table h s.1 s.2.1 s.2.2).isSome = true

/-- Every connection that child `c` has inside coupled model `P` ends at an
existing port: for every entry of an input port list of `c` the outbound list
of the peer exists, and for every entry of an output port list of `c` the
inbound list of the peer exists. -/
def EndpointsExist (h : Heap) (P c : ModelId) : Prop :=
  (∀ pl ∈ (h c).inPortList, ∀ e ∈ pl.2, hasSlot h (outSlot P e.1 e.2)) ∧
  (∀ pl ∈ (h c).outPortList, ∀ e ∈ pl.2, hasSlot h (inSlot P e.1 e.2))

/-- The list `after` is the list `before` with exactly one more occurrence of
the entry `e`. -/
def AddsOne (before after : Option ModelPortList) (e : ModelId × String) : Prop :=
  ∃ l l', before = some l ∧ after = some l' ∧ List.Perm l' (e :: l)

/-- The list `after` is the list `before` with one occurrence of the entry `e`
taken out (and `before` itself when `e` does not occur in it). -/
def RemovesOne (before after : Option ModelPortList) (e : ModelId × String) : Prop :=
  ∃ l, before = some l ∧ after = some (l.erase e)

/-- From `h` to `hh` one occurrence of `e1` is taken out of the list in slot
`s1`, one occurrence of `e2` out of the list in slot `s2`, and no other list of
any table of any model changes. -/
def RemovesEdge (h hh : Heap) (s1 : Table × ModelId × String) (e1 : ModelId × String)
    (s2 : Table × ModelId × String) (e2 : ModelId × String) : Prop :=
  RemovesOne (table h s1.1 s1.2.1 s1.2.2) (table hh s1.1 s1.2.1 s1.2.2) e1 ∧
  RemovesOne (table h s2.1 s2.2.1 s2.2.2) (table hh s2.1 s2.2.1 s2.2.2) e2 ∧
  ∀ t x r, (t, x, r) ≠ s1 → (t, x, r) ≠ s2 → table hh t x r = table h t x r

/-- From `h` to `hh` exactly one occurrence of `e1` is added to the list in
slot `s1`, exactly one occurrence of `e2` to the list in slot `s2`, and no
other list of any table of any model changes. -/
def AddsEdge (h hh : Heap) (s1 : Table × ModelId × String) (e1 : ModelId × String)
    (s2 : Table × ModelId × String) (e2 : ModelId × String) : Prop :=
  AddsOne (table h s1.1 s1.2.1 s1.2.2) (table hh s1.1 s1.2.1 s1.2.2) e1 ∧
  AddsOne (table h s2.1 s2.2.1 s2.2.2) (table hh s2.1 s2.2.1 s2.2.2) e2 ∧
  ∀ t x r, (t, x, r) ≠ s1 → (t, x, r) ≠ s2 → table hh t x r = table h t x r

/-- The effect of a successful child creation on the graph: the cell `x`
holds an empty model of the given kind, named `name`, whose parent is `P`;
`name` now finds `x` in the child map of `P`, every other name finds what it
found before, every entry of the child map is still there, and every model
other than `x` keeps its name, its parent, its kind and its four connection
tables, and (`P` apart) its child map. -/
def AddsChild (h hh : Heap) (P : ModelId) (name : String) (x : ModelId) (kind : Kind) : Prop :=
  hh x = newModel kind name (some P) ∧
  findModel hh P name = some x ∧
  (∀ k, k ≠ name → findModel hh P k = findModel h P k) ∧
  (∀ kc ∈ (h P).modelList, kc ∈ (hh P).modelList ∧ kc.2 ≠ x) ∧
  ∀ y, y ≠ x →
    (hh y).name = (h y).name ∧ (hh y).parent = (h y).parent ∧ (hh y).kind = (h y).kind ∧
    (∀ t, rawTable hh t y = rawTable h t y) ∧
    (y ≠ P → (hh y).modelList = (h y).modelList)

/-- The text of one `<connection>` element: its type, then the origin and the
destination, each a (model name, port name) pair. -/
def connectionElement (type : String) (origin destination : String × String) : String :=
  "<connection type=\"" ++ type ++ "\">\n <origin model=\"" ++ origin.1 ++ "\" port=\""
    ++ origin.2 ++ "\" />\n <destination model=\"" ++ destination.1 ++ "\" port=\""
    ++ destination.2 ++ "\" />\n</connection>\n"

/-- Concatenation of a list of texts, in order. -/
def concatAll : List String → String
  | [] => ""
  | s :: rest => s ++ concatAll rest

/-- The output couplings of coupled model `P`, one for every entry of its
internal output lists: from the child port named by the entry to the port of
`P` that owns the list. -/
def outputCouplings (h : Heap) (P : ModelId) : List ((String × String) × (String × String)) :=
  (h P).internalOutputList.flatMap fun pl =>
    pl.2.map fun e => (((h e.1).name, e.2), ((h P).name, pl.1))

/-- The input couplings of coupled model `P`, one for every entry of its
internal input lists: from the port of `P` that owns the list to the child port
named by the entry. -/
def inputCouplings (h : Heap) (P : ModelId) : List ((String × String) × (String × String)) :=
  (h P).internalInputList.flatMap fun pl =>
    pl.2.map fun e => (((h P).name, pl.1), ((h e.1).name, e.2))

/-- The internal couplings of coupled model `P`, one for every entry of an
output-port list of a child whose peer is not `P`: from the child port that
owns the list to the port named by the entry. -/
def internalCouplings (h : Heap) (P : ModelId) : List ((String × String) × (String × String)) :=
  (h P).modelList.flatMap fun kc =>
    (h kc.2).outPortList.flatMap fun pl =>
      (pl.2.filter fun e => decide (e.1 ≠ P)).map fun e =>
        (((h kc.2).name, pl.1), ((h e.1).name, e.2))

/-- The three blocks of connection elements of coupled model `P`: output,
then input, then internal. -/
def connectionsText (h : Heap) (P : ModelId) : String :=
  concatAll ((outputCouplings h P).map fun c => connectionElement "output" c.1 c.2)
    ++ concatAll ((inputCouplings h P).map fun c => connectionElement "input" c.1 c.2)
    ++ concatAll ((internalCouplings h P).map fun c => connectionElement "internal" c.1 c.2)

/-- A start tag or an end tag of an XML text, with the element name. -/
inductive XmlTag where
  | opening (name : List Char)
  | closing (name : List Char)
deriving DecidableEq

/-- The tag written between `<` and `>`: an end tag when the text starts with
`/`, nothing when it ends with `/` (an empty element opens and closes at
once), a start tag otherwise; the element name stops at the first blank. -/
def xmlTag (body : List Char) : List XmlTag :=
  match body with
  | '/' :: rest => [.closing (rest.takeWhile fun c => decide (c ≠ ' '))]
  | _ =>
    if body.getLast? = some '/' then []
    else [.opening (body.takeWhile fun c => decide (c ≠ ' '))]

/-- The tags of a text in order; the first argument holds, reversed, the
characters read since the last `<` that is still open. -/
def xmlTags : Option (List Char) → List Char → List XmlTag
  | _, [] => []
  | none, c :: cs => if c = '<' then xmlTags (some []) cs else xmlTags none cs
  | some acc, c :: cs =>
    if c = '>' then xmlTag acc.reverse ++ xmlTags none cs else xmlTags (some (c :: acc)) cs

/-- Proper nesting of a sequence of tags, given the names of the elements that
are open: every end tag closes the innermost open element, and no element is
left open at the end. -/
def properlyNested : List (List Char) → List XmlTag → Bool
  | stack, [] => stack.isEmpty
  | stack, .opening n :: ts => properlyNested (n :: stack) ts
  | [], .closing _ :: _ => false
  | n0 :: stack, .closing n :: ts => decide (n0 = n) && properlyNested stack ts

/-- Every element opened in the text is closed by a matching end tag, in
properly nested order. -/
def balanced (s : String) : Bool :=
  properlyNested [] (xmlTags none s.data)

/-- Property P2: every model found in a child map has the owner of that map as
its parent. -/
def ParentsAgree (h : Heap) : Prop :=
  ∀ Q kc, kc ∈ (h Q).modelList → (h kc.2).parent = some Q

/-- The model `x` is an entry of no child map. -/
def Uncontained (h : Heap) (x : ModelId) : Prop :=
  ∀ Q k, (k, x) ∉ (h Q).modelList

/-- The child maps are maps keyed by the names of the children: in every map
the keys are distinct and every child is stored under its name. -/
def KeyedByName (h : Heap) : Prop :=
  ∀ Q, ((h Q).modelList.map Prod.fst).Nodup ∧ ∀ kc ∈ (h Q).modelList, (h kc.2).name = kc.1

/-- One call, on some coupled model `P`, of a child operation that returns
normally.  The address that `new` hands out to the three creating operations is
not the address of `P` and is the address of no model held in a child map.
With `guarded` set, `addModel` is only applied to a model that is held in no
child map. -/
inductive Step (guarded : Bool) : Heap → Heap → Prop where
  | atomic (P : ModelId) (name : String) (x : ModelId) (h hh : Heap) :
      x ≠ P → Uncontained h x → addAtomicModel P name x h = .ok x hh → Step guarded h hh
  | coupled (P : ModelId) (name : String) (x : ModelId) (h hh : Heap) :
      x ≠ P → Uncontained h x → addCoupledModel P name x h = .ok x hh → Step guarded h hh
  | novle (P : ModelId) (name : String) (x : ModelId) (h hh : Heap) :
      x ≠ P → Uncontained h x → addNoVLEModel P name x h = .ok x hh → Step guarded h hh
  | add (P m : ModelId) (h hh : Heap) :
      (guarded = true → Uncontained h m) → addModel P m h = .ok () hh → Step guarded h hh
  | attach (P m : ModelId) (h hh : Heap) :
      attachModel P m h = .ok () hh → Step guarded h hh
  | detach (P m : ModelId) (h hh : Heap) :
      detachModel P m h = .ok () hh → Step guarded h hh
  | del (fuel : Nat) (P m : ModelId) (h hh : Heap) :
      delModel fuel P m h = .ok () hh → Step guarded h hh

/-- The graphs reached from `h0` by a sequence of returning calls. -/
inductive Reachable (guarded : Bool) (h0 : Heap) : Heap → Prop where
  | start : Reachable guarded h0 h0
  | step (h hh : Heap) : Reachable guarded h0 h → Step guarded h hh → Reachable guarded h0 hh

/-- The graph `g` is the graph `h` in which only the port lists of model `n`
have been written: the other models are untouched, `n` keeps its name, its
parent, its kind and its child map, and every port that exists in `h` exists
in `g`. -/
def PortsWritten (n : ModelId) (h g : Heap) : Prop :=
  (∀ x, x ≠ n → g x = h x) ∧
  ((g n).name = (h n).name ∧ (g n).parent = (h n).parent ∧ (g n).kind = (h n).kind ∧
    (g n).modelList = (h n).modelList) ∧
  ∀ s, hasSlot h s → hasSlot g s

/-- Every port list of `g` has the content of the same list of `h`, as a
multiset: the ports are the same, and each list of `g` is a permutation of the
list of `h`. -/
def SameLists (h g : Heap) : Prop :=
  ∀ t x r, (table h t x r = none ∧ table g t x r = none) ∨
    ∃ l l', table h t x r = some l ∧ table g t x r = some l' ∧ List.Perm l' l

/-- Round trip of a connection from graph `h`: the test `ex` says no; `add`
returns and then the test says yes; `del` returns and then the test says no
again, and all the port lists have their content of `h`. -/
def RoundTrip (ex : Heap → Except Error Bool) (add del : Heap → Outcome Unit) (h : Heap) :
    Prop :=
  ex h = .ok false ∧
  ∃ h1, add h = .ok () h1 ∧ ex h1 = .ok true ∧
    ∃ h2, del h1 = .ok () h2 ∧ ex h2 = .ok false ∧ SameLists h h2

/-- The two writes of an `add...Connection` or `del...Connection` call: the
operation `f` of `ModelPortList` applied with entry `e1` to the list in slot
`s1`, then with entry `e2` to the list in slot `s2`. -/
def twoWrites (f : ModelPortList → ModelId → String → ModelPortList) (h : Heap)
    (s1 : Table × ModelId × String) (e1 : ModelId × String)
    (s2 : Table × ModelId × String) (e2 : ModelId × String) : Heap :=
  modTable (modTable h s1 (fun l => f l e1.1 e1.2)) s2 (fun l => f l e2.1 e2.2)

/-- The basic connections of the models of `models`, one quadruple (model
name, port, peer name, peer port) for every entry of an output-port list, in
the order of iteration. -/
def basicQuadruples (h : Heap) (models : ModelList) :
    List (String × String × String × String) :=
  models.flatMap fun km =>
    (h km.2).outPortList.flatMap fun pl =>
      pl.2.map fun e => ((h km.2).name, pl.1, (h e.1).name, e.2)

/-- The flat list of strings of a list of quadruples. -/
def flattenQuadruples : List (String × String × String × String) → List String
  | [] => []
  | (a, b, c, d) :: rest => a :: b :: c :: d :: flattenQuadruples rest

/-- The quadruples of a flat list of strings, four strings at a time (strings
left over at the end are dropped). -/
def quadruplesOf : List String → List (String × String × String × String)
  | a :: b :: c :: d :: rest => (a, b, c, d) :: quadruplesOf rest
  | _ => []

/-- One name-based `addInternalConnection` on `P` for every quadruple, in
order, as long as the calls return. -/
def connectAll (P : ModelId) : List (String × String × String × String) → Heap → Outcome Unit
  | [], h => .ok () h
  | (a, b, c, d) :: rest, h =>
    (addInternalConnectionByName P a b c d h).andThen fun _ g => connectAll P rest g

/-- The number of entries of all the output-port lists of the models of
`models`. -/
def outputEntryCount (h : Heap) (models : ModelList) : Nat :=
  (models.map fun km => ((h km.2).outPortList.map fun pl => pl.2.length).sum).sum

/-! ## A small graph used to instantiate the theorems -/

/-- A coupled model `top` at address 0 with one input port `in`, one output
port `out` and two atomic children `a` (address 1) and `b` (address 2), each
with an input port `in` and an output port `out`; no connection yet. -/
def exampleHeap : Heap := fun i =>
  if i = 0 then
    { name := "top", parent := none, inPortList := [], outPortList := [], kind := .coupled,
      modelList := [("a", 1), ("b", 2)], internalInputList := [("in", [])],
      internalOutputList := [("out", [])] }
  else if i = 1 then
    { name := "a", parent := some 0, inPortList := [("in", [])], outPortList := [("out", [])],
      kind := .atomic, modelList := [], internalInputList := [], internalOutputList := [] }
  else if i = 2 then
    { name := "b", parent := some 0, inPortList := [("in", [])], outPortList := [("out", [])],
      kind := .atomic, modelList := [], internalInputList := [], internalOutputList := [] }
  else newModel .atomic "" none

/-- The example graph after `addInternalConnection(a, "out", b, "in")`: the list
of `a.out` holds `(b, in)` and the list of `b.in` holds `(a, out)`. -/
def connectedHeap : Heap := fun i =>
  if i = 0 then
    { name := "top", parent := none, inPortList := [], outPortList := [], kind := .coupled,
      modelList := [("a", 1), ("b", 2)], internalInputList := [("in", [])],
      internalOutputList := [("out", [])] }
  else if i = 1 then
    { name := "a", parent := some 0, inPortList := [("in", [])],
      outPortList := [("out", [(2, "in")])],
      kind := .atomic, modelList := [], internalInputList := [], internalOutputList := [] }
  else if i = 2 then
    { name := "b", parent := some 0, inPortList := [("in", [(1, "out")])],
      outPortList := [("out", [])],
      kind := .atomic, modelList := [], internalInputList := [], internalOutputList := [] }
  else newModel .atomic "" none

/-- The example graph with the three connections `top.in -> a.in`,
`a.out -> b.in` and `b.out -> top.out`. -/
def chainHeap : Heap := fun i =>
  if i = 0 then
    { name := "top", parent := none, inPortList := [], outPortList := [], kind := .coupled,
      modelList := [("a", 1), ("b", 2)], internalInputList := [("in", [(1, "in")])],
      internalOutputList := [("out", [(2, "out")])] }
  else if i = 1 then
    { name := "a", parent := some 0, inPortList := [("in", [(0, "in")])],
      outPortList := [("out", [(2, "in")])],
      kind := .atomic, modelList := [], internalInputList := [], internalOutputList := [] }
  else if i = 2 then
    { name := "b", parent := some 0, inPortList := [("in", [(1, "out")])],
      outPortList := [("out", [(0, "out")])],
      kind := .atomic, modelList := [], internalInputList := [], internalOutputList := [] }
  else newModel .atomic "" none

/-- A two-level graph: `top` (address 0) has the children `a` (1) and `b` (2)
with the connection `a.out -> b.in`; `a` is itself coupled, with one atomic
child `g` (4) and the input connection `a.in -> g.in`. -/
def nestedHeap : Heap := fun i =>
  if i = 0 then
    { name := "top", parent := none, inPortList := [], outPortList := [], kind := .coupled,
      modelList := [("a", 1), ("b", 2)], internalInputList := [("in", [])],
      internalOutputList := [("out", [])] }
  else if i = 1 then
    { name := "a", parent := some 0, inPortList := [("in", [])],
      outPortList := [("out", [(2, "in")])],
      kind := .coupled, modelList := [("g", 4)], internalInputList := [("in", [(4, "in")])],
      internalOutputList := [("out", [])] }
  else if i = 2 then
    { name := "b", parent := some 0, inPortList := [("in", [(1, "out")])],
      outPortList := [("out", [])],
      kind := .atomic, modelList := [], internalInputList := [], internalOutputList := [] }
  else if i = 4 then
    { name := "g", parent := some 1, inPortList := [("in", [(1, "in")])],
      outPortList := [("out", [])],
      kind := .atomic, modelList := [], internalInputList := [], internalOutputList := [] }
  else newModel .atomic "" none

/-- The graph `chainHeap` together with a fresh atomic model `c` at address
3, which has no parent and no port yet. -/
def replaceHeap : Heap := Function.update chainHeap 3 (newModel .atomic "c" none)

/-- The graph `connectedHeap` together with an empty coupled model `dest` at
address 3. -/
def displaceHeap : Heap := Function.update connectedHeap 3 (newModel .coupled "dest" none)

/-- The graph `exampleHeap` in which the first child is named `top`, like the
coupled model that holds it. -/
def sameNameHeap : Heap :=
  Function.update
    (Function.update exampleHeap 0 { exampleHeap 0 with modelList := [("b", 2), ("top", 1)] })
    1 { exampleHeap 1 with name := "top" }

/-- A single coupled model `top` at address 0, without port, child or
connection. -/
def loneHeap : Heap := fun _ => newModel .coupled "top" none

/-- The graph `connectedHeap` together with a coupled model `dest` at address
3 that already has a child named `a`, the atomic model at address 5. -/
def collideHeap : Heap :=
  Function.update
    (Function.update connectedHeap 3
      { newModel .coupled "dest" none with modelList := [("a", 5)] })
    5 (newModel .atomic "a" (some 3))

/-- The graph `chainHeap` together with a fresh atomic model at address 3
that is named `b`, like the second child of `top`, and has no parent and no
port yet. -/
def clashHeap : Heap := Function.update chainHeap 3 (newModel .atomic "b" none)

/-- A coupled model `top` at address 0 whose only child, the atomic model at
address 1, is named `p-0`. -/
def takenNameHeap : Heap :=
  Function.update
    (Function.update loneHeap 0 { loneHeap 0 with modelList := [("p-0", 1)] })
    1 (newModel .atomic "p-0" (some 0))

/-- The graph `sameNameHeap` with the input coupling `top.in -> top.in` from
the coupled model `top` to its child of the same name. -/
def namesakeInputHeap : Heap :=
  twoWrites ModelPortList.add sameNameHeap (.internalIn, 0, "in") (1, "in") (.inP, 1, "in")
    (0, "in")

end vle.graph

/-! # The observation daemon (`apps/oov/main.cpp`) -/

namespace vle.apps.oov

/-- The classes of exception that the handlers of `main` tell apart:
`Glib::Error` (a `Glib::Exception`), another `Glib::Exception`,
`std::exception`, and anything else. -/
inductive Exc where
  | glibError
  | glibException
  | stdException
  | other
deriving DecidableEq, Repr

/-- What the environment does in one run of `main`: for every call made inside
a `try` block, the exception it throws, if any, and the three flags of the
command line.  The calls are `context.parse(argc, argv)`, `command.check()`,
`Trace::setLogFile(...)`, `Trace::setLevel(...)`, the construction of the
`OovNetStreamReader`, `net.setBufferSize(4096)` and `net.process()`. -/
structure Env where
  parse : Option Exc
  check : Option Exc
  setLogFile : Option Exc
  setLevel : Option Exc
  isDaemon : Bool
  infos : Bool
  version : Bool
  netNew : Option Exc
  setBufferSize : Option Exc
  process : Option Exc

/-- How `main` ends: it returns an exit code, or an exception that no handler
catches leaves it, in which case `std::terminate` ends the process. -/
inductive Exit where
  | returned (code : Int)
  | terminated
deriving DecidableEq, Repr

/-- Value of the macro `EXIT_SUCCESS`. -/
def EXIT_SUCCESS : Int := 0

/-- Value of the macro `EXIT_FAILURE`. -/
def EXIT_FAILURE : Int := 1

/-- The exception that leaves a sequence of calls: that of the first call that
throws. -/
def firstThrow : List (Option Exc) → Option Exc
  | [] => none
  | some e :: _ => some e
  | none :: rest => firstThrow rest

/-- Source `main` of `apps/oov/main.cpp`.  The calls outside the two `try`
blocks (`manager::init`, `buildDaemon`, the two printing functions and the
`finalize` functions) are not among the sources and are taken to return;
`buildDaemon` is followed in the process that goes on.  The first `try` has a
handler for `Glib::Error` and one for `std::exception`, the second a handler for
`Glib::Exception` and one for `std::exception`. -/
def main (env : Env) : Exit :=
  match firstThrow [env.parse, env.check, env.setLogFile, env.setLevel] with
  | some .glibError => .returned EXIT_FAILURE
  | some .stdException => .returned EXIT_FAILURE
  | some _ => .terminated
  | none =>
    let result : Option Bool :=
      if env.infos then some true
      else if env.version then some true
      else
        match firstThrow [env.netNew, env.setBufferSize, env.process] with
        | none => some true
        | some .glibError => some false
        | some .glibException => some false
        | some .stdException => some false
        | some .other => none
    match result with
    | some r => .returned (if r then EXIT_SUCCESS else EXIT_FAILURE)
    | none => .terminated

/-- A run in which nothing throws and no flag is set. -/
def cleanEnv : Env :=
  { parse := none, check := none, setLogFile := none, setLevel := none, isDaemon := false,
    infos := false, version := false, netNew := none, setBufferSize := none, process := none }

/-- A run in which command-line parsing throws a `Glib::Error`. -/
def parseErrorEnv : Env := { cleanEnv with parse := some .glibError, infos := true }

/-- A run with `--version`. -/
def versionEnv : Env := { cleanEnv with version := true, process := some .stdException }

/-- A run as a daemon in which `process()` throws a `Glib::Exception`. -/
def processErrorEnv : Env := { cleanEnv with isDaemon := true, process := some .glibException }

end vle.apps.oov

/-! # The storage plugin (`vle/oov/plugins/Storage.cpp`) -/

namespace vle.oov.plugin

/-- Modelled from the spec: the class of `m_matrix` (`OutputMatrix`) is not
among the sources.  The matrix is represented by the calls that the plugin
makes on it, with their arguments: the spec describes it as the table that the
plugin sizes (`resize`, `updateStep`), fills (`addModel`, `addValue`) and
commits row by row (`setLastTime`). -/
inductive MatrixCall where
  | resize (columns rows : Int)
  | updateStep (columns rows : Int)
  | addModel (name port : String)
  | addValue (name port : String)
  | setLastTime (time : ℚ)
deriving DecidableEq

/-- One model trame of a value trame: the strings `parent()`, `simulator()`
and `port()`, and whether `value()->isNull()`. -/
structure ModelTrame where
  parent : String
  simulator : String
  port : String
  isNull : Bool

/-- A `vpz::ValueTrame`: `time` is the number `utils::to_double(trame.time())`
and `trames` the list `trame.trames()`. -/
structure ValueTrame where
  time : ℚ
  trames : List ModelTrame

/-- The members of a `Storage` object: the calls received so far by
`m_matrix`, in order, then `m_time` and `m_isstart`. -/
structure Storage where
  m_matrix : List MatrixCall
  m_time : ℚ
  m_isstart : Bool

/-- Source constructor `Storage::Storage`: a matrix that has received no call,
`m_time(-1.0)` and `m_isstart(false)`. -/
def newStorage : Storage :=
  { m_matrix := [], m_time := -1, m_isstart := false }

/-- Source `Storage::nextTime`. -/
def nextTime (s : Storage) (trame_time : ℚ) : Storage :=
  if trame_time ≠ s.m_time then
    { s with m_matrix := s.m_matrix ++ [.setLastTime s.m_time], m_time := trame_time }
  else s

/-- The loop of `Storage::onValue` over the model trames: `addValue` for every
value that is not null. -/
def onValue.values (s : Storage) : List ModelTrame → Storage
  | [] => s
  | it :: rest =>
    let name := it.parent ++ it.simulator
    if !it.isNull then
      onValue.values { s with m_matrix := s.m_matrix ++ [.addValue name it.port] } rest
    else onValue.values s rest

/-- Source `Storage::onValue`. -/
def onValue (s : Storage) (trame : ValueTrame) : Storage :=
  let s1 :=
    if s.m_isstart then nextTime s trame.time
    else if s.m_time < 0 then { s with m_time := trame.time }
    else { nextTime s trame.time with m_isstart := true }
  onValue.values s1 trame.trames

/-- Source `Storage::close`. -/
def close (s : Storage) : Storage :=
  { s with m_matrix := s.m_matrix ++ [.setLastTime s.m_time] }

/-- Smallest value of the C++ type `int`. -/
def INT_MIN : Int := -2147483648

/-- Largest value of the C++ type `int`. -/
def INT_MAX : Int := 2147483647

/-- White space of the classic locale, which the extraction skips. -/
def isSpace (c : Char) : Bool :=
  c = ' ' || (9 ≤ c.toNat && c.toNat ≤ 13)

/-- Value of a sequence of decimal digits. -/
def digitsValue (ds : List Char) : Int :=
  ds.foldl (fun acc c => acc * 10 + ((c.toNat - 48 : Nat) : Int)) 0

/-- What the extraction of an `int` finds in the characters left in the
stream: nothing but white space (`missing`), something that does not start
with an optionally signed digit sequence (`invalid`), an integer that fits an
`int` followed by the rest of the characters (`value`), or an integer that does
not fit, with the nearest `int` (`clamped`). -/
inductive Scan where
  | missing
  | invalid
  | value (v : Int) (rest : List Char)
  | clamped (v : Int)
deriving DecidableEq

/-- Scan of an `int` as `std::num_get` does it for a decimal conversion: white
space is skipped, an optional sign is read, then the longest run of digits. -/
def scan (buf : List Char) : Scan :=
  match buf.dropWhile isSpace with
  | [] => .missing
  | c :: cs =>
    let negative := decide (c = '-')
    let body := if c = '-' ∨ c = '+' then cs else c :: cs
    let ds := body.takeWhile Char.isDigit
    if ds = [] then .invalid
    else
      let v := if negative then - digitsValue ds else digitsValue ds
      if v > INT_MAX then .clamped INT_MAX
      else if v < INT_MIN then .clamped INT_MIN
      else .value v (body.dropWhile Char.isDigit)

/-- A `std::istringstream`: the characters not read yet and the state
`fail()`. -/
structure IStream where
  buf : List Char
  fail : Bool

/-- The extraction `param >> x` of an `int`, as the standard library specifies
it since C++11: when nothing is left the variable is untouched, when no
number can be read it is set to 0, when the number does not fit it is set to
the nearest `int`, and in these three cases the stream fails.  (Before C++11
the variable was left untouched in all failing cases.) -/
def extractInt (param : IStream) (x : Int) : IStream × Int :=
  if param.fail then (param, x)
  else
    match scan param.buf with
    | .missing => ({ buf := [], fail := true }, x)
    | .invalid => ({ buf := param.buf, fail := true }, 0)
    | .value v rest => ({ buf := rest, fail := false }, v)
    | .clamped v => ({ buf := param.buf, fail := true }, v)

/-- Source `Storage::onParameter`; `data` is `trame.data()`. -/
def onParameter (s : Storage) (data : String) : Storage :=
  let param : IStream := { buf := data.data, fail := false }
  let r : Int × Int × Int × Int :=
    if !param.fail then
      let (param1, columns) := extractInt param (-1)
      if !param1.fail then
        let (param2, rows) := extractInt param1 (-1)
        if !param2.fail then
          let (param3, rzcolumns) := extractInt param2 (-1)
          if !param3.fail then
            let (_, rzrows) := extractInt param3 (-1)
            (columns, rows, rzcolumns, rzrows)
          else (columns, rows, rzcolumns, -1)
        else (columns, rows, -1, -1)
      else (columns, -1, -1, -1)
    else (-1, -1, -1, -1)
  { s with
    m_matrix := s.m_matrix ++
      [.resize (if r.1 > 1 then r.1 else 10) (if r.2.1 > 1 then r.2.1 else 10),
       .updateStep (if r.2.2.1 > 0 then r.2.2.1 else 1) (if r.2.2.2 > 0 then r.2.2.2 else 1)] }

/-! ## Specification vocabulary of the storage plugin -/

/-- The time passed to the matrix when the call is a `setLastTime`. -/
def commitOf : MatrixCall → Option ℚ
  | .setLastTime t => some t
  | _ => none

/-- The times passed to `setLastTime`, in order. -/
def committedTimes (s : Storage) : List ℚ :=
  s.m_matrix.filterMap commitOf

/-- A sequence of times with consecutive equal times collapsed into one. -/
def collapse : List ℚ → List ℚ
  | [] => []
  | [t] => [t]
  | t :: u :: rest => if t = u then collapse (u :: rest) else t :: collapse (u :: rest)

/-- The integers that a parameter text holds, at most `n` of them: those read
one after the other from the start of the text, up to the first place where no
integer can be read; an integer that does not fit an `int` is read as the
nearest `int` and ends the sequence. -/
def parsedInts : Nat → List Char → List Int
  | 0, _ => []
  | n + 1, buf =>
    match scan buf with
    | .value v rest => v :: parsedInts n rest
    | .clamped v => [v]
    | _ => []

/-- The parsed integer `x` when there is one and it is greater than `bound`,
the default otherwise. -/
def orDefault (bound dflt : Int) (x : Option Int) : Int :=
  match x with
  | some v => if v > bound then v else dflt
  | none => dflt

/-- Five value trames with the times 0, 0, 2, 2 and 5; the first carries a
value and a null value. -/
def exampleTrames : List ValueTrame :=
  [{ time := 0, trames := [{ parent := "top,", simulator := "a", port := "out", isNull := false },
                            { parent := "top,", simulator := "b", port := "out", isNull := true }] },
   { time := 0, trames := [] },
   { time := 2, trames := [{ parent := "top,", simulator := "a", port := "out", isNull := false }] },
   { time := 2, trames := [] },
   { time := 5, trames := [] }]

end vle.oov.plugin

/-! # Theorems -/

namespace vle.graph

theorem mapFind_mapModify {β : Type} (k k' : String) (f : β → β) (m : List (String × β)) :
    mapFind k' (mapModify k f m) = if k' = k then (mapFind k' m).map f else mapFind k' m := by
  induction m with
  | nil => simp [mapFind, mapModify]
  | cons a m ih =>
    obtain ⟨ka, va⟩ := a
    by_cases h1 : ka = k
    · by_cases h2 : k' = k
      · subst h1; subst h2; simp [mapFind, mapModify]
      · subst h1
        have : ¬ ka = k' := fun e => h2 e.symm
        simp [mapFind, mapModify, h2, this]
    · by_cases h2 : ka = k'
      · subst h2; simp [mapFind, mapModify, h1]
      · simp [mapFind, mapModify, h1, h2, ih]

theorem table_modInPort (h : Heap) (x : ModelId) (p : String) (f : ModelPortList → ModelPortList)
    (t : Table) (y : ModelId) (r : String) :
    table (modInPort h x p f) t y r =
      if t = .inP ∧ y = x ∧ r = p then (table h t y r).map f else table h t y r := by
  cases t <;> by_cases hy : y = x <;>
    simp [table, modInPort, inPort, outPort, internalInPort, internalOutPort,
      Function.update_apply, hy, mapFind_mapModify]

theorem table_modOutPort (h : Heap) (x : ModelId) (p : String) (f : ModelPortList → ModelPortList)
    (t : Table) (y : ModelId) (r : String) :
    table (modOutPort h x p f) t y r =
      if t = .outP ∧ y = x ∧ r = p then (table h t y r).map f else table h t y r := by
  cases t <;> by_cases hy : y = x <;>
    simp [table, modOutPort, inPort, outPort, internalInPort, internalOutPort,
      Function.update_apply, hy, mapFind_mapModify]

theorem table_modInternalInPort (h : Heap) (x : ModelId) (p : String)
    (f : ModelPortList → ModelPortList) (t : Table) (y : ModelId) (r : String) :
    table (modInternalInPort h x p f) t y r =
      if t = .internalIn ∧ y = x ∧ r = p then (table h t y r).map f else table h t y r := by
  cases t <;> by_cases hy : y = x <;>
    simp [table, modInternalInPort, inPort, outPort, internalInPort, internalOutPort,
      Function.update_apply, hy, mapFind_mapModify]

theorem table_modInternalOutPort (h : Heap) (x : ModelId) (p : String)
    (f : ModelPortList → ModelPortList) (t : Table) (y : ModelId) (r : String) :
    table (modInternalOutPort h x p f) t y r =
      if t = .internalOut ∧ y = x ∧ r = p then (table h t y r).map f else table h t y r := by
  cases t <;> by_cases hy : y = x <;>
    simp [table, modInternalOutPort, inPort, outPort, internalInPort, internalOutPort,
      Function.update_apply, hy, mapFind_mapModify]


@[simp] theorem modelList_modInPort (h : Heap) (x : ModelId) (p : String)
    (f : ModelPortList → ModelPortList) (y : ModelId) :
    (modInPort h x p f y).modelList = (h y).modelList := by
  by_cases hy : y = x <;> simp [modInPort, Function.update_apply, hy]

@[simp] theorem modelList_modOutPort (h : Heap) (x : ModelId) (p : String)
    (f : ModelPortList → ModelPortList) (y : ModelId) :
    (modOutPort h x p f y).modelList = (h y).modelList := by
  by_cases hy : y = x <;> simp [modOutPort, Function.update_apply, hy]

@[simp] theorem modelList_modInternalInPort (h : Heap) (x : ModelId) (p : String)
    (f : ModelPortList → ModelPortList) (y : ModelId) :
    (modInternalInPort h x p f y).modelList = (h y).modelList := by
  by_cases hy : y = x <;> simp [modInternalInPort, Function.update_apply, hy]

@[simp] theorem modelList_modInternalOutPort (h : Heap) (x : ModelId) (p : String)
    (f : ModelPortList → ModelPortList) (y : ModelId) :
    (modInternalOutPort h x p f y).modelList = (h y).modelList := by
  by_cases hy : y = x <;> simp [modInternalOutPort, Function.update_apply, hy]

theorem outbound_eq_table (h : Heap) (P a : ModelId) (p : String) :
    outbound h P a p =
      (table h (outSlot P a p).1 (outSlot P a p).2.1 (outSlot P a p).2.2).getD [] := by
  by_cases ha : a = P <;> simp [outbound, outSlot, table, ha]

theorem inbound_eq_table (h : Heap) (P b : ModelId) (q : String) :
    inbound h P b q =
      (table h (inSlot P b q).1 (inSlot P b q).2.1 (inSlot P b q).2.2).getD [] := by
  by_cases hb : b = P <;> simp [inbound, inSlot, table, hb]

theorem outSlot_inj (P a a' : ModelId) (p p' : String) :
    outSlot P a p = outSlot P a' p' ↔ a = a' ∧ p = p' := by
  constructor
  · intro e
    by_cases ha : a = P <;> by_cases ha' : a' = P <;>
      simp [outSlot, ha, ha'] at e
    · exact ⟨ha.trans ha'.symm, e⟩
    · exact e
  · rintro ⟨rfl, rfl⟩; rfl

theorem inSlot_inj (P b b' : ModelId) (q q' : String) :
    inSlot P b q = inSlot P b' q' ↔ b = b' ∧ q = q' := by
  constructor
  · intro e
    by_cases hb : b = P <;> by_cases hb' : b' = P <;>
      simp [inSlot, hb, hb'] at e
    · exact ⟨hb.trans hb'.symm, e⟩
    · exact e
  · rintro ⟨rfl, rfl⟩; rfl

theorem outSlot_ne_inSlot (P a b : ModelId) (p q : String) : outSlot P a p ≠ inSlot P b q := by
  by_cases ha : a = P <;> by_cases hb : b = P <;> simp [outSlot, inSlot, ha, hb]

theorem AddsOne.count_add {before after : Option ModelPortList} {e : ModelId × String}
    (hadd : AddsOne before after e) (x : ModelId × String) :
    List.count x (after.getD []) = List.count x (before.getD []) + (if x = e then 1 else 0) := by
  obtain ⟨l, l', rfl, rfl, hp⟩ := hadd
  simp only [Option.getD_some]
  have := hp.countP_eq (· == x)
  rw [List.count, this, List.countP_cons]
  by_cases hx : x = e
  · subst hx; simp [List.count]
  · have h2 : (e == x) = false := by simpa using fun h => hx h.symm
    simp [List.count, hx, h2]

/-- Adding the two mirror entries of one connection keeps the mirror invariant. -/
theorem Mirror.of_addsEdge {h hh : Heap} {P a0 b0 : ModelId} {p0 q0 : String}
    (hml : (hh P).modelList = (h P).modelList)
    (hadd : AddsEdge h hh (outSlot P a0 p0) (b0, q0) (inSlot P b0 q0) (a0, p0))
    (hm : Mirror h P) : Mirror hh P := by
  intro a b p q ha hb
  have ha' : inScope h P a := by simpa [inScope, hml] using ha
  have hb' : inScope h P b := by simpa [inScope, hml] using hb
  have hmab := hm a b p q ha' hb'
  obtain ⟨h1, h2, hframe⟩ := hadd
  rw [outbound_eq_table, inbound_eq_table] at hmab ⊢
  have hL : List.count (b, q) ((table hh (outSlot P a p).1 (outSlot P a p).2.1
        (outSlot P a p).2.2).getD []) =
      List.count (b, q) ((table h (outSlot P a p).1 (outSlot P a p).2.1
        (outSlot P a p).2.2).getD []) + (if a = a0 ∧ p = p0 ∧ b = b0 ∧ q = q0 then 1 else 0) := by
    by_cases hs : a = a0 ∧ p = p0
    · obtain ⟨rfl, rfl⟩ := hs
      rw [h1.count_add]
      simp
    · have hne : outSlot P a p ≠ outSlot P a0 p0 := by
        rw [Ne, outSlot_inj]; exact hs
      have := hframe (outSlot P a p).1 (outSlot P a p).2.1 (outSlot P a p).2.2 hne
        (outSlot_ne_inSlot P a b0 p q0)
      rw [this]
      have : ¬ (a = a0 ∧ p = p0 ∧ b = b0 ∧ q = q0) := fun e => hs ⟨e.1, e.2.1⟩
      simp [this]
  have hR : List.count (a, p) ((table hh (inSlot P b q).1 (inSlot P b q).2.1
        (inSlot P b q).2.2).getD []) =
      List.count (a, p) ((table h (inSlot P b q).1 (inSlot P b q).2.1
        (inSlot P b q).2.2).getD []) + (if a = a0 ∧ p = p0 ∧ b = b0 ∧ q = q0 then 1 else 0) := by
    by_cases hs : b = b0 ∧ q = q0
    · obtain ⟨rfl, rfl⟩ := hs
      rw [h2.count_add]
      simp
    · have hne : inSlot P b q ≠ inSlot P b0 q0 := by
        rw [Ne, inSlot_inj]; exact hs
      have := hframe (inSlot P b q).1 (inSlot P b q).2.1 (inSlot P b q).2.2
        (fun e => outSlot_ne_inSlot P a0 b p0 q e.symm) hne
      rw [this]
      have : ¬ (a = a0 ∧ p = p0 ∧ b = b0 ∧ q = q0) := fun e => hs ⟨e.2.2.1, e.2.2.2⟩
      simp [this]
  rw [hL, hR, hmab]


theorem AddsOne.of_map_add {o : Option ModelPortList} {l : ModelPortList} (m : ModelId)
    (port : String) (ho : o = some l) :
    AddsOne o (o.map fun x => x.add m port) (m, port) := by
  subst ho
  refine ⟨l, l ++ [(m, port)], rfl, rfl, ?_⟩
  exact List.perm_append_singleton _ _

theorem addInternalConnection_ok {h hh : Heap} {P : ModelId} {src dst : Option ModelId}
    {p q : String} (hr : addInternalConnection P src p dst q h = .ok () hh) :
    ∃ s d, src = some s ∧ dst = some d ∧ s ≠ P ∧ d ≠ P ∧
      (hh P).modelList = (h P).modelList ∧
      AddsEdge h hh (.outP, s, p) (d, q) (.inP, d, q) (s, p) := by
  unfold addInternalConnection at hr
  cases src with
  | none => simp at hr
  | some s =>
    cases dst with
    | none => simp at hr
    | some d =>
      simp only at hr
      split at hr
      · simp at hr
      · rename_i hsd
        push_neg at hsd
        cases ho : outPort h s p with
        | none => simp [getOutPort, ho] at hr
        | some l =>
          have hi1 : inPort (modOutPort h s p fun outs => outs.add d q) d q = inPort h d q := by
            have := table_modOutPort h s p (fun outs => outs.add d q) .inP d q
            simpa [table] using this
          cases hi : inPort h d q with
          | none => simp [getOutPort, getInPort, ho, hi1, hi] at hr
          | some l2 =>
            simp only [getOutPort, getInPort, ho, hi1, hi, Outcome.ok.injEq, true_and] at hr
            subst hr
            refine ⟨s, d, rfl, rfl, hsd.1, hsd.2, by simp, ?_, ?_, ?_⟩
            · have := AddsOne.of_map_add d q (show table h .outP s p = some l from ho)
              simpa [table_modInPort, table_modOutPort] using this
            · have := AddsOne.of_map_add s p (show table h .inP d q = some l2 from hi)
              simpa [table_modInPort, table_modOutPort] using this
            · intro t x r h1 h2
              rw [table_modInPort, table_modOutPort]
              have h1' : ¬ (t = .outP ∧ x = s ∧ r = p) := by
                rintro ⟨rfl, rfl, rfl⟩; exact h1 rfl
              have h2' : ¬ (t = .inP ∧ x = d ∧ r = q) := by
                rintro ⟨rfl, rfl, rfl⟩; exact h2 rfl
              simp [h1', h2']


theorem addInputConnection_ok {h hh : Heap} {P : ModelId} {dst : Option ModelId}
    {p q : String} (hr : addInputConnection P p dst q h = .ok () hh) :
    ∃ d, dst = some d ∧ d ≠ P ∧ (hh P).modelList = (h P).modelList ∧
      AddsEdge h hh (.internalIn, P, p) (d, q) (.inP, d, q) (P, p) := by
  unfold addInputConnection at hr
  cases dst with
  | none => simp at hr
  | some d =>
    simp only at hr
    split at hr
    · simp at hr
    · rename_i hd
      cases ho : internalInPort h P p with
      | none =>
        simp only [internalInPort] at ho
        simp [getInternalInPort, ho] at hr
      | some l =>
        have hi1 : inPort (modInternalInPort h P p fun outs => outs.add d q) d q
            = inPort h d q := by
          have := table_modInternalInPort h P p (fun outs => outs.add d q) .inP d q
          simpa [table] using this
        have ho' := ho
        simp only [internalInPort] at ho'
        cases hi : inPort h d q with
        | none => simp [getInternalInPort, getInPort, ho', hi1, hi] at hr
        | some l2 =>
          simp only [getInternalInPort, getInPort, ho', hi1, hi, Outcome.ok.injEq,
            true_and] at hr
          subst hr
          refine ⟨d, rfl, hd, by simp, ?_, ?_, ?_⟩
          · have := AddsOne.of_map_add d q (show table h .internalIn P p = some l from ho)
            simpa [table_modInPort, table_modInternalInPort] using this
          · have := AddsOne.of_map_add P p (show table h .inP d q = some l2 from hi)
            simpa [table_modInPort, table_modInternalInPort] using this
          · intro t x r h1 h2
            rw [table_modInPort, table_modInternalInPort]
            have h1' : ¬ (t = .internalIn ∧ x = P ∧ r = p) := by
              rintro ⟨rfl, rfl, rfl⟩; exact h1 rfl
            have h2' : ¬ (t = .inP ∧ x = d ∧ r = q) := by
              rintro ⟨rfl, rfl, rfl⟩; exact h2 rfl
            simp [h1', h2']

theorem addOutputConnection_ok {h hh : Heap} {P : ModelId} {src : Option ModelId}
    {p q : String} (hr : addOutputConnection P src p q h = .ok () hh) :
    ∃ s, src = some s ∧ s ≠ P ∧ (hh P).modelList = (h P).modelList ∧
      AddsEdge h hh (.outP, s, p) (P, q) (.internalOut, P, q) (s, p) := by
  unfold addOutputConnection at hr
  cases src with
  | none => simp at hr
  | some s =>
    simp only at hr
    split at hr
    · simp at hr
    · rename_i hs
      cases ho : outPort h s p with
      | none => simp [getOutPort, ho] at hr
      | some l =>
        have hi1 : internalOutPort (modOutPort h s p fun outs => outs.add P q) P q
            = internalOutPort h P q := by
          have := table_modOutPort h s p (fun outs => outs.add P q) .internalOut P q
          simpa [table] using this
        simp only [internalOutPort] at hi1
        cases hi : internalOutPort h P q with
        | none =>
          have hi' := hi
          simp only [internalOutPort] at hi'
          simp [getOutPort, getInternalOutPort, ho, hi1, hi'] at hr
        | some l2 =>
          have hi' := hi
          simp only [internalOutPort] at hi'
          simp only [getOutPort, getInternalOutPort, ho, hi1, hi', Outcome.ok.injEq,
            true_and] at hr
          subst hr
          refine ⟨s, rfl, hs, by simp, ?_, ?_, ?_⟩
          · have := AddsOne.of_map_add P q (show table h .outP s p = some l from ho)
            simpa [table_modInternalOutPort, table_modOutPort] using this
          · have := AddsOne.of_map_add s p (show table h .internalOut P q = some l2 from hi)
            simpa [table_modInternalOutPort, table_modOutPort] using this
          · intro t x r h1 h2
            rw [table_modInternalOutPort, table_modOutPort]
            have h1' : ¬ (t = .outP ∧ x = s ∧ r = p) := by
              rintro ⟨rfl, rfl, rfl⟩; exact h1 rfl
            have h2' : ¬ (t = .internalOut ∧ x = P ∧ r = q) := by
              rintro ⟨rfl, rfl, rfl⟩; exact h2 rfl
            simp [h1', h2']

/-- Claim C1.  Whenever one of the three pointer-based `add...Connection` calls on a
coupled model `P` returns normally, exactly one occurrence of the destination
entry has been added to the source's outbound list, exactly one occurrence of
the source entry to the destination's inbound list, no other list of any model
has changed, and the mirror invariant of `P` is carried from the heap before
the call to the heap after it. -/
theorem addConnection_adds_mirror_edge (h : Heap) (P : ModelId) (p q : String) :
    (∀ src dst hh, addInternalConnection P src p dst q h = .ok () hh →
      ∃ s d, src = some s ∧ dst = some d ∧
        AddsEdge h hh (.outP, s, p) (d, q) (.inP, d, q) (s, p) ∧
        (Mirror h P → Mirror hh P)) ∧
    (∀ dst hh, addInputConnection P p dst q h = .ok () hh →
      ∃ d, dst = some d ∧
        AddsEdge h hh (.internalIn, P, p) (d, q) (.inP, d, q) (P, p) ∧
        (Mirror h P → Mirror hh P)) ∧
    (∀ src hh, addOutputConnection P src p q h = .ok () hh →
      ∃ s, src = some s ∧
        AddsEdge h hh (.outP, s, p) (P, q) (.internalOut, P, q) (s, p) ∧
        (Mirror h P → Mirror hh P)) := by
  refine ⟨?_, ?_, ?_⟩
  · intro src dst hh hr
    obtain ⟨s, d, rfl, rfl, hs, hd, hml, hadd⟩ := addInternalConnection_ok hr
    refine ⟨s, d, rfl, rfl, hadd, ?_⟩
    apply @Mirror.of_addsEdge h hh P s d p q hml
    simpa [outSlot, inSlot, hs, hd] using hadd
  · intro dst hh hr
    obtain ⟨d, rfl, hd, hml, hadd⟩ := addInputConnection_ok hr
    refine ⟨d, rfl, hadd, ?_⟩
    apply @Mirror.of_addsEdge h hh P P d p q hml
    simpa [outSlot, inSlot, hd] using hadd
  · intro src hh hr
    obtain ⟨s, rfl, hs, hml, hadd⟩ := addOutputConnection_ok hr
    refine ⟨s, rfl, hadd, ?_⟩
    apply @Mirror.of_addsEdge h hh P s P p q hml
    simpa [outSlot, inSlot, hs] using hadd


theorem exampleHeap_mirror : Mirror exampleHeap 0 := by
  intro a b p q _ _
  have h1 : ∀ a p, outbound exampleHeap 0 a p = [] := by
    intro a p
    unfold outbound internalInPort outPort exampleHeap
    by_cases h0 : a = 0
    · subst h0; simp [mapFind]; split <;> rfl
    · by_cases h1 : a = 1
      · subst h1; simp [mapFind]; split <;> rfl
      · by_cases h2 : a = 2
        · subst h2; simp [mapFind]; split <;> rfl
        · simp [h0, h1, h2, mapFind, newModel]
  have h2 : ∀ b q, inbound exampleHeap 0 b q = [] := by
    intro b q
    unfold inbound internalOutPort inPort exampleHeap
    by_cases h0 : b = 0
    · subst h0; simp [mapFind]; split <;> rfl
    · by_cases h1 : b = 1
      · subst h1; simp [mapFind]; split <;> rfl
      · by_cases h2 : b = 2
        · subst h2; simp [mapFind]; split <;> rfl
        · simp [h0, h1, h2, mapFind, newModel]
  rw [h1, h2]; simp

/-- Instance of claim C1 on the example graph: the internal connection
`a.out -> b.in`, the input connection `top.in -> a.in` and the output
connection `b.out -> top.out` are each added with both mirror entries, and the
mirror invariant holds afterwards. -/
theorem addConnection_adds_mirror_edge_witness :
    (∃ hh, addInternalConnection 0 (some 1) "out" (some 2) "in" exampleHeap = .ok () hh ∧
      AddsEdge exampleHeap hh (.outP, 1, "out") (2, "in") (.inP, 2, "in") (1, "out") ∧
      Mirror hh 0) ∧
    (∃ hh, addInputConnection 0 "in" (some 1) "in" exampleHeap = .ok () hh ∧
      AddsEdge exampleHeap hh (.internalIn, 0, "in") (1, "in") (.inP, 1, "in") (0, "in") ∧
      Mirror hh 0) ∧
    (∃ hh, addOutputConnection 0 (some 2) "out" "out" exampleHeap = .ok () hh ∧
      AddsEdge exampleHeap hh (.outP, 2, "out") (0, "out") (.internalOut, 0, "out") (2, "out") ∧
      Mirror hh 0) := by
  refine ⟨⟨_, rfl, ?_⟩, ⟨_, rfl, ?_⟩, ⟨_, rfl, ?_⟩⟩
  · obtain ⟨s, d, hs, hd, hadd, hm⟩ :=
      (addConnection_adds_mirror_edge exampleHeap 0 "out" "in").1 (some 1) (some 2) _ rfl
    cases hs; cases hd
    exact ⟨hadd, hm exampleHeap_mirror⟩
  · obtain ⟨d, hd, hadd, hm⟩ :=
      (addConnection_adds_mirror_edge exampleHeap 0 "in" "in").2.1 (some 1) _ rfl
    cases hd
    exact ⟨hadd, hm exampleHeap_mirror⟩
  · obtain ⟨s, hs, hadd, hm⟩ :=
      (addConnection_adds_mirror_edge exampleHeap 0 "out" "out").2.2 (some 2) _ rfl
    cases hs
    exact ⟨hadd, hm exampleHeap_mirror⟩


/-! ## Failing `add...Connection` calls -/

theorem table_inP_modOutPort (h : Heap) (x : ModelId) (p : String)
    (f : ModelPortList → ModelPortList) (y : ModelId) (r : String) :
    inPort (modOutPort h x p f) y r = inPort h y r := by
  have := table_modOutPort h x p f .inP y r
  simpa [table] using this

/-- Counterexample to claim C2 as stated.  On the example graph, connecting
output port `out` of `a` to `out` of `b`, which is an output port and not an
input port of `b`, raises the graph error, but the list of `a.out` is not left
as it was: it has received the entry `(b, out)`. -/
theorem addInternalConnection_not_rolled_back :
    ¬ ∀ (h : Heap) (P s d : ModelId) (p q : String), s ≠ P → d ≠ P →
        (outPort h s p).isSome → inPort h d q = none →
        ∃ hh, addInternalConnection P (some s) p (some d) q h = .throw .DevsGraphError hh ∧
          outPort hh s p = outPort h s p ∧ ∀ t r, table hh t d r = table h t d r := by
  intro H
  obtain ⟨hh, hr, hsame, -⟩ :=
    H exampleHeap 0 1 2 "out" "out" (by decide) (by decide) (by decide) (by decide)
  have hr' : addInternalConnection 0 (some 1) "out" (some 2) "out" exampleHeap =
      .throw .DevsGraphError (modOutPort exampleHeap 1 "out" fun outs => outs.add 2 "out") := rfl
  rw [hr'] at hr
  injection hr with _ hheap
  subst hheap
  revert hsame
  decide

/-- Claim C2, amended.  When the destination-side list is missing, each of the
three pointer-based `add...Connection` calls raises the graph error after the
source-side list has been written: that list holds one more occurrence of the
destination entry, and every other list of every model (in particular every
input port list of the destination) is as it was before the call. -/
theorem addConnection_failure_frame (h : Heap) (P : ModelId) (p q : String) :
    (∀ s d l, s ≠ P → d ≠ P → outPort h s p = some l → inPort h d q = none →
      ∃ hh, addInternalConnection P (some s) p (some d) q h = .throw .DevsGraphError hh ∧
        AddsOne (table h .outP s p) (table hh .outP s p) (d, q) ∧
        ∀ t x r, (t, x, r) ≠ (.outP, s, p) → table hh t x r = table h t x r) ∧
    (∀ s l, s ≠ P → outPort h s p = some l → internalOutPort h P q = none →
      ∃ hh, addOutputConnection P (some s) p q h = .throw .DevsGraphError hh ∧
        AddsOne (table h .outP s p) (table hh .outP s p) (P, q) ∧
        ∀ t x r, (t, x, r) ≠ (.outP, s, p) → table hh t x r = table h t x r) ∧
    (∀ d l, d ≠ P → internalInPort h P p = some l → inPort h d q = none →
      ∃ hh, addInputConnection P p (some d) q h = .throw .DevsGraphError hh ∧
        AddsOne (table h .internalIn P p) (table hh .internalIn P p) (d, q) ∧
        ∀ t x r, (t, x, r) ≠ (.internalIn, P, p) → table hh t x r = table h t x r) := by
  refine ⟨?_, ?_, ?_⟩
  · intro s d l hs hd ho hi
    refine ⟨modOutPort h s p fun outs => outs.add d q, ?_, ?_, ?_⟩
    · simp [addInternalConnection, hs, hd, getOutPort, getInPort, ho, table_inP_modOutPort, hi]
    · have := AddsOne.of_map_add d q (show table h .outP s p = some l from ho)
      simpa [table_modOutPort] using this
    · intro t x r h1
      rw [table_modOutPort]
      have h1' : ¬ (t = .outP ∧ x = s ∧ r = p) := by
        rintro ⟨rfl, rfl, rfl⟩; exact h1 rfl
      simp [h1']
  · intro s l hs ho hi
    refine ⟨modOutPort h s p fun outs => outs.add P q, ?_, ?_, ?_⟩
    · have hi1 : internalOutPort (modOutPort h s p fun outs => outs.add P q) P q
          = internalOutPort h P q := by
        have := table_modOutPort h s p (fun outs => outs.add P q) .internalOut P q
        simpa [table] using this
      simp only [internalOutPort] at hi1 hi
      simp [addOutputConnection, hs, getOutPort, getInternalOutPort, ho, hi1, hi]
    · have := AddsOne.of_map_add P q (show table h .outP s p = some l from ho)
      simpa [table_modOutPort] using this
    · intro t x r h1
      rw [table_modOutPort]
      have h1' : ¬ (t = .outP ∧ x = s ∧ r = p) := by
        rintro ⟨rfl, rfl, rfl⟩; exact h1 rfl
      simp [h1']
  · intro d l hd ho hi
    refine ⟨modInternalInPort h P p fun outs => outs.add d q, ?_, ?_, ?_⟩
    · have hi1 : inPort (modInternalInPort h P p fun outs => outs.add d q) d q
          = inPort h d q := by
        have := table_modInternalInPort h P p (fun outs => outs.add d q) .inP d q
        simpa [table] using this
      have ho' := ho
      simp only [internalInPort] at ho'
      simp [addInputConnection, hd, getInternalInPort, getInPort, ho', hi1, hi]
    · have := AddsOne.of_map_add d q (show table h .internalIn P p = some l from ho)
      simpa [table_modInternalInPort] using this
    · intro t x r h1
      rw [table_modInternalInPort]
      have h1' : ¬ (t = .internalIn ∧ x = P ∧ r = p) := by
        rintro ⟨rfl, rfl, rfl⟩; exact h1 rfl
      simp [h1']

/-- Instance of the amended claim C2 on the example graph, for the three calls
`a.out -> b.out`, `b.out -> top.in` and `top.in -> a.out`, whose second port
is of the wrong direction. -/
theorem addConnection_failure_frame_witness :
    (∃ hh, addInternalConnection 0 (some 1) "out" (some 2) "out" exampleHeap
        = .throw .DevsGraphError hh ∧
      AddsOne (table exampleHeap .outP 1 "out") (table hh .outP 1 "out") (2, "out") ∧
      ∀ t x r, (t, x, r) ≠ (.outP, 1, "out") → table hh t x r = table exampleHeap t x r) ∧
    (∃ hh, addOutputConnection 0 (some 2) "out" "in" exampleHeap = .throw .DevsGraphError hh ∧
      AddsOne (table exampleHeap .outP 2 "out") (table hh .outP 2 "out") (0, "in") ∧
      ∀ t x r, (t, x, r) ≠ (.outP, 2, "out") → table hh t x r = table exampleHeap t x r) ∧
    (∃ hh, addInputConnection 0 "in" (some 1) "out" exampleHeap = .throw .DevsGraphError hh ∧
      AddsOne (table exampleHeap .internalIn 0 "in") (table hh .internalIn 0 "in") (1, "out") ∧
      ∀ t x r, (t, x, r) ≠ (.internalIn, 0, "in") →
        table hh t x r = table exampleHeap t x r) :=
  ⟨(addConnection_failure_frame exampleHeap 0 "out" "out").1 1 2 [] (by decide) (by decide)
      (by decide) (by decide),
   (addConnection_failure_frame exampleHeap 0 "out" "in").2.1 2 [] (by decide)
      (by decide) (by decide),
   (addConnection_failure_frame exampleHeap 0 "in" "out").2.2 1 [] (by decide)
      (by decide) (by decide)⟩


/-! ## Removing connections -/

theorem connectedHeap_eq :
    addInternalConnection 0 (some 1) "out" (some 2) "in" exampleHeap = .ok () connectedHeap := by
  have : (modInPort (modOutPort exampleHeap 1 "out" fun outs => outs.add 2 "in") 2 "in"
      fun ins => ins.add 1 "out") = connectedHeap := by
    funext i
    by_cases h0 : i = 0
    · subst h0; rfl
    · by_cases h1 : i = 1
      · subst h1; rfl
      · by_cases h2 : i = 2
        · subst h2; rfl
        · simp [modInPort, modOutPort, Function.update_apply, h0, h1, h2, exampleHeap,
            connectedHeap]
  rw [← this]; rfl

theorem connectedHeap_mirror : Mirror connectedHeap 0 := by
  obtain ⟨s, d, hs, hd, hsP, hdP, hml, hadd⟩ := addInternalConnection_ok connectedHeap_eq
  cases hs; cases hd
  apply @Mirror.of_addsEdge exampleHeap connectedHeap 0 1 2 "out" "in" hml _ exampleHeap_mirror
  simpa [outSlot, inSlot] using hadd

/-- Claim C3, evaluated on the code.  On a graph that satisfies the mirror
invariant and holds the connection `a.out -> b.in`, the call
`delConnection(a, "out", b, "in")` takes `(b, in)` out of the list of `a.out`,
then looks `in` up among the OUTPUT ports of `b` and raises the graph error:
the list of input port `b.in` still holds `(a, out)`, and the mirror invariant
is lost. -/
theorem delConnection_leaves_half_connection :
    Mirror connectedHeap 0 ∧
    outPort connectedHeap 1 "out" = some [(2, "in")] ∧
    inPort connectedHeap 2 "in" = some [(1, "out")] ∧
    ∃ hh, delConnection 0 1 "out" (some 2) "in" connectedHeap = .throw .DevsGraphError hh ∧
      outPort hh 1 "out" = some [] ∧ inPort hh 2 "in" = some [(1, "out")] ∧
      ¬ Mirror hh 0 := by
  refine ⟨connectedHeap_mirror, by decide, by decide, _, rfl, by decide, by decide, ?_⟩
  intro hm
  have := hm 1 2 "out" "in" (Or.inr ⟨"a", by decide⟩) (Or.inr ⟨"b", by decide⟩)
  revert this
  decide


/-- Whatever `delConnection` does, it never writes to an input port list: the
second list it looks up is an output port list of the destination. -/
theorem delConnection_inPort_unchanged (h hh : Heap) (P s : ModelId) (d : Option ModelId)
    (p q : String) (hr : (delConnection P s p d q h).heap = some hh) (x : ModelId) (r : String) :
    inPort hh x r = inPort h x r := by
  unfold delConnection at hr
  cases d with
  | none => simp only [Outcome.heap, Option.some.injEq] at hr; subst hr; rfl
  | some d =>
    simp only at hr
    cases ho : getOutPort h s p with
    | error e => simp only [ho, Outcome.heap, Option.some.injEq] at hr; subst hr; rfl
    | ok l =>
      simp only [ho] at hr
      cases ho2 : getOutPort (modOutPort h s p fun outs => outs.remove d q) d q with
      | error e =>
        simp only [ho2, Outcome.heap, Option.some.injEq] at hr; subst hr
        exact table_inP_modOutPort _ _ _ _ _ _
      | ok l2 =>
        simp only [ho2, Outcome.heap, Option.some.injEq] at hr; subst hr
        rw [table_inP_modOutPort, table_inP_modOutPort]

theorem RemovesOne.count_sub {before after : Option ModelPortList} {e : ModelId × String}
    (hrem : RemovesOne before after e) (x : ModelId × String) :
    List.count x (after.getD []) = List.count x (before.getD []) - (if x = e then 1 else 0) := by
  obtain ⟨l, rfl, rfl⟩ := hrem
  simp only [Option.getD_some]
  by_cases hx : x = e
  · subst hx; simp
  · simp [hx, List.count_erase_of_ne hx]

theorem RemovesOne.of_map_remove {o : Option ModelPortList} {l : ModelPortList} (m : ModelId)
    (port : String) (ho : o = some l) :
    RemovesOne o (o.map fun x => x.remove m port) (m, port) := by
  subst ho
  exact ⟨l, rfl, rfl⟩

/-- Removing the two mirror entries of one connection keeps the mirror
invariant. -/
theorem Mirror.of_removesEdge {h hh : Heap} {P a0 b0 : ModelId} {p0 q0 : String}
    (hml : (hh P).modelList = (h P).modelList)
    (hrem : RemovesEdge h hh (outSlot P a0 p0) (b0, q0) (inSlot P b0 q0) (a0, p0))
    (hm : Mirror h P) : Mirror hh P := by
  intro a b p q ha hb
  have ha' : inScope h P a := by simpa [inScope, hml] using ha
  have hb' : inScope h P b := by simpa [inScope, hml] using hb
  have hmab := hm a b p q ha' hb'
  obtain ⟨h1, h2, hframe⟩ := hrem
  rw [outbound_eq_table, inbound_eq_table] at hmab ⊢
  have hL : List.count (b, q) ((table hh (outSlot P a p).1 (outSlot P a p).2.1
        (outSlot P a p).2.2).getD []) =
      List.count (b, q) ((table h (outSlot P a p).1 (outSlot P a p).2.1
        (outSlot P a p).2.2).getD []) - (if a = a0 ∧ p = p0 ∧ b = b0 ∧ q = q0 then 1 else 0) := by
    by_cases hs : a = a0 ∧ p = p0
    · obtain ⟨rfl, rfl⟩ := hs
      rw [h1.count_sub]
      simp
    · have hne : outSlot P a p ≠ outSlot P a0 p0 := by
        rw [Ne, outSlot_inj]; exact hs
      have := hframe (outSlot P a p).1 (outSlot P a p).2.1 (outSlot P a p).2.2 hne
        (outSlot_ne_inSlot P a b0 p q0)
      rw [this]
      have : ¬ (a = a0 ∧ p = p0 ∧ b = b0 ∧ q = q0) := fun e => hs ⟨e.1, e.2.1⟩
      simp [this]
  have hR : List.count (a, p) ((table hh (inSlot P b q).1 (inSlot P b q).2.1
        (inSlot P b q).2.2).getD []) =
      List.count (a, p) ((table h (inSlot P b q).1 (inSlot P b q).2.1
        (inSlot P b q).2.2).getD []) - (if a = a0 ∧ p = p0 ∧ b = b0 ∧ q = q0 then 1 else 0) := by
    by_cases hs : b = b0 ∧ q = q0
    · obtain ⟨rfl, rfl⟩ := hs
      rw [h2.count_sub]
      simp
    · have hne : inSlot P b q ≠ inSlot P b0 q0 := by
        rw [Ne, inSlot_inj]; exact hs
      have := hframe (inSlot P b q).1 (inSlot P b q).2.1 (inSlot P b q).2.2
        (fun e => outSlot_ne_inSlot P a0 b p0 q e.symm) hne
      rw [this]
      have : ¬ (a = a0 ∧ p = p0 ∧ b = b0 ∧ q = q0) := fun e => hs ⟨e.2.2.1, e.2.2.2⟩
      simp [this]
  rw [hL, hR, hmab]

theorem delInternalConnection_ok {h hh : Heap} {P : ModelId} {src dst : Option ModelId}
    {p q : String} (hr : delInternalConnection P src p dst q h = .ok () hh) :
    ∃ s d, src = some s ∧ dst = some d ∧ s ≠ P ∧ d ≠ P ∧
      (hh P).modelList = (h P).modelList ∧
      RemovesEdge h hh (.outP, s, p) (d, q) (.inP, d, q) (s, p) := by
  unfold delInternalConnection at hr
  cases src with
  | none => simp at hr
  | some s =>
    cases dst with
    | none => simp at hr
    | some d =>
      simp only at hr
      split at hr
      · simp at hr
      · rename_i hsd
        push_neg at hsd
        cases ho : outPort h s p with
        | none => simp [getOutPort, ho] at hr
        | some l =>
          have hi1 : inPort (modOutPort h s p fun outs => outs.remove d q) d q
              = inPort h d q := table_inP_modOutPort _ _ _ _ _ _
          cases hi : inPort h d q with
          | none => simp [getOutPort, getInPort, ho, hi1, hi] at hr
          | some l2 =>
            simp only [getOutPort, getInPort, ho, hi1, hi, Outcome.ok.injEq, true_and] at hr
            subst hr
            refine ⟨s, d, rfl, rfl, hsd.1, hsd.2, by simp, ?_, ?_, ?_⟩
            · have := RemovesOne.of_map_remove d q (show table h .outP s p = some l from ho)
              simpa [table_modInPort, table_modOutPort] using this
            · have := RemovesOne.of_map_remove s p (show table h .inP d q = some l2 from hi)
              simpa [table_modInPort, table_modOutPort] using this
            · intro t x r h1 h2
              rw [table_modInPort, table_modOutPort]
              have h1' : ¬ (t = .outP ∧ x = s ∧ r = p) := by
                rintro ⟨rfl, rfl, rfl⟩; exact h1 rfl
              have h2' : ¬ (t = .inP ∧ x = d ∧ r = q) := by
                rintro ⟨rfl, rfl, rfl⟩; exact h2 rfl
              simp [h1', h2']

theorem delInputConnection_ok {h hh : Heap} {P : ModelId} {dst : Option ModelId}
    {p q : String} (hr : delInputConnection P p dst q h = .ok () hh) :
    ∃ d, dst = some d ∧ d ≠ P ∧ (hh P).modelList = (h P).modelList ∧
      RemovesEdge h hh (.internalIn, P, p) (d, q) (.inP, d, q) (P, p) := by
  unfold delInputConnection at hr
  cases dst with
  | none => simp at hr
  | some d =>
    simp only at hr
    split at hr
    · simp at hr
    · rename_i hd
      cases ho : internalInPort h P p with
      | none =>
        simp only [internalInPort] at ho
        simp [getInternalInPort, ho] at hr
      | some l =>
        have hi1 : inPort (modInternalInPort h P p fun outs => outs.remove d q) d q
            = inPort h d q := by
          have := table_modInternalInPort h P p (fun outs => outs.remove d q) .inP d q
          simpa [table] using this
        have ho' := ho
        simp only [internalInPort] at ho'
        cases hi : inPort h d q with
        | none => simp [getInternalInPort, getInPort, ho', hi1, hi] at hr
        | some l2 =>
          simp only [getInternalInPort, getInPort, ho', hi1, hi, Outcome.ok.injEq,
            true_and] at hr
          subst hr
          refine ⟨d, rfl, hd, by simp, ?_, ?_, ?_⟩
          · have := RemovesOne.of_map_remove d q (show table h .internalIn P p = some l from ho)
            simpa [table_modInPort, table_modInternalInPort] using this
          · have := RemovesOne.of_map_remove P p (show table h .inP d q = some l2 from hi)
            simpa [table_modInPort, table_modInternalInPort] using this
          · intro t x r h1 h2
            rw [table_modInPort, table_modInternalInPort]
            have h1' : ¬ (t = .internalIn ∧ x = P ∧ r = p) := by
              rintro ⟨rfl, rfl, rfl⟩; exact h1 rfl
            have h2' : ¬ (t = .inP ∧ x = d ∧ r = q) := by
              rintro ⟨rfl, rfl, rfl⟩; exact h2 rfl
            simp [h1', h2']

theorem delOutputConnection_ok {h hh : Heap} {P : ModelId} {src : Option ModelId}
    {p q : String} (hr : delOutputConnection P src p q h = .ok () hh) :
    ∃ s, src = some s ∧ s ≠ P ∧ (hh P).modelList = (h P).modelList ∧
      RemovesEdge h hh (.outP, s, p) (P, q) (.internalOut, P, q) (s, p) := by
  unfold delOutputConnection at hr
  cases src with
  | none => simp at hr
  | some s =>
    simp only at hr
    split at hr
    · simp at hr
    · rename_i hs
      cases ho : outPort h s p with
      | none => simp [getOutPort, ho] at hr
      | some l =>
        have hi1 : internalOutPort (modOutPort h s p fun outs => outs.remove P q) P q
            = internalOutPort h P q := by
          have := table_modOutPort h s p (fun outs => outs.remove P q) .internalOut P q
          simpa [table] using this
        simp only [internalOutPort] at hi1
        cases hi : internalOutPort h P q with
        | none =>
          have hi' := hi
          simp only [internalOutPort] at hi'
          simp [getOutPort, getInternalOutPort, ho, hi1, hi'] at hr
        | some l2 =>
          have hi' := hi
          simp only [internalOutPort] at hi'
          simp only [getOutPort, getInternalOutPort, ho, hi1, hi', Outcome.ok.injEq,
            true_and] at hr
          subst hr
          refine ⟨s, rfl, hs, by simp, ?_, ?_, ?_⟩
          · have := RemovesOne.of_map_remove P q (show table h .outP s p = some l from ho)
            simpa [table_modInternalOutPort, table_modOutPort] using this
          · have := RemovesOne.of_map_remove s p
              (show table h .internalOut P q = some l2 from hi)
            simpa [table_modInternalOutPort, table_modOutPort] using this
          · intro t x r h1 h2
            rw [table_modInternalOutPort, table_modOutPort]
            have h1' : ¬ (t = .outP ∧ x = s ∧ r = p) := by
              rintro ⟨rfl, rfl, rfl⟩; exact h1 rfl
            have h2' : ¬ (t = .internalOut ∧ x = P ∧ r = q) := by
              rintro ⟨rfl, rfl, rfl⟩; exact h2 rfl
            simp [h1', h2']

/-- Claim C4.  Whenever one of the three pointer-based `del...Connection` calls on a
coupled model `P` returns normally, the destination entry has been taken out
of the source's outbound list and the source entry out of the destination's
inbound list, no other list of any model has changed, and the mirror invariant
of `P` is carried from the heap before the call to the heap after it. -/
theorem delConnection_symmetric_removal (h : Heap) (P : ModelId) (p q : String) :
    (∀ src dst hh, delInternalConnection P src p dst q h = .ok () hh →
      ∃ s d, src = some s ∧ dst = some d ∧
        RemovesEdge h hh (.outP, s, p) (d, q) (.inP, d, q) (s, p) ∧
        (Mirror h P → Mirror hh P)) ∧
    (∀ dst hh, delInputConnection P p dst q h = .ok () hh →
      ∃ d, dst = some d ∧
        RemovesEdge h hh (.internalIn, P, p) (d, q) (.inP, d, q) (P, p) ∧
        (Mirror h P → Mirror hh P)) ∧
    (∀ src hh, delOutputConnection P src p q h = .ok () hh →
      ∃ s, src = some s ∧
        RemovesEdge h hh (.outP, s, p) (P, q) (.internalOut, P, q) (s, p) ∧
        (Mirror h P → Mirror hh P)) := by
  refine ⟨?_, ?_, ?_⟩
  · intro src dst hh hr
    obtain ⟨s, d, rfl, rfl, hs, hd, hml, hrem⟩ := delInternalConnection_ok hr
    refine ⟨s, d, rfl, rfl, hrem, ?_⟩
    apply @Mirror.of_removesEdge h hh P s d p q hml
    simpa [outSlot, inSlot, hs, hd] using hrem
  · intro dst hh hr
    obtain ⟨d, rfl, hd, hml, hrem⟩ := delInputConnection_ok hr
    refine ⟨d, rfl, hrem, ?_⟩
    apply @Mirror.of_removesEdge h hh P P d p q hml
    simpa [outSlot, inSlot, hd] using hrem
  · intro src hh hr
    obtain ⟨s, rfl, hs, hml, hrem⟩ := delOutputConnection_ok hr
    refine ⟨s, rfl, hrem, ?_⟩
    apply @Mirror.of_removesEdge h hh P s P p q hml
    simpa [outSlot, inSlot, hs] using hrem


theorem chainHeap_eq :
    ∃ h1, addInputConnection 0 "in" (some 1) "in" connectedHeap = .ok () h1 ∧
      addOutputConnection 0 (some 2) "out" "out" h1 = .ok () chainHeap := by
  refine ⟨_, rfl, ?_⟩
  have : (modInternalOutPort (modOutPort (modInPort (modInternalInPort connectedHeap 0 "in"
      fun outs => outs.add 1 "in") 1 "in" fun ins => ins.add 0 "in") 2 "out"
      fun outs => outs.add 0 "out") 0 "out" fun ins => ins.add 2 "out") = chainHeap := by
    funext i
    by_cases h0 : i = 0
    · subst h0; rfl
    · by_cases h1 : i = 1
      · subst h1; rfl
      · by_cases h2 : i = 2
        · subst h2; rfl
        · simp [modInPort, modOutPort, modInternalInPort, modInternalOutPort,
            Function.update_apply, h0, h1, h2, connectedHeap, chainHeap]
  rw [← this]; rfl

theorem chainHeap_mirror : Mirror chainHeap 0 := by
  obtain ⟨h1, e1, e2⟩ := chainHeap_eq
  obtain ⟨d, hd, hdP, hml, hadd⟩ := addInputConnection_ok e1
  cases hd
  have hm1 : Mirror h1 0 := by
    apply @Mirror.of_addsEdge connectedHeap h1 0 0 1 "in" "in" hml _ connectedHeap_mirror
    simpa [outSlot, inSlot] using hadd
  obtain ⟨s, hs, hsP, hml2, hadd2⟩ := addOutputConnection_ok e2
  cases hs
  apply @Mirror.of_addsEdge h1 chainHeap 0 2 0 "out" "out" hml2 _ hm1
  simpa [outSlot, inSlot] using hadd2

/-- Instance of claim C4 on the example graph with its three connections: each
of the three calls returns, removes both mirror entries of its connection and
keeps the mirror invariant. -/
theorem delConnection_symmetric_removal_witness :
    (∃ hh, delInternalConnection 0 (some 1) "out" (some 2) "in" chainHeap = .ok () hh ∧
      RemovesEdge chainHeap hh (.outP, 1, "out") (2, "in") (.inP, 2, "in") (1, "out") ∧
      outPort hh 1 "out" = some [] ∧ inPort hh 2 "in" = some [] ∧ Mirror hh 0) ∧
    (∃ hh, delInputConnection 0 "in" (some 1) "in" chainHeap = .ok () hh ∧
      RemovesEdge chainHeap hh (.internalIn, 0, "in") (1, "in") (.inP, 1, "in") (0, "in") ∧
      internalInPort hh 0 "in" = some [] ∧ inPort hh 1 "in" = some [] ∧ Mirror hh 0) ∧
    (∃ hh, delOutputConnection 0 (some 2) "out" "out" chainHeap = .ok () hh ∧
      RemovesEdge chainHeap hh (.outP, 2, "out") (0, "out") (.internalOut, 0, "out")
        (2, "out") ∧
      outPort hh 2 "out" = some [] ∧ internalOutPort hh 0 "out" = some [] ∧ Mirror hh 0) := by
  refine ⟨⟨_, rfl, ?_⟩, ⟨_, rfl, ?_⟩, ⟨_, rfl, ?_⟩⟩
  · obtain ⟨s, d, hs, hd, hrem, hm⟩ :=
      (delConnection_symmetric_removal chainHeap 0 "out" "in").1 (some 1) (some 2) _ rfl
    cases hs; cases hd
    exact ⟨hrem, by decide, by decide, hm chainHeap_mirror⟩
  · obtain ⟨d, hd, hrem, hm⟩ :=
      (delConnection_symmetric_removal chainHeap 0 "in" "in").2.1 (some 1) _ rfl
    cases hd
    exact ⟨hrem, by decide, by decide, hm chainHeap_mirror⟩
  · obtain ⟨s, hs, hrem, hm⟩ :=
      (delConnection_symmetric_removal chainHeap 0 "out" "out").2.2 (some 2) _ rfl
    cases hs
    exact ⟨hrem, by decide, by decide, hm chainHeap_mirror⟩


/-! ## Removing a model -/


theorem table_eq_mapFind (h : Heap) (t : Table) (x : ModelId) (r : String) :
    table h t x r = mapFind r (rawTable h t x) := by
  cases t <;> rfl

theorem rawTable_modTable (h : Heap) (s : Table × ModelId × String)
    (f : ModelPortList → ModelPortList) (t : Table) (x : ModelId) :
    rawTable (modTable h s f) t x =
      if t = s.1 ∧ x = s.2.1 then mapModify s.2.2 f (rawTable h t x) else rawTable h t x := by
  obtain ⟨t0, x0, p0⟩ := s
  by_cases hx : x = x0
  · subst hx
    cases t0 <;> cases t <;>
      simp [rawTable, modTable, modInPort, modOutPort, modInternalInPort, modInternalOutPort]
  · cases t0 <;> cases t <;>
      simp [rawTable, modTable, modInPort, modOutPort, modInternalInPort, modInternalOutPort,
        Function.update_apply, hx]

theorem fields_modTable (h : Heap) (s : Table × ModelId × String)
    (f : ModelPortList → ModelPortList) (x : ModelId) :
    (modTable h s f x).name = (h x).name ∧ (modTable h s f x).parent = (h x).parent ∧
    (modTable h s f x).kind = (h x).kind ∧ (modTable h s f x).modelList = (h x).modelList := by
  obtain ⟨t0, x0, p0⟩ := s
  by_cases hx : x = x0
  · subst hx
    cases t0 <;>
      simp [modTable, modInPort, modOutPort, modInternalInPort, modInternalOutPort]
  · cases t0 <;>
      simp [modTable, modInPort, modOutPort, modInternalInPort, modInternalOutPort,
        Function.update_apply, hx]

theorem table_modTable (h : Heap) (s : Table × ModelId × String)
    (f : ModelPortList → ModelPortList) (t : Table) (y : ModelId) (r : String) :
    table (modTable h s f) t y r =
      if (t, y, r) = s then (table h t y r).map f else table h t y r := by
  obtain ⟨t0, x0, p0⟩ := s
  rw [table_eq_mapFind, table_eq_mapFind, rawTable_modTable]
  by_cases h1 : t = t0 ∧ y = x0
  · obtain ⟨rfl, rfl⟩ := h1
    simp [mapFind_mapModify]
  · have : ¬ ((t, y, r) = (t0, x0, p0)) := by
      intro e; simp only [Prod.mk.injEq] at e; exact h1 ⟨e.1, e.2.1⟩
    simp [h1, this]

theorem tableD_modTable (h : Heap) (s : Table × ModelId × String)
    (f : ModelPortList → ModelPortList) (s' : Table × ModelId × String) (hs : tableD h s ≠ [] ∨
      (table h s.1 s.2.1 s.2.2).isSome) :
    tableD (modTable h s f) s' = if s' = s then f (tableD h s') else tableD h s' := by
  obtain ⟨t, y, r⟩ := s'
  simp only [tableD, table_modTable]
  by_cases e : (t, y, r) = s
  · subst e
    simp only [if_true]
    cases ht : table h t y r with
    | none => simp [tableD, ht] at hs
    | some l => simp
  · simp [e]

theorem ListRel.refl_of {R : ModelPortList → ModelPortList → Prop} (hR : ∀ l, R l l)
    (a : ConnectionList) : ListRel R a a := by
  induction a with
  | nil => exact List.Forall₂.nil
  | cons x a ih => exact List.Forall₂.cons ⟨rfl, hR _⟩ ih

theorem ListRel.trans_of {R1 R2 R3 : ModelPortList → ModelPortList → Prop}
    (hR : ∀ a b c, R1 a b → R2 b c → R3 a c) {a b c : ConnectionList}
    (h1 : ListRel R1 a b) (h2 : ListRel R2 b c) : ListRel R3 a c := by
  induction h1 generalizing c with
  | nil => cases h2; exact List.Forall₂.nil
  | cons hxy _ ih =>
    cases h2 with
    | cons hyz h2' =>
      exact List.Forall₂.cons ⟨hxy.1.trans hyz.1, hR _ _ _ hxy.2 hyz.2⟩ (ih h2')

theorem ListRel.mono_of {R1 R2 : ModelPortList → ModelPortList → Prop}
    (hR : ∀ a b, R1 a b → R2 a b) {a b : ConnectionList} (h1 : ListRel R1 a b) :
    ListRel R2 a b :=
  List.Forall₂.imp (fun _ _ hxy => ⟨hxy.1, hR _ _ hxy.2⟩) h1

theorem ListRel.of_mapModify {R : ModelPortList → ModelPortList → Prop} (hR : ∀ l, R l l)
    (k : String) (f : ModelPortList → ModelPortList) (hf : ∀ l, R l (f l))
    (a : ConnectionList) : ListRel R a (mapModify k f a) := by
  induction a with
  | nil => exact List.Forall₂.nil
  | cons x a ih =>
    obtain ⟨k', v⟩ := x
    by_cases hk : k' = k
    · simp only [mapModify, hk, if_true]
      exact List.Forall₂.cons ⟨rfl, hf _⟩ (ListRel.refl_of hR a)
    · simp only [mapModify, hk, if_false]
      exact List.Forall₂.cons ⟨rfl, hR _⟩ ih

theorem ListRel.mapFind_rel {R : ModelPortList → ModelPortList → Prop} {a b : ConnectionList}
    (h1 : ListRel R a b) (k : String) :
    (mapFind k a = none ∧ mapFind k b = none) ∨
      ∃ l l', mapFind k a = some l ∧ mapFind k b = some l' ∧ R l l' := by
  induction h1 with
  | nil => left; exact ⟨rfl, rfl⟩
  | @cons x y a' b' hxy _ ih =>
    obtain ⟨kx, vx⟩ := x
    obtain ⟨ky, vy⟩ := y
    obtain ⟨hk, hr⟩ := hxy
    simp only at hk hr
    subst hk
    by_cases hkk : kx = k
    · right; exact ⟨vx, vy, by simp [mapFind, hkk], by simp [mapFind, hkk], hr⟩
    · simpa [mapFind, hkk] using ih

theorem ListRel.mem_right {R : ModelPortList → ModelPortList → Prop} {a b : ConnectionList}
    (h1 : ListRel R a b) {y : String × ModelPortList} (hy : y ∈ b) :
    ∃ x ∈ a, x.1 = y.1 ∧ R x.2 y.2 := by
  induction h1 with
  | nil => cases hy
  | cons hxy _ ih =>
    rcases List.mem_cons.1 hy with rfl | hy'
    · exact ⟨_, List.mem_cons_self _ _, hxy⟩
    · obtain ⟨x, hx, hxr⟩ := ih hy'
      exact ⟨x, List.mem_cons_of_mem _ hx, hxr⟩

theorem HeapRel.rfl_of {R : Table → ModelId → ModelPortList → ModelPortList → Prop}
    (hR : ∀ t x l, R t x l l) (h : Heap) : HeapRel R h h :=
  fun x => ⟨rfl, rfl, rfl, rfl, fun t => ListRel.refl_of (hR t x) _⟩

theorem HeapRel.comp {R1 R2 R3 : Table → ModelId → ModelPortList → ModelPortList → Prop}
    (hR : ∀ t x a b c, R1 t x a b → R2 t x b c → R3 t x a c) {h1 h2 h3 : Heap}
    (h12 : HeapRel R1 h1 h2) (h23 : HeapRel R2 h2 h3) : HeapRel R3 h1 h3 := by
  intro x
  obtain ⟨a1, a2, a3, a4, a5⟩ := h12 x
  obtain ⟨b1, b2, b3, b4, b5⟩ := h23 x
  exact ⟨b1.trans a1, b2.trans a2, b3.trans a3, b4.trans a4,
    fun t => ListRel.trans_of (hR t x) (a5 t) (b5 t)⟩

theorem HeapRel.weaken {R1 R2 : Table → ModelId → ModelPortList → ModelPortList → Prop}
    (hR : ∀ t x a b, R1 t x a b → R2 t x a b) {h1 h2 : Heap}
    (h12 : HeapRel R1 h1 h2) : HeapRel R2 h1 h2 := by
  intro x
  obtain ⟨a1, a2, a3, a4, a5⟩ := h12 x
  exact ⟨a1, a2, a3, a4, fun t => ListRel.mono_of (hR t x) (a5 t)⟩

theorem HeapRel.of_modTable {R : Table → ModelId → ModelPortList → ModelPortList → Prop}
    (hR : ∀ t x l, R t x l l) (h : Heap) (s : Table × ModelId × String)
    (f : ModelPortList → ModelPortList) (hf : ∀ l, R s.1 s.2.1 l (f l)) :
    HeapRel R h (modTable h s f) := by
  intro x
  obtain ⟨a1, a2, a3, a4⟩ := fields_modTable h s f x
  refine ⟨a1, a2, a3, a4, fun t => ?_⟩
  rw [rawTable_modTable]
  by_cases h1 : t = s.1 ∧ x = s.2.1
  · obtain ⟨rfl, rfl⟩ := h1
    simp only [and_self, if_true]
    exact ListRel.of_mapModify (hR _ _) _ _ hf _
  · simp only [h1, if_false]
    exact ListRel.refl_of (hR _ _) _

theorem HeapRel.table_rel {R : Table → ModelId → ModelPortList → ModelPortList → Prop}
    {h hh : Heap} (hr : HeapRel R h hh) (t : Table) (x : ModelId) (r : String) :
    (table h t x r = none ∧ table hh t x r = none) ∨
      ∃ l l', table h t x r = some l ∧ table hh t x r = some l' ∧ R t x l l' := by
  rw [table_eq_mapFind, table_eq_mapFind]
  exact ((hr x).2.2.2.2 t).mapFind_rel r


theorem inLoop_eq_pruneLoop (this m : ModelId) (port : String) (ins : ModelPortList)
    (h : Heap) :
    delAllConnection.inLoop this m port ins h = pruneLoop (outSlot this) m port ins h := by
  induction ins generalizing h with
  | nil => rfl
  | cons e rest ih =>
    obtain ⟨peer, pport⟩ := e
    by_cases hp : peer = this
    · subst hp
      simp only [delAllConnection.inLoop, pruneLoop, outSlot, if_true, getInternalInPort,
        table, internalInPort, modTable]
      cases mapFind pport (h peer).internalInputList <;> simp [ih]
    · simp only [delAllConnection.inLoop, pruneLoop, outSlot, hp, if_false, getOutPort,
        table, modTable]
      cases outPort h peer pport <;> simp [ih]

theorem outLoop_eq_pruneLoop (this m : ModelId) (port : String) (ins : ModelPortList)
    (h : Heap) :
    delAllConnection.outLoop this m port ins h = pruneLoop (inSlot this) m port ins h := by
  induction ins generalizing h with
  | nil => rfl
  | cons e rest ih =>
    obtain ⟨peer, pport⟩ := e
    by_cases hp : peer = this
    · subst hp
      simp only [delAllConnection.outLoop, pruneLoop, inSlot, if_true, getInternalOutPort,
        table, internalOutPort, modTable]
      cases mapFind pport (h peer).internalOutputList <;> simp [ih]
    · simp only [delAllConnection.outLoop, pruneLoop, inSlot, hp, if_false, getInPort,
        table, modTable]
      cases inPort h peer pport <;> simp [ih]

theorem inputs_eq_pruneAll (this m : ModelId) (cl : ConnectionList) (h : Heap) :
    delAllConnection.inputs this m cl h = pruneAll .inP (outSlot this) m cl h := by
  induction cl generalizing h with
  | nil => rfl
  | cons e rest ih =>
    obtain ⟨port, ins⟩ := e
    simp only [delAllConnection.inputs, pruneAll, inLoop_eq_pruneLoop]
    congr 1
    funext _ h1
    exact ih _

theorem outputs_eq_pruneAll (this m : ModelId) (cl : ConnectionList) (h : Heap) :
    delAllConnection.outputs this m cl h = pruneAll .outP (inSlot this) m cl h := by
  induction cl generalizing h with
  | nil => rfl
  | cons e rest ih =>
    obtain ⟨port, ins⟩ := e
    simp only [delAllConnection.outputs, pruneAll, outLoop_eq_pruneLoop]
    congr 1
    funext _ h1
    exact ih _

theorem andThen_ok {α β : Type} {r : Outcome α} {f : α → Heap → Outcome β} {v : β} {hh : Heap}
    (hr : r.andThen f = .ok v hh) : ∃ u h1, r = .ok u h1 ∧ f u h1 = .ok v hh := by
  cases r with
  | ok u h1 => exact ⟨u, h1, rfl, hr⟩
  | throw e h1 => simp [Outcome.andThen] at hr
  | outOfFuel => simp [Outcome.andThen] at hr

theorem delAllConnection_ok {this m : ModelId} {h hh : Heap}
    (hr : delAllConnection this (some m) h = .ok () hh) :
    ∃ h1, pruneAll .inP (outSlot this) m (h m).inPortList h = .ok () h1 ∧
      pruneAll .outP (inSlot this) m (h1 m).outPortList h1 = .ok () hh := by
  simp only [delAllConnection] at hr
  obtain ⟨_, h1, e1, e2⟩ := andThen_ok hr
  rw [inputs_eq_pruneAll] at e1
  rw [outputs_eq_pruneAll] at e2
  exact ⟨h1, e1, e2⟩


theorem Rprune.same (keep : Table → ModelId → Prop) (m : ModelId) (t : Table) (x : ModelId)
    (l : ModelPortList) : Rprune keep m t x l l :=
  ⟨List.Sublist.refl _, fun _ => rfl⟩

theorem Rprune.chain (keep : Table → ModelId → Prop) (m : ModelId) (t : Table) (x : ModelId)
    (a b c : ModelPortList) (h1 : Rprune keep m t x a b) (h2 : Rprune keep m t x b c) :
    Rprune keep m t x a c :=
  ⟨h2.1.trans h1.1, fun hk => (h2.2 hk).trans (h1.2 hk)⟩

theorem Rprune.of_remove (keep : Table → ModelId → Prop) (m : ModelId) (port : String)
    (t : Table) (x : ModelId) (l : ModelPortList) :
    Rprune keep m t x l (l.remove m port) := by
  refine ⟨List.erase_sublist _ _, fun _ => ?_⟩
  simp only [ModelPortList.remove]
  induction l with
  | nil => rfl
  | cons a l ih =>
    by_cases ha : a = (m, port)
    · subst ha; simp [notAbout]
    · rw [List.erase_cons_tail (by simpa using ha)]
      simp only [List.filter_cons, ih]

theorem pruneLoop_rel (keep : Table → ModelId → Prop)
    (slot : ModelId → String → Table × ModelId × String) (m : ModelId) (port : String)
    (ins : ModelPortList) (h hh : Heap) (hr : pruneLoop slot m port ins h = .ok () hh) :
    HeapRel (Rprune keep m) h hh := by
  induction ins generalizing h with
  | nil =>
    simp only [pruneLoop, Outcome.ok.injEq, true_and] at hr
    subst hr
    exact HeapRel.rfl_of (Rprune.same keep m) h
  | cons e rest ih =>
    obtain ⟨peer, pport⟩ := e
    simp only [pruneLoop] at hr
    split at hr
    · simp at hr
    · have h1 := HeapRel.of_modTable (Rprune.same keep m) h (slot peer pport)
        (fun l => l.remove m port) (fun l => Rprune.of_remove keep m port _ _ l)
      exact HeapRel.comp (Rprune.chain keep m) h1 (ih _ hr)

theorem pruneAll_rel (own : Table) (keep : Table → ModelId → Prop)
    (slot : ModelId → String → Table × ModelId × String) (m : ModelId)
    (hkeep : ¬ keep own m)
    (cl : ConnectionList) (h hh : Heap) (hr : pruneAll own slot m cl h = .ok () hh) :
    HeapRel (Rprune keep m) h hh := by
  induction cl generalizing h with
  | nil =>
    simp only [pruneAll, Outcome.ok.injEq, true_and] at hr
    subst hr
    exact HeapRel.rfl_of (Rprune.same keep m) h
  | cons e rest ih =>
    obtain ⟨port, ins⟩ := e
    simp only [pruneAll] at hr
    obtain ⟨_, h1, e1, e2⟩ := andThen_ok hr
    have r1 := pruneLoop_rel keep slot m port ins h h1 e1
    have r2 := HeapRel.of_modTable (Rprune.same keep m) h1 (own, m, port)
      ModelPortList.remove_all
      (fun l => ⟨by simp [ModelPortList.remove_all], fun hk => absurd hk hkeep⟩)
    exact HeapRel.comp (Rprune.chain keep m) r1
      (HeapRel.comp (Rprune.chain keep m) r2 (ih _ e2))

theorem HeapRel.count_le {R : Table → ModelId → ModelPortList → ModelPortList → Prop}
    (hR : ∀ t x l l', R t x l l' → List.Sublist l' l) {h hh : Heap} (hr : HeapRel R h hh)
    (e : ModelId × String) (s : Table × ModelId × String) :
    List.count e (tableD hh s) ≤ List.count e (tableD h s) := by
  simp only [tableD]
  rcases hr.table_rel s.1 s.2.1 s.2.2 with ⟨e1, e2⟩ | ⟨l, l', e1, e2, hl⟩
  · rw [e1, e2]
  · rw [e1, e2]
    exact (hR _ _ _ _ hl).count_le _

theorem pruneLoop_count (slot : ModelId → String → Table × ModelId × String) (m : ModelId)
    (port : String) (ins : ModelPortList) (h hh : Heap)
    (hr : pruneLoop slot m port ins h = .ok () hh) (c : ModelId) (q : String) :
    List.count (m, port) (tableD hh (slot c q)) ≤
      List.count (m, port) (tableD h (slot c q)) - List.count (c, q) ins := by
  induction ins generalizing h with
  | nil => 
    simp only [pruneLoop, Outcome.ok.injEq, true_and] at hr
    subst hr
    simp
  | cons e rest ih =>
    obtain ⟨peer, pport⟩ := e
    simp only [pruneLoop] at hr
    split at hr
    · simp at hr
    · rename_i l hl
      have ih' := ih _ hr
      have hstep : List.count (m, port)
          (tableD (modTable h (slot peer pport) fun l => l.remove m port) (slot c q)) ≤
          List.count (m, port) (tableD h (slot c q)) -
            (if (c, q) = (peer, pport) then 1 else 0) := by
        by_cases hcq : (c, q) = (peer, pport)
        · simp only [Prod.mk.injEq] at hcq
          obtain ⟨rfl, rfl⟩ := hcq
          rw [tableD_modTable _ _ _ _ (Or.inr (by rw [hl]; rfl))]
          simp [ModelPortList.remove]
        · simp only [hcq, if_false, Nat.sub_zero]
          have hrel : HeapRel (Rprune (fun _ _ => True) m) h
              (modTable h (slot peer pport) fun l => l.remove m port) :=
            HeapRel.of_modTable (Rprune.same _ m) h (slot peer pport)
              (fun l => l.remove m port) (fun l => Rprune.of_remove _ m port _ _ l)
          exact HeapRel.count_le (fun _ _ _ _ h => h.1) hrel _ _
      rw [List.count_cons]
      have : ((peer, pport) == (c, q)) = decide ((c, q) = (peer, pport)) := by
        by_cases hcq : (c, q) = (peer, pport)
        · rw [hcq]; simp
        · have : ¬ ((peer, pport) = (c, q)) := fun e => hcq e.symm
          simp [hcq, this]
      rw [this]
      by_cases hcq : (c, q) = (peer, pport)
      · simp only [hcq, if_true, decide_True] at hstep ⊢
        rw [hcq] at ih'
        omega
      · simp only [hcq, if_false, decide_False, Nat.sub_zero] at hstep ⊢
        simp only [Bool.false_eq_true, if_false]
        omega


theorem pruneAll_count (own : Table) (slot : ModelId → String → Table × ModelId × String)
    (m : ModelId) (cl : ConnectionList) (h hh : Heap)
    (hr : pruneAll own slot m cl h = .ok () hh) (pl : String × ModelPortList) (hpl : pl ∈ cl)
    (c : ModelId) (q : String) :
    List.count (m, pl.1) (tableD hh (slot c q)) ≤
      List.count (m, pl.1) (tableD h (slot c q)) - List.count (c, q) pl.2 := by
  induction cl generalizing h with
  | nil => cases hpl
  | cons e rest ih =>
    obtain ⟨port, ins⟩ := e
    simp only [pruneAll] at hr
    obtain ⟨_, h1, e1, e2⟩ := andThen_ok hr
    have hsub : ∀ (t : Table) (x : ModelId) (l l' : ModelPortList),
        Rprune (fun _ _ => False) m t x l l' → List.Sublist l' l := fun _ _ _ _ h => h.1
    have r2 : HeapRel (Rprune (fun _ _ => False) m) h1
        (modTable h1 (own, m, port) ModelPortList.remove_all) :=
      HeapRel.of_modTable (Rprune.same _ m) h1 (own, m, port) ModelPortList.remove_all
        (fun l => ⟨by simp [ModelPortList.remove_all], fun hk => absurd hk id⟩)
    rcases List.mem_cons.1 hpl with rfl | hmem
    · have c1 := pruneLoop_count slot m port ins h h1 e1 c q
      have r3 := pruneAll_rel own (fun _ _ => False) slot m id rest _ hh e2
      have c2 := HeapRel.count_le hsub r2 (m, port) (slot c q)
      have c3 := HeapRel.count_le hsub r3 (m, port) (slot c q)
      simp only
      omega
    · have c1 := ih _ e2 hmem
      have r1 := pruneLoop_rel (fun _ _ => False) slot m port ins h h1 e1
      have c2 := HeapRel.count_le hsub r2 (m, pl.1) (slot c q)
      have c3 := HeapRel.count_le hsub r1 (m, pl.1) (slot c q)
      omega

theorem mapFind_mem {β : Type} {k : String} {v : β} {l : List (String × β)}
    (h : mapFind k l = some v) : (k, v) ∈ l := by
  induction l with
  | nil => simp [mapFind] at h
  | cons a l ih =>
    obtain ⟨ka, va⟩ := a
    by_cases hk : ka = k
    · simp only [mapFind, hk, if_true, Option.some.injEq] at h
      subst h; subst hk; exact List.mem_cons_self _ _
    · simp only [mapFind, hk, if_false] at h
      exact List.mem_cons_of_mem _ (ih h)

theorem count_filter_notAbout (m c : ModelId) (q : String) (hc : c ≠ m) (l : ModelPortList) :
    List.count (c, q) (l.filter (notAbout m)) = List.count (c, q) l := by
  apply List.count_filter
  simp [notAbout, hc]

/-- After `delAllConnection(m)` on a graph that satisfies the mirror invariant,
no outbound or inbound list of another model in the scope of `P` holds an entry
that refers to `m`. -/
theorem delAllConnection_no_refs {P m : ModelId} {h hh : Heap}
    (hr : delAllConnection P (some m) h = .ok () hh) (hmP : m ≠ P) (hmS : inScope h P m)
    (hmir : Mirror h P) (c : ModelId) (hc : inScope h P c) (hcm : c ≠ m) (q p : String) :
    List.count (m, p) (tableD hh (outSlot P c q)) = 0 ∧
      List.count (m, p) (tableD hh (inSlot P c q)) = 0 := by
  obtain ⟨h1, e1, e2⟩ := delAllConnection_ok hr
  have hsub : ∀ (t : Table) (x : ModelId) (l l' : ModelPortList),
      Rprune (fun _ _ => False) m t x l l' → List.Sublist l' l := fun _ _ _ _ h => h.1
  have r1 := pruneAll_rel .inP (fun _ _ => False) (outSlot P) m id _ h h1 e1
  have r2 := pruneAll_rel .outP (fun _ _ => False) (inSlot P) m id _ h1 hh e2
  constructor
  · have hm := hmir c m q p hc hmS
    rw [outbound_eq_table] at hm
    have c2 := HeapRel.count_le hsub r2 (m, p) (outSlot P c q)
    have c1 := HeapRel.count_le hsub r1 (m, p) (outSlot P c q)
    simp only [inbound, hmP, if_false] at hm
    change List.count (m, p) (tableD h (outSlot P c q)) = _ at hm
    cases hi : inPort h m p with
    | none =>
      rw [hi] at hm
      simp only [Option.getD_none, List.count_nil] at hm
      omega
    | some l =>
      rw [hi] at hm
      simp only [Option.getD_some] at hm
      have := pruneAll_count .inP (outSlot P) m _ h h1 e1 (p, l) (mapFind_mem hi) c q
      simp only at this
      omega
  · have hm := hmir m c p q hmS hc
    rw [inbound_eq_table] at hm
    change _ = List.count (m, p) (tableD h (inSlot P c q)) at hm
    simp only [outbound, hmP, if_false] at hm
    have c1 := HeapRel.count_le hsub r1 (m, p) (inSlot P c q)
    have r1' := pruneAll_rel .inP (fun t x => (t, x) ≠ (Table.inP, m)) (outSlot P) m
      (by simp) _ h h1 e1
    rcases r1'.table_rel .outP m p with ⟨a1, a2⟩ | ⟨l, l', a1, a2, hl⟩
    · simp only [table] at a1
      rw [a1] at hm
      simp only [Option.getD_none, List.count_nil] at hm
      have c2 := HeapRel.count_le hsub r2 (m, p) (inSlot P c q)
      omega
    · simp only [table] at a1 a2
      rw [a1] at hm
      simp only [Option.getD_some] at hm
      have hf := hl.2 (by simp)
      have hcount : List.count (c, q) l' = List.count (c, q) l := by
        rw [← count_filter_notAbout m c q hcm l', hf, count_filter_notAbout m c q hcm l]
      have := pruneAll_count .outP (inSlot P) m _ h1 hh e2 (p, l') (mapFind_mem a2) c q
      simp only at this
      omega

theorem delAllConnection_rel {P m : ModelId} {h hh : Heap}
    (hr : delAllConnection P (some m) h = .ok () hh) :
    HeapRel (Rprune (fun _ x => x ≠ m) m) h hh := by
  obtain ⟨h1, e1, e2⟩ := delAllConnection_ok hr
  have r1 := pruneAll_rel .inP (fun _ x => x ≠ m) (outSlot P) m (by simp) _ h h1 e1
  have r2 := pruneAll_rel .outP (fun _ x => x ≠ m) (inSlot P) m (by simp) _ h1 hh e2
  exact HeapRel.comp (Rprune.chain _ m) r1 r2


/-! ### The destructor stays inside the subtree -/

theorem Rdestroy.same_list (S : ModelId → Prop) (t : Table) (x : ModelId) (l : ModelPortList) :
    Rdestroy S t x l l :=
  ⟨List.Sublist.refl _, fun _ => rfl⟩

theorem Rdestroy.chain_list (S : ModelId → Prop) (t : Table) (x : ModelId)
    (a b c : ModelPortList) (h1 : Rdestroy S t x a b) (h2 : Rdestroy S t x b c) :
    Rdestroy S t x a c :=
  ⟨h2.1.trans h1.1, fun hk => (h2.2 hk).trans (h1.2 hk)⟩

theorem Subtree.of_rel {R : Table → ModelId → ModelPortList → ModelPortList → Prop}
    (hR : ∀ t x l l', R t x l l' → List.Sublist l' l) {h hh : Heap} (hr : HeapRel R h hh)
    {S : ModelId → Prop} {m : ModelId} (hs : Subtree h S m) : Subtree hh S m := by
  obtain ⟨s1, s2, s3⟩ := hs
  refine ⟨s1, ?_, ?_⟩
  · intro x hx kc hkc
    rw [(hr x).2.2.2.1] at hkc
    exact s2 x hx kc hkc
  · intro x hx hxm pl hpl e he
    have hin := (hr x).2.2.2.2 .inP
    have hout := (hr x).2.2.2.2 .outP
    simp only [rawTable] at hin hout
    rcases List.mem_append.1 hpl with hp | hp
    · obtain ⟨pl0, hpl0, _, hrel⟩ := hin.mem_right hp
      exact s3 x hx hxm pl0 (List.mem_append_left _ hpl0) e ((hR _ _ _ _ hrel).subset he)
    · obtain ⟨pl0, hpl0, _, hrel⟩ := hout.mem_right hp
      exact s3 x hx hxm pl0 (List.mem_append_right _ hpl0) e ((hR _ _ _ _ hrel).subset he)

theorem pruneLoop_relB (S : ModelId → Prop)
    (slot : ModelId → String → Table × ModelId × String) (c : ModelId) (port : String)
    (ins : ModelPortList) (h hh : Heap) (hS : ∀ e ∈ ins, S (slot e.1 e.2).2.1)
    (hr : pruneLoop slot c port ins h = .ok () hh) :
    HeapRel (Rdestroy S) h hh := by
  induction ins generalizing h with
  | nil =>
    simp only [pruneLoop, Outcome.ok.injEq, true_and] at hr
    subst hr
    exact HeapRel.rfl_of (Rdestroy.same_list S) h
  | cons e rest ih =>
    obtain ⟨peer, pport⟩ := e
    simp only [pruneLoop] at hr
    split at hr
    · simp at hr
    · have hin : S (slot peer pport).2.1 := hS (peer, pport) (List.mem_cons_self _ _)
      have h1 := HeapRel.of_modTable (Rdestroy.same_list S) h (slot peer pport)
        (fun l => l.remove c port)
        (fun l => ⟨List.erase_sublist _ _, fun hn => absurd hin hn⟩)
      exact HeapRel.comp (Rdestroy.chain_list S) h1
        (ih _ (fun e he => hS e (List.mem_cons_of_mem _ he)) hr)

theorem pruneAll_relB (S : ModelId → Prop) (own : Table)
    (slot : ModelId → String → Table × ModelId × String) (c : ModelId) (hc : S c)
    (cl : ConnectionList) (h hh : Heap)
    (hS : ∀ pl ∈ cl, ∀ e ∈ pl.2, S (slot e.1 e.2).2.1)
    (hr : pruneAll own slot c cl h = .ok () hh) :
    HeapRel (Rdestroy S) h hh := by
  induction cl generalizing h with
  | nil =>
    simp only [pruneAll, Outcome.ok.injEq, true_and] at hr
    subst hr
    exact HeapRel.rfl_of (Rdestroy.same_list S) h
  | cons e rest ih =>
    obtain ⟨port, ins⟩ := e
    simp only [pruneAll] at hr
    obtain ⟨_, h1, e1, e2⟩ := andThen_ok hr
    have r1 := pruneLoop_relB S slot c port ins h h1
      (hS (port, ins) (List.mem_cons_self _ _)) e1
    have r2 := HeapRel.of_modTable (Rdestroy.same_list S) h1 (own, c, port)
      ModelPortList.remove_all
      (fun l => ⟨by simp [ModelPortList.remove_all], fun hn => absurd hc hn⟩)
    exact HeapRel.comp (Rdestroy.chain_list S) r1
      (HeapRel.comp (Rdestroy.chain_list S) r2
        (ih _ (fun pl hpl => hS pl (List.mem_cons_of_mem _ hpl)) e2))

theorem delAllConnection_relB {S : ModelId → Prop} {m x c : ModelId} {h hh : Heap}
    (hs : Subtree h S m) (hx : S x) (hc : S c) (hcm : c ≠ m)
    (hr : delAllConnection x (some c) h = .ok () hh) : HeapRel (Rdestroy S) h hh := by
  obtain ⟨h1, e1, e2⟩ := delAllConnection_ok hr
  have hsub : ∀ (t : Table) (y : ModelId) (l l' : ModelPortList),
      Rdestroy S t y l l' → List.Sublist l' l := fun _ _ _ _ h => h.1
  have r1 : HeapRel (Rdestroy S) h h1 := by
    apply pruneAll_relB S .inP (outSlot x) c hc _ h h1 _ e1
    intro pl hpl e he
    have := hs.2.2 c hc hcm pl (List.mem_append_left _ hpl) e he
    by_cases hex : e.1 = x <;> simp [outSlot, hex, hx, this]
  have hs1 := Subtree.of_rel hsub r1 hs
  have r2 : HeapRel (Rdestroy S) h1 hh := by
    apply pruneAll_relB S .outP (inSlot x) c hc _ h1 hh _ e2
    intro pl hpl e he
    have := hs1.2.2 c hc hcm pl (List.mem_append_right _ hpl) e he
    by_cases hex : e.1 = x <;> simp [inSlot, hex, hx, this]
  exact HeapRel.comp (Rdestroy.chain_list S) r1 r2

theorem forEachModel_relB {S : ModelId → Prop} {m : ModelId}
    (f : ModelId → Heap → Outcome Unit)
    (hf : ∀ c g g', S c → c ≠ m → Subtree g S m → f c g = .ok () g' →
      HeapRel (Rdestroy S) g g')
    (cl : ModelList) (h hh : Heap) (hcl : ∀ kc ∈ cl, S kc.2 ∧ kc.2 ≠ m)
    (hs : Subtree h S m) (hr : forEachModel f cl h = .ok () hh) :
    HeapRel (Rdestroy S) h hh := by
  induction cl generalizing h with
  | nil =>
    simp only [forEachModel, Outcome.ok.injEq, true_and] at hr
    subst hr
    exact HeapRel.rfl_of (Rdestroy.same_list S) h
  | cons kc rest ih =>
    obtain ⟨k, c⟩ := kc
    simp only [forEachModel] at hr
    obtain ⟨_, h1, e1, e2⟩ := andThen_ok hr
    have hc := hcl (k, c) (List.mem_cons_self _ _)
    have r1 := hf c h h1 hc.1 hc.2 hs e1
    have hs1 := Subtree.of_rel (fun _ _ _ _ h => h.1) r1 hs
    exact HeapRel.comp (Rdestroy.chain_list S) r1
      (ih _ (fun kc hkc => hcl kc (List.mem_cons_of_mem _ hkc)) hs1 e2)

/-- The destructor of a model of `S` writes only to models of `S`. -/
theorem destroy_rel {S : ModelId → Prop} {m : ModelId} (fuel : Nat) (x : ModelId)
    (h hh : Heap) (hs : Subtree h S m) (hx : S x) (hr : destroy fuel x h = .ok () hh) :
    HeapRel (Rdestroy S) h hh := by
  induction fuel generalizing x h hh with
  | zero => simp [destroy] at hr
  | succ fuel ih =>
    simp only [destroy] at hr
    split at hr
    · obtain ⟨_, h1, e1, e2⟩ := andThen_ok hr
      have r1 : HeapRel (Rdestroy S) h h1 := by
        apply forEachModel_relB (fun c => delAllConnection x (some c)) _ _ h h1
          (hs.2.1 x hx) hs e1
        intro c g g' hc hcm hg hcg
        exact delAllConnection_relB hg hx hc hcm hcg
      have hs1 := Subtree.of_rel (fun _ _ _ _ h => h.1) r1 hs
      have r2 : HeapRel (Rdestroy S) h1 hh := by
        apply forEachModel_relB (destroy fuel) _ _ h1 hh (hs1.2.1 x hx) hs1 e2
        intro c g g' hc _ hg hcg
        exact ih c g g' hg hc hcg
      exact HeapRel.comp (Rdestroy.chain_list S) r1 r2
    · simp only [Outcome.ok.injEq, true_and] at hr
      subst hr
      exact HeapRel.rfl_of (Rdestroy.same_list S) h


/-! ### `delModel` -/

theorem mem_mapErase {β : Type} {k : String} {kv : String × β} {l : List (String × β)}
    (h : kv ∈ mapErase k l) : kv ∈ l := by
  induction l with
  | nil => simp [mapErase] at h
  | cons a l ih =>
    obtain ⟨ka, va⟩ := a
    by_cases hk : ka = k
    · simp only [mapErase, hk, if_true] at h
      exact List.mem_cons_of_mem _ h
    · simp only [mapErase, hk, if_false] at h
      rcases List.mem_cons.1 h with rfl | h'
      · exact List.mem_cons_self _ _
      · exact List.mem_cons_of_mem _ (ih h')

theorem key_ne_of_mem_mapErase {β : Type} {k : String} {kv : String × β}
    {l : List (String × β)} (hnd : (l.map Prod.fst).Nodup) (h : kv ∈ mapErase k l) :
    kv.1 ≠ k := by
  induction l with
  | nil => simp [mapErase] at h
  | cons a l ih =>
    obtain ⟨ka, va⟩ := a
    simp only [List.map_cons, List.nodup_cons] at hnd
    by_cases hk : ka = k
    · simp only [mapErase, hk, if_true] at h
      intro e
      apply hnd.1
      rw [hk, ← e]
      exact List.mem_map_of_mem Prod.fst h
    · simp only [mapErase, hk, if_false] at h
      rcases List.mem_cons.1 h with rfl | h'
      · exact hk
      · exact ih hnd.2 h'

theorem table_eraseChild (h : Heap) (P : ModelId) (k : String) (t : Table) (x : ModelId)
    (r : String) : table (eraseChild h P k) t x r = table h t x r := by
  by_cases hx : x = P
  · subst hx
    cases t <;>
      simp [table, eraseChild, inPort, outPort, internalInPort, internalOutPort]
  · cases t <;>
      simp [table, eraseChild, inPort, outPort, internalInPort, internalOutPort,
        Function.update_apply, hx]

theorem Subtree.eraseChild {h : Heap} {S : ModelId → Prop} {m : ModelId} (hs : Subtree h S m)
    (P : ModelId) (hP : ¬ S P) (k : String) : Subtree (eraseChild h P k) S m := by
  obtain ⟨s1, s2, s3⟩ := hs
  refine ⟨s1, ?_, ?_⟩
  · intro x hx
    have hxP : x ≠ P := fun e => hP (e ▸ hx)
    simpa [vle.graph.eraseChild, Function.update_apply, hxP] using s2 x hx
  · intro x hx
    have hxP : x ≠ P := fun e => hP (e ▸ hx)
    simpa [vle.graph.eraseChild, Function.update_apply, hxP] using s3 x hx

theorem filter_notAbout_eq_self (m : ModelId) (l : ModelPortList)
    (h0 : ∀ p, List.count (m, p) l = 0) : l.filter (notAbout m) = l := by
  rw [List.filter_eq_self]
  intro e he
  simp only [notAbout, Bool.not_eq_true', decide_eq_false_iff_not]
  intro hem
  have := h0 e.2
  rw [List.count_eq_zero] at this
  apply this
  rw [← hem]
  exact he

/-- What a returning `delModel(m)` has done. -/
theorem delModel_post (fuel : Nat) (h hh : Heap) (P m : ModelId)
    (S : ModelId → Prop) (hmP : m ≠ P)
    (hchild : mapFind (h m).name (h P).modelList = some m)
    (hkeys : ((h P).modelList.map Prod.fst).Nodup)
    (hnames : ∀ kc ∈ (h P).modelList, (h kc.2).name = kc.1)
    (hmir : Mirror h P) (hsub : Subtree h S m) (hSP : ¬ S P)
    (hsib : ∀ kc ∈ (h P).modelList, kc.2 ≠ m → ¬ S kc.2)
    (hret : delModel fuel P m h = .ok () hh) :
    (hh P).modelList = mapErase (h m).name (h P).modelList ∧
    (∀ k, (k, m) ∉ (hh P).modelList) ∧
    (∀ c, inScope hh P c → ∀ q,
      outbound hh P c q = (outbound h P c q).filter (notAbout m) ∧
      inbound hh P c q = (inbound h P c q).filter (notAbout m)) ∧
    (∀ x, ¬ S x → ∀ t r,
      (table hh t x r).map (List.filter (notAbout m)) =
        (table h t x r).map (List.filter (notAbout m))) := by
  simp only [delModel, hchild] at hret
  obtain ⟨_, h2, e1, e2⟩ := andThen_ok hret
  have rA := delAllConnection_rel e1
  have hs2 : Subtree h2 S m := Subtree.of_rel (fun _ _ _ _ h => h.1) rA hsub
  have hs3 := hs2.eraseChild P hSP (h m).name
  have rB := destroy_rel fuel m _ hh hs3 hsub.1 e2
  have hml : (hh P).modelList = mapErase (h m).name (h P).modelList := by
    rw [(rB P).2.2.2.1]
    simp only [eraseChild, Function.update_same]
    rw [(rA P).2.2.2.1]
  have hgone : ∀ k, (k, m) ∉ (hh P).modelList := by
    intro k hk
    rw [hml] at hk
    have h1 := hnames _ (mem_mapErase hk)
    exact key_ne_of_mem_mapErase hkeys hk h1.symm
  have hB : ∀ x, ¬ S x → ∀ t r, table hh t x r = table h2 t x r := by
    intro x hx t r
    rcases rB.table_rel t x r with ⟨a1, a2⟩ | ⟨l, l', a1, a2, hl⟩
    · rw [a2, ← a1, table_eraseChild]
    · rw [a2, hl.2 hx, ← a1, table_eraseChild]
  have hmS : inScope h P m := Or.inr ⟨_, mapFind_mem hchild⟩
  refine ⟨hml, hgone, ?_, ?_⟩
  · intro c hc q
    have hc' : inScope h P c ∧ c ≠ m ∧ ¬ S c := by
      rcases hc with rfl | ⟨k, hk⟩
      · exact ⟨Or.inl rfl, fun e => hmP e.symm, hSP⟩
      · have hcm : c ≠ m := fun e => hgone k (e ▸ hk)
        rw [hml] at hk
        exact ⟨Or.inr ⟨k, mem_mapErase hk⟩, hcm, hsib _ (mem_mapErase hk) hcm⟩
    obtain ⟨hcs, hcm, hcS⟩ := hc'
    have key : ∀ s : Table × ModelId × String, s.2.1 = c →
        (∀ p, List.count (m, p) (tableD h2 s) = 0) →
        tableD hh s = (tableD h s).filter (notAbout m) := by
      intro s hs h0
      have e1 : tableD hh s = tableD h2 s := by
        simp only [tableD]; rw [hB _ (hs ▸ hcS)]
      rw [e1, ← filter_notAbout_eq_self m _ h0]
      simp only [tableD]
      rcases rA.table_rel s.1 s.2.1 s.2.2 with ⟨a1, a2⟩ | ⟨l, l', a1, a2, hl⟩
      · rw [a1, a2]
      · rw [a1, a2]
        exact hl.2 (hs ▸ hcm)
    have hcell1 : (outSlot P c q).2.1 = c := by
      by_cases e : c = P <;> simp [outSlot, e]
    have hcell2 : (inSlot P c q).2.1 = c := by
      by_cases e : c = P <;> simp [inSlot, e]
    constructor
    · rw [outbound_eq_table, outbound_eq_table]
      exact key _ hcell1 (fun p => (delAllConnection_no_refs e1 hmP hmS hmir c hcs hcm q p).1)
    · rw [inbound_eq_table, inbound_eq_table]
      exact key _ hcell2 (fun p => (delAllConnection_no_refs e1 hmP hmS hmir c hcs hcm q p).2)
  · intro x hx t r
    have hxm : x ≠ m := fun e => hx (e ▸ hsub.1)
    rw [hB x hx]
    rcases rA.table_rel t x r with ⟨a1, a2⟩ | ⟨l, l', a1, a2, hl⟩
    · rw [a1, a2]
    · rw [a1, a2]
      simp only [Option.map_some']
      rw [hl.2 hxm]


/-! ### `delModel` returns -/

theorem hasSlot_modTable (h : Heap) (s : Table × ModelId × String)
    (f : ModelPortList → ModelPortList) (s' : Table × ModelId × String) :
    hasSlot (modTable h s f) s' ↔ hasSlot h s' := by
  simp only [hasSlot, table_modTable]
  split
  · cases table h s'.1 s'.2.1 s'.2.2 <;> simp
  · rfl

theorem hasSlot_of_rel {R : Table → ModelId → ModelPortList → ModelPortList → Prop}
    {h hh : Heap} (hr : HeapRel R h hh) (s : Table × ModelId × String) :
    hasSlot hh s ↔ hasSlot h s := by
  simp only [hasSlot]
  rcases hr.table_rel s.1 s.2.1 s.2.2 with ⟨a1, a2⟩ | ⟨l, l', a1, a2, -⟩
  · rw [a1, a2]
  · rw [a1, a2]; simp

theorem pruneLoop_total (slot : ModelId → String → Table × ModelId × String) (m : ModelId)
    (port : String) (ins : ModelPortList) (h : Heap)
    (hs : ∀ e ∈ ins, hasSlot h (slot e.1 e.2)) :
    ∃ hh, pruneLoop slot m port ins h = .ok () hh := by
  induction ins generalizing h with
  | nil => exact ⟨h, rfl⟩
  | cons e rest ih =>
    obtain ⟨peer, pport⟩ := e
    have h1 := hs (peer, pport) (List.mem_cons_self _ _)
    simp only [hasSlot] at h1
    simp only [pruneLoop]
    split
    · rename_i hnone
      rw [hnone] at h1
      cases h1
    · apply ih
      intro e he
      rw [hasSlot_modTable]
      exact hs e (List.mem_cons_of_mem _ he)

theorem pruneAll_total (own : Table) (slot : ModelId → String → Table × ModelId × String)
    (m : ModelId) (cl : ConnectionList) (h : Heap)
    (hs : ∀ pl ∈ cl, ∀ e ∈ pl.2, hasSlot h (slot e.1 e.2)) :
    ∃ hh, pruneAll own slot m cl h = .ok () hh := by
  induction cl generalizing h with
  | nil => exact ⟨h, rfl⟩
  | cons pl rest ih =>
    obtain ⟨port, ins⟩ := pl
    obtain ⟨h1, e1⟩ := pruneLoop_total slot m port ins h (hs (port, ins) (List.mem_cons_self _ _))
    have r1 := pruneLoop_rel (fun _ _ => False) slot m port ins h h1 e1
    simp only [pruneAll, e1, Outcome.andThen]
    apply ih
    intro pl hpl e he
    rw [hasSlot_modTable, hasSlot_of_rel r1]
    exact hs pl (List.mem_cons_of_mem _ hpl) e he

theorem delAllConnection_total {P c : ModelId} {h : Heap} (he : EndpointsExist h P c) :
    ∃ hh, delAllConnection P (some c) h = .ok () hh := by
  obtain ⟨h1, e1⟩ := pruneAll_total .inP (outSlot P) c (h c).inPortList h he.1
  have r1 := pruneAll_rel .inP (fun _ _ => False) (outSlot P) c id _ h h1 e1
  obtain ⟨h2, e2⟩ := pruneAll_total .outP (inSlot P) c (h1 c).outPortList h1 (by
    intro pl hpl e hpe
    have hout := (r1 c).2.2.2.2 .outP
    simp only [rawTable] at hout
    obtain ⟨pl0, hpl0, _, hrel⟩ := hout.mem_right hpl
    rw [hasSlot_of_rel r1]
    exact he.2 pl0 hpl0 e (hrel.1.subset hpe))
  refine ⟨h2, ?_⟩
  simp only [delAllConnection, inputs_eq_pruneAll, e1, Outcome.andThen, outputs_eq_pruneAll, e2]

theorem EndpointsExist.of_heapRel {R : Table → ModelId → ModelPortList → ModelPortList → Prop}
    (hR : ∀ t x l l', R t x l l' → List.Sublist l' l) {h hh : Heap} (hr : HeapRel R h hh)
    {P c : ModelId} (he : EndpointsExist h P c) : EndpointsExist hh P c := by
  have hin := (hr c).2.2.2.2 .inP
  have hout := (hr c).2.2.2.2 .outP
  simp only [rawTable] at hin hout
  constructor
  · intro pl hpl e hpe
    obtain ⟨pl0, hpl0, _, hrel⟩ := hin.mem_right hpl
    rw [hasSlot_of_rel hr]
    exact he.1 pl0 hpl0 e ((hR _ _ _ _ hrel).subset hpe)
  · intro pl hpl e hpe
    obtain ⟨pl0, hpl0, _, hrel⟩ := hout.mem_right hpl
    rw [hasSlot_of_rel hr]
    exact he.2 pl0 hpl0 e ((hR _ _ _ _ hrel).subset hpe)

theorem EndpointsExist.after_eraseChild {h : Heap} {x c : ModelId} (he : EndpointsExist h x c)
    (P : ModelId) (k : String) (hc : c ≠ P) : EndpointsExist (eraseChild h P k) x c := by
  have hcell : (eraseChild h P k c) = h c := by
    simp [eraseChild, Function.update_apply, hc]
  constructor
  · intro pl hpl e hpe
    rw [hcell] at hpl
    have := he.1 pl hpl e hpe
    simpa [hasSlot, table_eraseChild] using this
  · intro pl hpl e hpe
    rw [hcell] at hpl
    have := he.2 pl hpl e hpe
    simpa [hasSlot, table_eraseChild] using this

/-- The facts about the models of `S` that let the destructor run to its end:
`S` is a subtree, the connections of every child inside its parent end at
existing ports, and `rank` decreases from a parent to its children. -/
theorem destroyInv_of_rel {S : ModelId → Prop} {m : ModelId} {rank : ModelId → Nat}
    {h hh : Heap} (hr : HeapRel (Rdestroy S) h hh)
    (hinv : Subtree h S m ∧
      (∀ x, S x → ∀ kc ∈ (h x).modelList, EndpointsExist h x kc.2) ∧
      (∀ x, S x → ∀ kc ∈ (h x).modelList, rank kc.2 < rank x)) :
    Subtree hh S m ∧
      (∀ x, S x → ∀ kc ∈ (hh x).modelList, EndpointsExist hh x kc.2) ∧
      (∀ x, S x → ∀ kc ∈ (hh x).modelList, rank kc.2 < rank x) := by
  obtain ⟨i1, i2, i3⟩ := hinv
  refine ⟨Subtree.of_rel (fun _ _ _ _ h => h.1) hr i1, ?_, ?_⟩
  · intro x hx kc hkc
    rw [(hr x).2.2.2.1] at hkc
    exact EndpointsExist.of_heapRel (fun _ _ _ _ h => h.1) hr (i2 x hx kc hkc)
  · intro x hx kc hkc
    rw [(hr x).2.2.2.1] at hkc
    exact i3 x hx kc hkc

theorem forEachModel_total {S : ModelId → Prop} {m : ModelId} {rank : ModelId → Nat}
    (f : ModelId → Heap → Outcome Unit) (Q : ModelId → Prop) (h0 : Heap)
    (hf : ∀ c g, Q c → HeapRel (Rdestroy S) h0 g →
      (Subtree g S m ∧
        (∀ x, S x → ∀ kc ∈ (g x).modelList, EndpointsExist g x kc.2) ∧
        (∀ x, S x → ∀ kc ∈ (g x).modelList, rank kc.2 < rank x)) →
      ∃ g', f c g = .ok () g' ∧ HeapRel (Rdestroy S) g g')
    (cl : ModelList) (h : Heap) (hcl : ∀ kc ∈ cl, Q kc.2) (h0h : HeapRel (Rdestroy S) h0 h)
    (hinv : Subtree h S m ∧
      (∀ x, S x → ∀ kc ∈ (h x).modelList, EndpointsExist h x kc.2) ∧
      (∀ x, S x → ∀ kc ∈ (h x).modelList, rank kc.2 < rank x)) :
    ∃ hh, forEachModel f cl h = .ok () hh ∧ HeapRel (Rdestroy S) h hh := by
  induction cl generalizing h with
  | nil => exact ⟨h, rfl, HeapRel.rfl_of (Rdestroy.same_list S) h⟩
  | cons kc rest ih =>
    obtain ⟨k, c⟩ := kc
    obtain ⟨h1, e1, r1⟩ := hf c h (hcl (k, c) (List.mem_cons_self _ _)) h0h hinv
    obtain ⟨h2, e2, r2⟩ := ih h1 (fun kc hkc => hcl kc (List.mem_cons_of_mem _ hkc))
      (HeapRel.comp (Rdestroy.chain_list S) h0h r1) (destroyInv_of_rel r1 hinv)
    refine ⟨h2, ?_, HeapRel.comp (Rdestroy.chain_list S) r1 r2⟩
    simp only [forEachModel, e1, Outcome.andThen, e2]

/-- With a budget larger than the rank of `x`, the destructor of a model `x` of
a well-formed subtree returns. -/
theorem destroy_total {S : ModelId → Prop} {m : ModelId} {rank : ModelId → Nat} (fuel : Nat)
    (x : ModelId) (h : Heap) (hx : S x) (hfuel : rank x < fuel)
    (hinv : Subtree h S m ∧
      (∀ x, S x → ∀ kc ∈ (h x).modelList, EndpointsExist h x kc.2) ∧
      (∀ x, S x → ∀ kc ∈ (h x).modelList, rank kc.2 < rank x)) :
    ∃ hh, destroy fuel x h = .ok () hh := by
  induction fuel generalizing x h with
  | zero => omega
  | succ fuel ih =>
    simp only [destroy]
    split
    · obtain ⟨h1, e1, r1⟩ := @forEachModel_total S m rank
        (fun c => delAllConnection x (some c))
        (fun c => S c ∧ c ≠ m ∧ ∃ k, (k, c) ∈ (h x).modelList) h
        (by
          rintro c g ⟨hc, hcm, k, hk⟩ hhg hg
          rw [← (hhg x).2.2.2.1] at hk
          obtain ⟨g', eg⟩ := delAllConnection_total (hg.2.1 x hx (k, c) hk)
          exact ⟨g', eg, delAllConnection_relB hg.1 hx hc hcm eg⟩)
        (h x).modelList h
        (fun kc hkc => ⟨(hinv.1.2.1 x hx kc hkc).1, (hinv.1.2.1 x hx kc hkc).2, kc.1, hkc⟩)
        (HeapRel.rfl_of (Rdestroy.same_list S) h) hinv
      have hinv1 := destroyInv_of_rel r1 hinv
      obtain ⟨h2, e2, -⟩ := @forEachModel_total S m rank (destroy fuel)
        (fun c => S c ∧ rank c < fuel) h1
        (by
          rintro c g ⟨hc, hcr⟩ _ hg
          obtain ⟨g', eg⟩ := ih c g hc hcr hg
          exact ⟨g', eg, destroy_rel fuel c g g' hg.1 hc eg⟩)
        (h1 x).modelList h1
        (fun kc hkc => ⟨(hinv1.1.2.1 x hx kc hkc).1, by
          have := hinv1.2.2 x hx kc hkc
          omega⟩)
        (HeapRel.rfl_of (Rdestroy.same_list S) h1) hinv1
      refine ⟨h2, ?_⟩
      simp only [delAllConnectionOfChildren, e1, Outcome.andThen, e2]
    · exact ⟨h, rfl⟩

/-- A `delModel` of a well-formed child returns, and what it has done. -/
theorem delModel_returns (fuel : Nat) (h : Heap) (P m : ModelId)
    (S : ModelId → Prop) (rank : ModelId → Nat) (hmP : m ≠ P)
    (hchild : mapFind (h m).name (h P).modelList = some m)
    (hkeys : ((h P).modelList.map Prod.fst).Nodup)
    (hnames : ∀ kc ∈ (h P).modelList, (h kc.2).name = kc.1)
    (hmir : Mirror h P) (hends : EndpointsExist h P m)
    (hsub : Subtree h S m) (hSP : ¬ S P)
    (hsib : ∀ kc ∈ (h P).modelList, kc.2 ≠ m → ¬ S kc.2)
    (hendsS : ∀ x, S x → ∀ kc ∈ (h x).modelList, EndpointsExist h x kc.2)
    (hrank : ∀ x, S x → ∀ kc ∈ (h x).modelList, rank kc.2 < rank x)
    (hfuel : rank m < fuel) :
    ∃ hh, delModel fuel P m h = .ok () hh ∧
      (hh P).modelList = mapErase (h m).name (h P).modelList ∧
      (∀ k, (k, m) ∉ (hh P).modelList) ∧
      (∀ c, inScope hh P c → ∀ q,
        outbound hh P c q = (outbound h P c q).filter (notAbout m) ∧
        inbound hh P c q = (inbound h P c q).filter (notAbout m)) ∧
      (∀ x, ¬ S x → ∀ t r,
        (table hh t x r).map (List.filter (notAbout m)) =
          (table h t x r).map (List.filter (notAbout m))) := by
  obtain ⟨h2, e1⟩ := delAllConnection_total hends
  have rA := delAllConnection_rel e1
  have hsubR : ∀ (t : Table) (x : ModelId) (l l' : ModelPortList),
      Rprune (fun _ x => x ≠ m) m t x l l' → List.Sublist l' l := fun _ _ _ _ h => h.1
  have hs2 : Subtree h2 S m := Subtree.of_rel hsubR rA hsub
  have hcell : ∀ x, S x → eraseChild h2 P (h m).name x = h2 x := by
    intro x hx
    have hxP : x ≠ P := fun e => hSP (e ▸ hx)
    simp [eraseChild, Function.update_apply, hxP]
  have hinv3 : Subtree (eraseChild h2 P (h m).name) S m ∧
      (∀ x, S x → ∀ kc ∈ (eraseChild h2 P (h m).name x).modelList,
        EndpointsExist (eraseChild h2 P (h m).name) x kc.2) ∧
      (∀ x, S x → ∀ kc ∈ (eraseChild h2 P (h m).name x).modelList, rank kc.2 < rank x) := by
    refine ⟨hs2.eraseChild P hSP (h m).name, ?_, ?_⟩
    · intro x hx kc hkc
      rw [hcell x hx, (rA x).2.2.2.1] at hkc
      have hc : kc.2 ≠ P := fun e => hSP (e ▸ (hsub.2.1 x hx kc hkc).1)
      exact (EndpointsExist.of_heapRel hsubR rA (hendsS x hx kc hkc)).after_eraseChild P _ hc
    · intro x hx kc hkc
      rw [hcell x hx, (rA x).2.2.2.1] at hkc
      exact hrank x hx kc hkc
  obtain ⟨hh, e2⟩ := destroy_total fuel m _ hsub.1 hfuel hinv3
  have hret : delModel fuel P m h = .ok () hh := by
    simp only [delModel, hchild, e1, Outcome.andThen, e2]
  exact ⟨hh, hret, delModel_post fuel h hh P m S hmP hchild hkeys hnames hmir hsub hSP hsib hret⟩

/-- Claim C5.  Let `m` be a child of `P`, stored under its own name in a child
map whose keys are distinct and are the names of the children, in a graph that
satisfies the mirror invariant of `P` and in which the connections of `m` end
at existing ports.  Let `S` be the set of the models at and below `m`: a
well-formed subtree (children ranked below their parent, connected among
themselves at existing ports) that is disjoint from `P` and from the other
children.  Then `delModel(m)` returns as soon as the budget of the destructor
exceeds the rank of `m`, and afterwards: the child map of `P` has lost exactly
the entry of `m`, so `m` is no longer in it; every outbound and inbound list
of `P` and of every remaining child is the list it was with the entries that
refer to `m` filtered out; and in every list of every model outside `S` the
entries that do not refer to `m` are as before. -/
theorem delModel_removes_incident_connections (fuel : Nat) (h : Heap) (P m : ModelId)
    (S : ModelId → Prop) (rank : ModelId → Nat) (hmP : m ≠ P)
    (hchild : mapFind (h m).name (h P).modelList = some m)
    (hkeys : ((h P).modelList.map Prod.fst).Nodup)
    (hnames : ∀ kc ∈ (h P).modelList, (h kc.2).name = kc.1)
    (hmir : Mirror h P) (hends : EndpointsExist h P m)
    (hsub : Subtree h S m) (hSP : ¬ S P)
    (hsib : ∀ kc ∈ (h P).modelList, kc.2 ≠ m → ¬ S kc.2)
    (hendsS : ∀ x, S x → ∀ kc ∈ (h x).modelList, EndpointsExist h x kc.2)
    (hrank : ∀ x, S x → ∀ kc ∈ (h x).modelList, rank kc.2 < rank x)
    (hfuel : rank m < fuel) :
    ∃ hh, delModel fuel P m h = .ok () hh ∧
      (hh P).modelList = mapErase (h m).name (h P).modelList ∧
      (∀ k, (k, m) ∉ (hh P).modelList) ∧
      (∀ c, inScope hh P c → ∀ q,
        outbound hh P c q = (outbound h P c q).filter (notAbout m) ∧
        inbound hh P c q = (inbound h P c q).filter (notAbout m)) ∧
      (∀ x, ¬ S x → ∀ t r,
        (table hh t x r).map (List.filter (notAbout m)) =
          (table h t x r).map (List.filter (notAbout m))) :=
  delModel_returns fuel h P m S rank hmP hchild hkeys hnames hmir hends hsub hSP hsib hendsS
    hrank hfuel

theorem nestedHeap_mirror : Mirror nestedHeap 0 := by
  intro a b p q ha hb
  have ha' : a = 0 ∨ a = 1 ∨ a = 2 := by
    rcases ha with rfl | ⟨k, hk⟩
    · exact Or.inl rfl
    · simp [nestedHeap] at hk
      rcases hk with ⟨_, rfl⟩ | ⟨_, rfl⟩ <;> simp
  have hb' : b = 0 ∨ b = 1 ∨ b = 2 := by
    rcases hb with rfl | ⟨k, hk⟩
    · exact Or.inl rfl
    · simp [nestedHeap] at hk
      rcases hk with ⟨_, rfl⟩ | ⟨_, rfl⟩ <;> simp
  rcases ha' with rfl | rfl | rfl <;> rcases hb' with rfl | rfl | rfl <;>
    simp [outbound, inbound, nestedHeap, internalInPort, internalOutPort, inPort, outPort,
      mapFind] <;>
    split_ifs <;> simp_all [List.count_cons]

theorem nestedHeap_subtree : Subtree nestedHeap (fun x => x = 1 ∨ x = 4) 1 := by
  refine ⟨Or.inl rfl, ?_, ?_⟩
  · rintro x (rfl | rfl) kc hkc
    · simp [nestedHeap] at hkc
      subst hkc
      simp
    · simp [nestedHeap] at hkc
  · rintro x (rfl | rfl) hne pl hpl e he
    · exact absurd rfl hne
    · simp [nestedHeap] at hpl
      rcases hpl with rfl | rfl
      · simp at he
        subst he
        simp
      · simp at he

theorem chainHeap_endpoints : EndpointsExist chainHeap 0 1 := by
  constructor
  · intro pl hpl e he
    simp [chainHeap] at hpl
    subst hpl
    simp at he
    subst he
    unfold hasSlot
    decide
  · intro pl hpl e he
    simp [chainHeap] at hpl
    subst hpl
    simp at he
    subst he
    unfold hasSlot
    decide

theorem nestedHeap_endpoints :
    EndpointsExist nestedHeap 0 1 ∧
    ∀ x, (x = 1 ∨ x = 4) → ∀ kc ∈ (nestedHeap x).modelList, EndpointsExist nestedHeap x kc.2 := by
  refine ⟨⟨?_, ?_⟩, ?_⟩
  · intro pl hpl e he
    simp [nestedHeap] at hpl
    subst hpl
    simp at he
  · intro pl hpl e he
    simp [nestedHeap] at hpl
    subst hpl
    simp at he
    subst he
    unfold hasSlot
    decide
  · rintro x (rfl | rfl) kc hkc
    · simp [nestedHeap] at hkc
      subst hkc
      constructor
      · intro pl hpl e he
        simp [nestedHeap] at hpl
        subst hpl
        simp at he
        subst he
        unfold hasSlot
        decide
      · intro pl hpl e he
        simp [nestedHeap] at hpl
        subst hpl
        simp at he
    · simp [nestedHeap] at hkc

/-- Instances of claim C5.  First `delModel(a)` on the example graph with its
three connections: the child map of `top` becomes `[b]`, and the internal
input list `in` of `top` and the list of `b.in`, which held the two connections
of `a`, are empty afterwards.  Then `delModel(a)` on the two-level graph, where
`a` is coupled and its destructor also takes its child `g` apart. -/
theorem delModel_removes_incident_connections_witness :
    (∃ hh, delModel 1 0 1 chainHeap = .ok () hh ∧
      (hh 0).modelList = mapErase (chainHeap 1).name (chainHeap 0).modelList ∧
      (∀ k, (k, 1) ∉ (hh 0).modelList) ∧
      (∀ c, inScope hh 0 c → ∀ q,
        outbound hh 0 c q = (outbound chainHeap 0 c q).filter (notAbout 1) ∧
        inbound hh 0 c q = (inbound chainHeap 0 c q).filter (notAbout 1)) ∧
      (∀ x, ¬ x = 1 → ∀ t r,
        (table hh t x r).map (List.filter (notAbout 1)) =
          (table chainHeap t x r).map (List.filter (notAbout 1)))) ∧
    (∃ hh, delModel 1 0 1 chainHeap = .ok () hh ∧
      (hh 0).modelList = [("b", 2)] ∧ internalInPort hh 0 "in" = some [] ∧
      inPort hh 2 "in" = some [] ∧ outPort hh 2 "out" = some [(0, "out")]) ∧
    (∃ hh, delModel 2 0 1 nestedHeap = .ok () hh ∧
      (hh 0).modelList = mapErase (nestedHeap 1).name (nestedHeap 0).modelList ∧
      (∀ k, (k, 1) ∉ (hh 0).modelList) ∧
      (∀ c, inScope hh 0 c → ∀ q,
        outbound hh 0 c q = (outbound nestedHeap 0 c q).filter (notAbout 1) ∧
        inbound hh 0 c q = (inbound nestedHeap 0 c q).filter (notAbout 1)) ∧
      (∀ x, ¬ (x = 1 ∨ x = 4) → ∀ t r,
        (table hh t x r).map (List.filter (notAbout 1)) =
          (table nestedHeap t x r).map (List.filter (notAbout 1)))) ∧
    (∃ hh, delModel 2 0 1 nestedHeap = .ok () hh ∧
      (hh 0).modelList = [("b", 2)] ∧ inPort hh 2 "in" = some [] ∧
      internalInPort hh 1 "in" = some [] ∧ inPort hh 4 "in" = some []) :=
  ⟨delModel_removes_incident_connections 1 chainHeap 0 1 (fun x => x = 1) (fun _ => 0)
      (by decide) (by decide) (by decide) (by decide) chainHeap_mirror chainHeap_endpoints
      ⟨rfl, fun x hx => by subst hx; intro kc hkc; simp [chainHeap] at hkc,
        fun x hx hne => absurd hx hne⟩
      (by decide) (fun kc _ hne => hne)
      (fun x hx => by subst hx; intro kc hkc; simp [chainHeap] at hkc)
      (fun x hx => by subst hx; intro kc hkc; simp [chainHeap] at hkc)
      (by decide),
    ⟨_, rfl, by decide, by decide, by decide, by decide⟩,
    delModel_removes_incident_connections 2 nestedHeap 0 1 (fun x => x = 1 ∨ x = 4)
      (fun x => if x = 1 then 1 else 0)
      (by decide) (by decide) (by decide) (by decide) nestedHeap_mirror
      nestedHeap_endpoints.1 nestedHeap_subtree (by decide) (by decide)
      nestedHeap_endpoints.2
      (by
        rintro x (rfl | rfl) kc hkc
        · simp [nestedHeap] at hkc
          subst hkc
          decide
        · simp [nestedHeap] at hkc)
      (by decide),
    ⟨_, rfl, by decide, by decide, by decide, by decide⟩⟩

/-! ## `replace` -/

/-- Claim C6, evaluated on the code.  In the example graph `a` has the two
connections `top.in -> a.in` and `a.out -> b.in`.  After `replace(a, c)` the
new model `c` is a child of `top`, `a` is not, and the lists of `c` hold the
peers of `a` (`c.in = [(top, in)]`, `c.out = [(b, in)]`), but no peer list
holds `c`: the internal input list `in` of `top` and the list of `b.in` are
empty.  Only one edge of each connection exists, and the mirror invariant is
lost. -/
theorem replace_leaves_half_connections :
    Mirror replaceHeap 0 ∧
    ∃ hh, replace 1 0 (some 1) (some 3) replaceHeap = .ok () hh ∧
      (hh 0).modelList = [("b", 2), ("c", 3)] ∧ (hh 3).parent = some 0 ∧
      inPort hh 3 "in" = some [(0, "in")] ∧ internalInPort hh 0 "in" = some [] ∧
      outPort hh 3 "out" = some [(2, "in")] ∧ inPort hh 2 "in" = some [] ∧
      ¬ Mirror hh 0 := by
  refine ⟨?_, _, rfl, by decide, by decide, by decide, by decide, by decide, by decide, ?_⟩
  · intro a b p q ha hb
    have ha3 : a ≠ 3 := by
      rcases ha with rfl | ⟨k, hk⟩
      · decide
      · intro e; subst e; revert hk; simp [replaceHeap, chainHeap]
    have hb3 : b ≠ 3 := by
      rcases hb with rfl | ⟨k, hk⟩
      · decide
      · intro e; subst e; revert hk; simp [replaceHeap, chainHeap]
    have h0 : (replaceHeap 0) = chainHeap 0 := rfl
    have hA : replaceHeap a = chainHeap a := by simp [replaceHeap, Function.update_apply, ha3]
    have hB : replaceHeap b = chainHeap b := by simp [replaceHeap, Function.update_apply, hb3]
    have := chainHeap_mirror a b p q
      (by simpa [inScope, h0] using ha) (by simpa [inScope, h0] using hb)
    simpa [outbound, inbound, internalInPort, internalOutPort, outPort, inPort, h0, hA, hB]
      using this
  · intro hm
    have := hm 0 3 "in" "in" (Or.inl rfl) (Or.inr ⟨"c", by decide⟩)
    revert this
    decide


/-! ## `displace` -/

theorem mapFind_eq_none_of_forall {β : Type} {k : String} {l : List (String × β)}
    (h : ∀ kv ∈ l, kv.1 ≠ k) : mapFind k l = none := by
  induction l with
  | nil => rfl
  | cons a l ih =>
    obtain ⟨ka, va⟩ := a
    have hk : ka ≠ k := h (ka, va) (List.mem_cons_self _ _)
    simp only [mapFind, hk, if_false]
    exact ih (fun kv hkv => h kv (List.mem_cons_of_mem _ hkv))

theorem value_unique_of_nodup_keys {β : Type} {l : List (String × β)}
    (hnd : (l.map Prod.fst).Nodup) {k : String} {v w : β} (hv : (k, v) ∈ l) (hw : (k, w) ∈ l) :
    v = w := by
  induction l with
  | nil => cases hv
  | cons a l ih =>
    simp only [List.map_cons, List.nodup_cons] at hnd
    rcases List.mem_cons.1 hv with rfl | hv'
    · rcases List.mem_cons.1 hw with e | hw'
      · simp only [Prod.mk.injEq] at e; exact e.2.symm
      · exact absurd (List.mem_map_of_mem Prod.fst hw') hnd.1
    · rcases List.mem_cons.1 hw with rfl | hw'
      · exact absurd (List.mem_map_of_mem Prod.fst hv') hnd.1
      · exact ih hnd.2 hv' hw'

theorem hasConnectionProblem_of_entry (h : Heap) (lst : ModelList) (km : String × ModelId)
    (hkm : km ∈ lst) (pl : String × ModelPortList)
    (hpl : pl ∈ (h km.2).inPortList ∨ pl ∈ (h km.2).outPortList) (e : ModelId × String)
    (he : e ∈ pl.2) (hnone : mapFind (h e.1).name lst = none) :
    hasConnectionProblem h lst = true := by
  simp only [hasConnectionProblem, List.any_eq_true, Bool.or_eq_true]
  refine ⟨km, hkm, ?_⟩
  rcases hpl with hp | hp
  · left
    simp only [haveConnectionWithOtherModel, List.any_eq_true]
    exact ⟨pl, hp, e, he, by simp [hnone]⟩
  · right
    simp only [haveConnectionWithOtherModel, List.any_eq_true]
    exact ⟨pl, hp, e, he, by simp [hnone]⟩

/-- Claim C7.  Let the child map of `P` have distinct keys that are the names
of its children, and let `models` be a set of children of `P`.  If some model
of `models` has, in one of its input or output port lists, an entry whose peer
is a child of `P` that is not in `models`, then `displace(models, destination)`
raises the graph error and the heap (child maps, parent fields and port lists
of every model) is exactly the one before the call. -/
theorem displace_rejects_outside_connection (h : Heap) (P destination : ModelId)
    (models : ModelList)
    (hkeys : ((h P).modelList.map Prod.fst).Nodup)
    (hnames : ∀ kc ∈ (h P).modelList, (h kc.2).name = kc.1)
    (hsubset : ∀ kc ∈ models, kc ∈ (h P).modelList)
    (km : String × ModelId) (hkm : km ∈ models) (pl : String × ModelPortList)
    (hpl : pl ∈ (h km.2).inPortList ∨ pl ∈ (h km.2).outPortList)
    (e : ModelId × String) (he : e ∈ pl.2)
    (hsibling : ∃ k, (k, e.1) ∈ (h P).modelList)
    (hout : ∀ k, (k, e.1) ∉ models) :
    displace P models destination h = .throw .DevsGraphError h := by
  have hnone : mapFind (h e.1).name models = none := by
    apply mapFind_eq_none_of_forall
    intro kv hkv hk
    obtain ⟨k, hk'⟩ := hsibling
    have h1 := hsubset kv hkv
    have h2 := hnames _ hk'
    simp only at h2
    have h3 : (kv.1, kv.2) ∈ (h P).modelList := h1
    rw [hk, h2] at h3
    have := value_unique_of_nodup_keys hkeys h3 hk'
    apply hout kv.1
    rw [← this]
    exact hkv
  simp [displace, hasConnectionProblem_of_entry h models km hkm pl hpl e he hnone]

/-- Instance of claim C7: moving only `a` out of the example graph, where `a`
is connected to its sibling `b`, is refused. -/
theorem displace_rejects_outside_connection_witness :
    displace 0 [("a", 1)] 3 displaceHeap = .throw .DevsGraphError displaceHeap :=
  displace_rejects_outside_connection displaceHeap 0 3 [("a", 1)] (by decide) (by decide)
    (by decide) ("a", 1) (by decide) ("out", [(2, "in")]) (Or.inr (by decide)) (2, "in")
    (by decide) ⟨"b", by decide⟩ (fun k hk => by simp at hk)

/-- Claim C8, evaluated on the code.  The children `a` and `b` of `top` are
connected by `a.out -> b.in` only, so all their connections are among
themselves.  `displace({a, b}, dest)` returns, `a` and `b` are children of
`dest`, and the connection has been added a second time: the list of `a.out`
holds `(b, in)` twice and the list of `b.in` holds `(a, out)` twice. -/
theorem displace_duplicates_connections :
    outPort displaceHeap 1 "out" = some [(2, "in")] ∧
    inPort displaceHeap 2 "in" = some [(1, "out")] ∧
    ∃ hh, displace 0 [("a", 1), ("b", 2)] 3 displaceHeap = .ok () hh ∧
      (hh 3).modelList = [("a", 1), ("b", 2)] ∧
      outPort hh 1 "out" = some [(2, "in"), (2, "in")] ∧
      inPort hh 2 "in" = some [(1, "out"), (1, "out")] :=
  ⟨by decide, by decide, _, rfl, by decide, by decide, by decide⟩

/-! ## Adding a child under a name that is taken -/

/-- Claim C10.  When `name` is already the name of a child of the coupled
model, each of `addAtomicModel(name)`, `addCoupledModel(name)` and
`addNoVLEModel(name)` fails: it raises `DevsGraphError` (the exception class
the source uses for every graph error, the duplicate name included) before
anything is allocated or written, so the heap, and with it the child map and
the existing child, is exactly as it was. -/
theorem addChild_duplicate_name (h : Heap) (P : ModelId) (name : String) (x : ModelId)
    (hex : (findModel h P name).isSome) :
    addAtomicModel P name x h = .throw .DevsGraphError h ∧
    addCoupledModel P name x h = .throw .DevsGraphError h ∧
    addNoVLEModel P name x h = .throw .DevsGraphError h := by
  have : exist h P name = true := hex
  simp [addAtomicModel, addCoupledModel, addNoVLEModel, addChildOfKind, this]

/-- Instance of claim C10: `top` already has a child named `a`. -/
theorem addChild_duplicate_name_witness :
    addAtomicModel 0 "a" 7 exampleHeap = .throw .DevsGraphError exampleHeap ∧
    addCoupledModel 0 "a" 7 exampleHeap = .throw .DevsGraphError exampleHeap ∧
    addNoVLEModel 0 "a" 7 exampleHeap = .throw .DevsGraphError exampleHeap :=
  addChild_duplicate_name exampleHeap 0 "a" 7 (by decide)


/-! ### Moving children from one coupled model to another -/

theorem mapFind_mapInsert {β : Type} (k k' : String) (v : β) (l : List (String × β)) :
    mapFind k' (mapInsert k v l) = if k' = k then some v else mapFind k' l := by
  induction l with
  | nil =>
    by_cases h : k = k'
    · subst h; simp [mapInsert, mapFind]
    · have : ¬ k' = k := fun e => h e.symm
      simp [mapInsert, mapFind, h, this]
  | cons a l ih =>
    obtain ⟨ka, va⟩ := a
    by_cases h1 : ka = k
    · subst h1
      by_cases h2 : k' = ka
      · subst h2; simp [mapInsert, mapFind]
      · have : ¬ ka = k' := fun e => h2 e.symm
        simp [mapInsert, mapFind, h2, this]
    · by_cases h3 : k.data < ka.data
      · by_cases h2 : k' = k
        · subst h2; simp [mapInsert, mapFind, h1, h3]
        · have : ¬ k = k' := fun e => h2 e.symm
          simp [mapInsert, mapFind, h1, h3, h2, this]
      · by_cases h2 : k' = k
        · subst h2; simp [mapInsert, mapFind, h1, h3, ih]
        · by_cases h4 : ka = k'
          · subst h4; simp [mapInsert, mapFind, h1, h3, h2]
          · simp [mapInsert, mapFind, h1, h3, h2, h4, ih]

theorem mem_mapInsert {β : Type} (k : String) (v : β) (l : List (String × β))
    (hk : mapFind k l = none) (kv : String × β) :
    kv ∈ mapInsert k v l ↔ kv = (k, v) ∨ kv ∈ l := by
  induction l with
  | nil => simp [mapInsert]
  | cons a l ih =>
    obtain ⟨ka, va⟩ := a
    by_cases h1 : ka = k
    · simp [mapFind, h1] at hk
    · simp only [mapFind, h1, if_false] at hk
      by_cases h3 : k.data < ka.data
      · simp [mapInsert, h1, h3]
      · simp only [mapInsert, h1, h3, if_false, List.mem_cons, ih hk]
        tauto

theorem mem_mapErase_of_ne {β : Type} {k : String} {kv : String × β} {l : List (String × β)}
    (h : kv ∈ l) (hk : kv.1 ≠ k) : kv ∈ mapErase k l := by
  induction l with
  | nil => cases h
  | cons a l ih =>
    obtain ⟨ka, va⟩ := a
    by_cases h1 : ka = k
    · simp only [mapErase, h1, if_true]
      rcases List.mem_cons.1 h with rfl | h'
      · exact absurd h1 hk
      · exact h'
    · simp only [mapErase, h1, if_false]
      rcases List.mem_cons.1 h with rfl | h'
      · exact List.mem_cons_self _ _
      · exact List.mem_cons_of_mem _ (ih h')

theorem nodup_keys_mapErase {β : Type} (k : String) {l : List (String × β)}
    (hnd : (l.map Prod.fst).Nodup) : ((mapErase k l).map Prod.fst).Nodup := by
  induction l with
  | nil => simp [mapErase]
  | cons a l ih =>
    obtain ⟨ka, va⟩ := a
    simp only [List.map_cons, List.nodup_cons] at hnd
    by_cases h1 : ka = k
    · simpa [mapErase, h1] using hnd.2
    · simp only [mapErase, h1, if_false, List.map_cons, List.nodup_cons]
      refine ⟨fun hmem => hnd.1 ?_, ih hnd.2⟩
      obtain ⟨kv, hkv, e⟩ := List.mem_map.1 hmem
      exact List.mem_map.2 ⟨kv, mem_mapErase hkv, e⟩

theorem mapFind_of_mem_nodup {β : Type} {l : List (String × β)}
    (hnd : (l.map Prod.fst).Nodup) {k : String} {v : β} (hv : (k, v) ∈ l) :
    mapFind k l = some v := by
  induction l with
  | nil => cases hv
  | cons a l ih =>
    obtain ⟨ka, va⟩ := a
    simp only [List.map_cons, List.nodup_cons] at hnd
    rcases List.mem_cons.1 hv with e | hv'
    · simp only [Prod.mk.injEq] at e
      simp [mapFind, e.1, e.2]
    · have : ka ≠ k := fun e => hnd.1 (e ▸ List.mem_map_of_mem Prod.fst hv')
      simp only [mapFind, this, if_false]
      exact ih hnd.2 hv'

/-- Effect of a successful `detachModel` on the fields of every model. -/
theorem detachModel_fields {P m c : ModelId} {g : Heap}
    (hc : mapFind (g m).name (g P).modelList = some c) :
    ∃ gg, detachModel P m g = .ok () gg ∧
      ∀ x, (gg x).name = (g x).name ∧
        (gg x).parent = (if x = c then none else (g x).parent) ∧
        (gg x).modelList =
          (if x = P then mapErase (g m).name (g P).modelList else (g x).modelList) ∧
        ∀ t, rawTable gg t x = rawTable g t x := by
  refine ⟨eraseChild (setParent g c none) P (g m).name, by simp only [detachModel, hc],
    fun x => ?_⟩
  by_cases hxP : x = P <;> by_cases hxc : x = c
  · subst hxP; subst hxc
    refine ⟨by simp [eraseChild, setParent], by simp [eraseChild, setParent],
      by simp [eraseChild, setParent], fun t => ?_⟩
    cases t <;> simp [rawTable, eraseChild, setParent]
  · subst hxP
    refine ⟨by simp [eraseChild, setParent, Function.update_apply, hxc],
      by simp [eraseChild, setParent, Function.update_apply, hxc],
      by simp [eraseChild, setParent, Function.update_apply, hxc], fun t => ?_⟩
    cases t <;> simp [rawTable, eraseChild, setParent, Function.update_apply, hxc]
  · subst hxc
    refine ⟨by simp [eraseChild, setParent, Function.update_apply, hxP],
      by simp [eraseChild, setParent, Function.update_apply, hxP],
      by simp [eraseChild, setParent, Function.update_apply, hxP], fun t => ?_⟩
    cases t <;> simp [rawTable, eraseChild, setParent, Function.update_apply, hxP]
  · refine ⟨by simp [eraseChild, setParent, Function.update_apply, hxP, hxc],
      by simp [eraseChild, setParent, Function.update_apply, hxP, hxc],
      by simp [eraseChild, setParent, Function.update_apply, hxP, hxc], fun t => ?_⟩
    cases t <;> simp [rawTable, eraseChild, setParent, Function.update_apply, hxP, hxc]

/-- Effect of a successful `attachModel` of a parentless model. -/
theorem attachModel_fields {D m : ModelId} {g gg : Heap} (hpar : (g m).parent = none)
    (hr : attachModel D m g = .ok () gg) :
    mapFind (g m).name (g D).modelList = none ∧
      ∀ x, (gg x).name = (g x).name ∧
        (gg x).parent = (if x = m then some D else (g x).parent) ∧
        (gg x).modelList =
          (if x = D then mapInsert (g m).name m (g D).modelList else (g x).modelList) ∧
        ∀ t, rawTable gg t x = rawTable g t x := by
  simp only [attachModel] at hr
  split at hr
  · simp at hr
  · rename_i hex
    simp only [hpar, Outcome.andThen, Outcome.ok.injEq, true_and] at hr
    subst hr
    refine ⟨by simpa [exist] using hex, fun x => ?_⟩
    by_cases hxD : x = D <;> by_cases hxm : x = m
    · subst hxD; subst hxm
      refine ⟨by simp [setChild, setParent], by simp [setChild, setParent],
        by simp [setChild, setParent], fun t => ?_⟩
      cases t <;> simp [rawTable, setChild, setParent]
    · subst hxD
      refine ⟨by simp [setChild, setParent, Function.update_apply, hxm],
        by simp [setChild, setParent, Function.update_apply, hxm],
        by simp [setChild, setParent, Function.update_apply, hxm], fun t => ?_⟩
      cases t <;> simp [rawTable, setChild, setParent, Function.update_apply, hxm]
    · subst hxm
      refine ⟨by simp [setChild, setParent, Function.update_apply, hxD],
        by simp [setChild, setParent, Function.update_apply, hxD],
        by simp [setChild, setParent, Function.update_apply, hxD], fun t => ?_⟩
      cases t <;> simp [rawTable, setChild, setParent, Function.update_apply, hxD]
    · refine ⟨by simp [setChild, setParent, Function.update_apply, hxD, hxm],
        by simp [setChild, setParent, Function.update_apply, hxD, hxm],
        by simp [setChild, setParent, Function.update_apply, hxD, hxm], fun t => ?_⟩
      cases t <;> simp [rawTable, setChild, setParent, Function.update_apply, hxD, hxm]


theorem mem_mapErase_iff {β : Type} {k : String} {kv : String × β} {l : List (String × β)}
    (hnd : (l.map Prod.fst).Nodup) : kv ∈ mapErase k l ↔ kv ∈ l ∧ kv.1 ≠ k :=
  ⟨fun h => ⟨mem_mapErase h, key_ne_of_mem_mapErase hnd h⟩,
    fun h => mem_mapErase_of_ne h.1 h.2⟩

/-- Effect of a successful `detachModels` on a set of children of `P`. -/
theorem detachModels_fields {P : ModelId} (models : ModelList) (g gg : Heap)
    (hkeys : ((g P).modelList.map Prod.fst).Nodup)
    (hnames : ∀ kc ∈ (g P).modelList, (g kc.2).name = kc.1)
    (hmkeys : (models.map Prod.fst).Nodup)
    (hsubset : ∀ kc ∈ models, kc ∈ (g P).modelList)
    (hr : detachModels P models g = .ok () gg) :
    (∀ x, (gg x).name = (g x).name ∧
      ((∃ k, (k, x) ∈ models) → (gg x).parent = none) ∧
      ((∀ k, (k, x) ∉ models) → (gg x).parent = (g x).parent) ∧
      (x ≠ P → (gg x).modelList = (g x).modelList) ∧
      ∀ t, rawTable gg t x = rawTable g t x) ∧
    (∀ kc, kc ∈ (gg P).modelList ↔ kc ∈ (g P).modelList ∧ ∀ kc' ∈ models, kc'.1 ≠ kc.1) := by
  induction models generalizing g with
  | nil =>
    simp only [detachModels, forEachModel, Outcome.ok.injEq, true_and] at hr
    subst hr
    simp
  | cons km rest ih =>
    obtain ⟨k, m⟩ := km
    have hmem : (k, m) ∈ (g P).modelList := hsubset _ (List.mem_cons_self _ _)
    have hname : (g m).name = k := hnames _ hmem
    have hfind : mapFind (g m).name (g P).modelList = some m := by
      rw [hname]; exact mapFind_of_mem_nodup hkeys hmem
    obtain ⟨g1, e1, hf⟩ := detachModel_fields hfind
    simp only [detachModels, forEachModel, e1, Outcome.andThen] at hr
    simp only [List.map_cons, List.nodup_cons] at hmkeys
    have hP1 : (g1 P).modelList = mapErase k (g P).modelList := by
      have := (hf P).2.2.1
      simpa [hname] using this
    have ih' := ih g1 (by rw [hP1]; exact nodup_keys_mapErase k hkeys)
      (by
        intro kc hkc
        rw [hP1] at hkc
        rw [(hf kc.2).1]
        exact hnames kc (mem_mapErase hkc))
      hmkeys.2
      (by
        intro kc hkc
        rw [hP1]
        refine mem_mapErase_of_ne (hsubset kc (List.mem_cons_of_mem _ hkc)) ?_
        intro e
        exact hmkeys.1 (e ▸ List.mem_map_of_mem Prod.fst hkc))
      hr
    refine ⟨fun x => ?_, fun kc => ?_⟩
    · obtain ⟨a1, a2, a3, a4, a5⟩ := ih'.1 x
      obtain ⟨b1, b2, b3, b4⟩ := hf x
      refine ⟨a1.trans b1, ?_, ?_, ?_, fun t => (a5 t).trans (b4 t)⟩
      · rintro ⟨k', hk'⟩
        rcases List.mem_cons.1 hk' with e | hk''
        · simp only [Prod.mk.injEq] at e
          by_cases hx : ∃ k, (k, x) ∈ rest
          · exact a2 hx
          · push_neg at hx
            rw [a3 hx, b2, if_pos e.2]
        · exact a2 ⟨k', hk''⟩
      · intro hx
        have hx1 : ∀ k, (k, x) ∉ rest := fun k' hk' => hx k' (List.mem_cons_of_mem _ hk')
        have hxm : x ≠ m := fun e => hx k (e ▸ List.mem_cons_self _ _)
        rw [a3 hx1, b2, if_neg hxm]
      · intro hxP
        rw [a4 hxP, b3, if_neg hxP]
    · rw [ih'.2 kc, hP1, mem_mapErase_iff hkeys]
      constructor
      · rintro ⟨⟨h1, h2⟩, h3⟩
        refine ⟨h1, fun kc' hkc' => ?_⟩
        rcases List.mem_cons.1 hkc' with rfl | h'
        · exact fun e => h2 e.symm
        · exact h3 kc' h'
      · rintro ⟨h1, h2⟩
        exact ⟨⟨h1, fun e => h2 (k, m) (List.mem_cons_self _ _) e.symm⟩,
          fun kc' hkc' => h2 kc' (List.mem_cons_of_mem _ hkc')⟩

/-- Effect of a successful `attachModels` on a set of parentless models. -/
theorem attachModels_fields {D : ModelId} (models : ModelList) (g gg : Heap)
    (hmkeys : (models.map Prod.fst).Nodup)
    (hnm : ∀ kc ∈ models, (g kc.2).name = kc.1)
    (hpar : ∀ kc ∈ models, (g kc.2).parent = none)
    (hr : attachModels D models g = .ok () gg) :
    (∀ x, (gg x).name = (g x).name ∧
      ((∃ k, (k, x) ∈ models) → (gg x).parent = some D) ∧
      ((∀ k, (k, x) ∉ models) → (gg x).parent = (g x).parent) ∧
      (x ≠ D → (gg x).modelList = (g x).modelList) ∧
      ∀ t, rawTable gg t x = rawTable g t x) ∧
    (∀ kc, kc ∈ (gg D).modelList ↔ kc ∈ (g D).modelList ∨ kc ∈ models) ∧
    (∀ kc ∈ models, mapFind kc.1 (gg D).modelList = some kc.2) ∧
    (∀ k, (∀ kc ∈ models, kc.1 ≠ k) →
      mapFind k (gg D).modelList = mapFind k (g D).modelList) := by
  induction models generalizing g with
  | nil =>
    simp only [attachModels, forEachModel, Outcome.ok.injEq, true_and] at hr
    subst hr
    simp
  | cons km rest ih =>
    obtain ⟨k, m⟩ := km
    simp only [attachModels, forEachModel] at hr
    obtain ⟨_, g1, e1, e2⟩ := andThen_ok hr
    have hname : (g m).name = k := hnm _ (List.mem_cons_self _ _)
    obtain ⟨hnone, hf⟩ := attachModel_fields (hpar _ (List.mem_cons_self _ _)) e1
    rw [hname] at hnone
    simp only [List.map_cons, List.nodup_cons] at hmkeys
    have hD1 : (g1 D).modelList = mapInsert k m (g D).modelList := by
      have := (hf D).2.2.1
      simpa [hname] using this
    have hrest_ne : ∀ kc ∈ rest, kc.2 ≠ m := by
      intro kc hkc e
      have h1 := hnm kc (List.mem_cons_of_mem _ hkc)
      rw [e, hname] at h1
      exact hmkeys.1 (h1 ▸ List.mem_map_of_mem Prod.fst hkc)
    obtain ⟨i1, i2, i3, i4⟩ := ih g1 hmkeys.2
      (by
        intro kc hkc
        rw [(hf kc.2).1]
        exact hnm kc (List.mem_cons_of_mem _ hkc))
      (by
        intro kc hkc
        rw [(hf kc.2).2.1, if_neg (hrest_ne kc hkc)]
        exact hpar kc (List.mem_cons_of_mem _ hkc))
      e2
    refine ⟨fun x => ?_, fun kc => ?_, fun kc hkc => ?_, fun k' hk' => ?_⟩
    · obtain ⟨a1, a2, a3, a4, a5⟩ := i1 x
      obtain ⟨b1, b2, b3, b4⟩ := hf x
      refine ⟨a1.trans b1, ?_, ?_, ?_, fun t => (a5 t).trans (b4 t)⟩
      · rintro ⟨k', hk'⟩
        rcases List.mem_cons.1 hk' with e | hk''
        · simp only [Prod.mk.injEq] at e
          by_cases hx : ∃ k, (k, x) ∈ rest
          · exact a2 hx
          · push_neg at hx
            rw [a3 hx, b2, if_pos e.2]
        · exact a2 ⟨k', hk''⟩
      · intro hx
        have hx1 : ∀ k, (k, x) ∉ rest := fun k' hk' => hx k' (List.mem_cons_of_mem _ hk')
        have hxm : x ≠ m := fun e => hx k (e ▸ List.mem_cons_self _ _)
        rw [a3 hx1, b2, if_neg hxm]
      · intro hxD
        rw [a4 hxD, b3, if_neg hxD]
    · rw [i2 kc, hD1, mem_mapInsert k m _ hnone kc, List.mem_cons]
      tauto
    · rcases List.mem_cons.1 hkc with rfl | h'
      · rw [i4 k (fun kc' hkc' e => hmkeys.1 (e ▸ List.mem_map_of_mem Prod.fst hkc')), hD1,
          mapFind_mapInsert]
        simp
      · exact i3 kc h'
    · rw [i4 k' (fun kc hkc => hk' kc (List.mem_cons_of_mem _ hkc)), hD1, mapFind_mapInsert]
      have : k' ≠ k := fun e => hk' (k, m) (List.mem_cons_self _ _) e.symm
      simp [this]


theorem Rconnect.unchanged (models : ModelList) (t : Table) (x : ModelId) (l : ModelPortList) :
    Rconnect models t x l l := fun _ => rfl

theorem Rconnect.compose (models : ModelList) (t : Table) (x : ModelId)
    (a b c : ModelPortList) (h1 : Rconnect models t x a b) (h2 : Rconnect models t x b c) :
    Rconnect models t x a c := fun hk => (h2 hk).trans (h1 hk)

theorem addInternalConnection_rel {models : ModelList} {D s d : ModelId} {p q : String}
    {g gg : Heap} (hs : ∃ k, (k, s) ∈ models) (hd : ∃ k, (k, d) ∈ models)
    (hr : addInternalConnection D (some s) p (some d) q g = .ok () gg) :
    HeapRel (Rconnect models) g gg := by
  simp only [addInternalConnection] at hr
  split at hr
  · simp at hr
  · split at hr
    · simp at hr
    · split at hr
      · simp at hr
      · simp only [Outcome.ok.injEq, true_and] at hr
        subst hr
        have r1 := HeapRel.of_modTable (Rconnect.unchanged models) g (.outP, s, p)
          (fun outs => outs.add d q)
          (fun l hn => absurd hs (by push_neg; exact hn))
        have r2 := HeapRel.of_modTable (Rconnect.unchanged models)
          (modTable g (.outP, s, p) (fun outs => outs.add d q)) (.inP, d, q)
          (fun ins => ins.add s p)
          (fun l hn => absurd hd (by push_neg; exact hn))
        exact HeapRel.comp (Rconnect.compose models) r1 r2

theorem addInternalConnection_this {D : ModelId} {src dst : Option ModelId} {p q : String}
    {g gg : Heap} (hr : addInternalConnection D src p dst q g = .ok () gg) :
    src ≠ some D ∧ dst ≠ some D := by
  obtain ⟨s, d, rfl, rfl, hs, hd, -, -⟩ := addInternalConnection_ok hr
  exact ⟨fun e => hs (Option.some.inj e), fun e => hd (Option.some.inj e)⟩

theorem setBasicConnections_loop_rel {models : ModelList} {D : ModelId} (n : Nat)
    (l : List String) (g gg : Heap) (hn : l.length ≤ n)
    (hq : AllQuads (fun s => ∃ kc ∈ models, kc.1 = s) l)
    (hfind : ∀ kc ∈ models, mapFind kc.1 (g D).modelList = some kc.2)
    (hr : setBasicConnections.loop D l g = .ok () gg) :
    HeapRel (Rconnect models) g gg := by
  induction n generalizing l g with
  | zero =>
    have : l = [] := List.length_eq_zero.1 (Nat.le_zero.1 hn)
    subst this
    simp only [setBasicConnections.loop, Outcome.ok.injEq, true_and] at hr
    subst hr
    exact HeapRel.rfl_of (Rconnect.unchanged models) g
  | succ n ih =>
    match l, hn, hq, hr with
    | [], _, _, hr | [_], _, _, hr | [_, _], _, _, hr | [_, _, _], _, _, hr =>
      simp only [setBasicConnections.loop, Outcome.ok.injEq, true_and] at hr
      subst hr
      exact HeapRel.rfl_of (Rconnect.unchanged models) g
    | s :: p :: d :: q :: rest, hn, hq, hr =>
      simp only [setBasicConnections.loop] at hr
      obtain ⟨_, g1, e1, e2⟩ := andThen_ok hr
      obtain ⟨⟨ks, hks, es⟩, ⟨kd, hkd, ed⟩, hq'⟩ := hq
      simp only [addInternalConnectionByName, getModel] at e1
      have hthis := addInternalConnection_this e1
      have hsD : ¬ (g D).name = s := by
        intro e
        simp only [e, if_true] at hthis
        exact hthis.1 rfl
      have hdD : ¬ (g D).name = d := by
        intro e
        simp only [e, if_true] at hthis
        exact hthis.2 rfl
      have hfs : findModel g D s = some ks.2 := by
        rw [← es]; exact hfind ks hks
      have hfd : findModel g D d = some kd.2 := by
        rw [← ed]; exact hfind kd hkd
      simp only [hsD, hdD, if_false, hfs, hfd] at e1
      have r1 : HeapRel (Rconnect models) g g1 :=
        addInternalConnection_rel ⟨ks.1, hks⟩ ⟨kd.1, hkd⟩ e1
      have hfind1 : ∀ kc ∈ models, mapFind kc.1 (g1 D).modelList = some kc.2 := by
        intro kc hkc
        rw [(r1 D).2.2.2.1]
        exact hfind kc hkc
      have hlen : rest.length ≤ n := by
        simp only [List.length_cons] at hn
        omega
      exact HeapRel.comp (Rconnect.compose models) r1 (ih rest g1 hlen hq' hfind1 e2)

theorem AllQuads_entries (K : String → Prop) (h : Heap) (m : ModelId) (port : String)
    (lst : ModelPortList) (tail : List String) (hm : K (h m).name)
    (hl : ∀ e ∈ lst, K (h e.1).name) (ht : AllQuads K tail) :
    AllQuads K (getBasicConnections.entries h m port lst ++ tail) := by
  induction lst with
  | nil => simpa [getBasicConnections.entries] using ht
  | cons e rest ih =>
    obtain ⟨peer, pport⟩ := e
    simp only [getBasicConnections.entries, List.cons_append, List.nil_append, AllQuads]
    exact ⟨hm, hl (peer, pport) (List.mem_cons_self _ _),
      ih (fun e he => hl e (List.mem_cons_of_mem _ he))⟩

theorem AllQuads_ports (K : String → Prop) (h : Heap) (m : ModelId) (cl : ConnectionList)
    (tail : List String) (hm : K (h m).name)
    (hl : ∀ pl ∈ cl, ∀ e ∈ pl.2, K (h e.1).name) (ht : AllQuads K tail) :
    AllQuads K (getBasicConnections.ports h m cl ++ tail) := by
  induction cl with
  | nil => simpa [getBasicConnections.ports] using ht
  | cons pl rest ih =>
    obtain ⟨port, lst⟩ := pl
    simp only [getBasicConnections.ports, List.append_assoc]
    exact AllQuads_entries K h m port lst _ hm (hl (port, lst) (List.mem_cons_self _ _))
      (ih (fun pl hpl => hl pl (List.mem_cons_of_mem _ hpl)))

theorem AllQuads_getBasicConnections (K : String → Prop) (h : Heap) (P : ModelId)
    (models : ModelList) (cnts : List String)
    (hm : ∀ km ∈ models, K (h km.2).name)
    (hl : ∀ km ∈ models, ∀ pl ∈ (h km.2).outPortList, ∀ e ∈ pl.2, K (h e.1).name)
    (hr : getBasicConnections h P models = .ok cnts) : AllQuads K cnts := by
  induction models generalizing cnts with
  | nil =>
    simp only [getBasicConnections, Except.ok.injEq] at hr
    subst hr
    simp [AllQuads]
  | cons km rest ih =>
    obtain ⟨k, m⟩ := km
    simp only [getBasicConnections] at hr
    split at hr
    · split at hr
      · rename_i l hl'
        simp only [Except.ok.injEq] at hr
        subst hr
        exact AllQuads_ports K h m _ _ (hm (k, m) (List.mem_cons_self _ _))
          (hl (k, m) (List.mem_cons_self _ _))
          (ih l (fun km hkm => hm km (List.mem_cons_of_mem _ hkm))
            (fun km hkm => hl km (List.mem_cons_of_mem _ hkm)) hl')
      · simp at hr
    · simp at hr

theorem no_problem_entries {h : Heap} {lst : ModelList}
    (hp : hasConnectionProblem h lst = false) (km : String × ModelId) (hkm : km ∈ lst)
    (pl : String × ModelPortList)
    (hpl : pl ∈ (h km.2).inPortList ∨ pl ∈ (h km.2).outPortList) (e : ModelId × String)
    (he : e ∈ pl.2) : ∃ kc ∈ lst, kc.1 = (h e.1).name := by
  cases hf : mapFind (h e.1).name lst with
  | none =>
    rw [hasConnectionProblem_of_entry h lst km hkm pl hpl e he hf] at hp
    cases hp
  | some c => exact ⟨_, mapFind_mem hf, rfl⟩


/-- Claim C9.  Let the child map of `P` have distinct keys that are the names
of its children, and let `models` be a map (distinct keys) of children of `P`.
When `displace(models, destination)` returns normally and `destination` is not
`P`, every model of `models` is stored under its own name in the child map of
`destination`, has `destination` as parent and is in no entry of the child map
of `P`; the child map of `P` is the old one without the entries of `models`,
the child map of `destination` is the old one with the entries of `models`,
and every model that is not in `models` keeps its name, its parent and all its
port lists. -/
theorem displace_moves_children (h hh : Heap) (P destination : ModelId) (models : ModelList)
    (hne : destination ≠ P)
    (hkeys : ((h P).modelList.map Prod.fst).Nodup)
    (hnames : ∀ kc ∈ (h P).modelList, (h kc.2).name = kc.1)
    (hmkeys : (models.map Prod.fst).Nodup)
    (hsubset : ∀ kc ∈ models, kc ∈ (h P).modelList)
    (hret : displace P models destination h = .ok () hh) :
    (∀ kc ∈ models,
      mapFind (hh kc.2).name (hh destination).modelList = some kc.2 ∧
      (hh kc.2).parent = some destination ∧ ∀ k, (k, kc.2) ∉ (hh P).modelList) ∧
    (∀ kc, kc ∈ (hh P).modelList ↔ kc ∈ (h P).modelList ∧ kc ∉ models) ∧
    (∀ kc, kc ∈ (hh destination).modelList ↔
      kc ∈ (h destination).modelList ∨ kc ∈ models) ∧
    (∀ x, (∀ k, (k, x) ∉ models) →
      (hh x).name = (h x).name ∧ (hh x).parent = (h x).parent ∧
      ∀ t r, table hh t x r = table h t x r) := by
  simp only [displace] at hret
  split at hret
  · simp at hret
  · rename_i hprob
    simp only [Bool.not_eq_true] at hprob
    split at hret
    · simp at hret
    · rename_i cnts hgb
      obtain ⟨_, g1, e1, e2'⟩ := andThen_ok hret
      obtain ⟨_, g2, e2, e3⟩ := andThen_ok e2'
      obtain ⟨d1, d2⟩ := detachModels_fields models h g1 hkeys hnames hmkeys hsubset e1
      have hnm : ∀ kc ∈ models, (g1 kc.2).name = kc.1 := fun kc hkc => by
        rw [(d1 kc.2).1]; exact hnames kc (hsubset kc hkc)
      have hpar : ∀ kc ∈ models, (g1 kc.2).parent = none := fun kc hkc =>
        (d1 kc.2).2.1 ⟨kc.1, hkc⟩
      obtain ⟨t1, t2, t3, -⟩ := attachModels_fields models g1 g2 hmkeys hnm hpar e2
      have rC : HeapRel (Rconnect models) g2 hh := by
        simp only [setBasicConnections] at e3
        split at e3
        · refine setBasicConnections_loop_rel cnts.length cnts g2 hh (Nat.le_refl _) ?_ t3 e3
          apply AllQuads_getBasicConnections _ h P models cnts _ _ hgb
          · intro km hkm
            exact ⟨km, hkm, (hnames km (hsubset km hkm)).symm⟩
          · intro km hkm pl hpl e he
            exact no_problem_entries hprob km hkm pl (Or.inr hpl) e he
        · simp at e3
      have hPml : (hh P).modelList = (g1 P).modelList := by
        rw [(rC P).2.2.2.1, (t1 P).2.2.2.1 (fun e => hne e.symm)]
      have hDml : (hh destination).modelList = (g2 destination).modelList :=
        (rC destination).2.2.2.1
      refine ⟨fun kc hkc => ⟨?_, ?_, ?_⟩, fun kc => ?_, fun kc => ?_, fun x hx => ⟨?_, ?_, ?_⟩⟩
      · rw [(rC kc.2).1, (t1 kc.2).1, hnm kc hkc, hDml]
        exact t3 kc hkc
      · rw [(rC kc.2).2.1]
        exact (t1 kc.2).2.1 ⟨kc.1, hkc⟩
      · intro k hk
        rw [hPml, d2] at hk
        have := hnames _ hk.1
        simp only at this
        apply hk.2 kc hkc
        rw [← this]
        exact (hnames kc (hsubset kc hkc)).symm
      · rw [hPml, d2]
        constructor
        · rintro ⟨h1, h2⟩
          exact ⟨h1, fun hin => h2 kc hin rfl⟩
        · rintro ⟨h1, h2⟩
          refine ⟨h1, fun kc' hkc' e => h2 ?_⟩
          have h3 : (kc'.1, kc'.2) ∈ (h P).modelList := hsubset kc' hkc'
          rw [e] at h3
          have := value_unique_of_nodup_keys hkeys h3 (show (kc.1, kc.2) ∈ _ from h1)
          have hk : kc' = kc := Prod.ext e this
          rw [← hk]; exact hkc'
      · rw [hDml, t2, (d1 destination).2.2.2.1 hne]
      · rw [(rC x).1, (t1 x).1, (d1 x).1]
      · rw [(rC x).2.1, (t1 x).2.2.1 hx, (d1 x).2.2.1 hx]
      · intro t r
        have e12 : table g2 t x r = table h t x r := by
          rw [table_eq_mapFind, table_eq_mapFind, (t1 x).2.2.2.2 t, (d1 x).2.2.2.2 t]
        rcases rC.table_rel t x r with ⟨a1, a2⟩ | ⟨l, l', a1, a2, hl⟩
        · rw [a2, ← a1, e12]
        · rw [a2, hl hx, ← a1, e12]

/-- Instance of claim C9: in the example graph `a` and `b` are moved from
`top` to `dest`. -/
theorem displace_moves_children_witness :
    ∃ hh, displace 0 [("a", 1), ("b", 2)] 3 displaceHeap = .ok () hh ∧
      ((∀ kc ∈ [("a", 1), ("b", 2)],
        mapFind (hh kc.2).name (hh 3).modelList = some kc.2 ∧
        (hh kc.2).parent = some 3 ∧ ∀ k, (k, kc.2) ∉ (hh 0).modelList) ∧
      (∀ kc, kc ∈ (hh 0).modelList ↔
        kc ∈ (displaceHeap 0).modelList ∧ kc ∉ [("a", 1), ("b", 2)]) ∧
      (∀ kc, kc ∈ (hh 3).modelList ↔
        kc ∈ (displaceHeap 3).modelList ∨ kc ∈ [("a", 1), ("b", 2)]) ∧
      (∀ x, (∀ k, (k, x) ∉ [("a", 1), ("b", 2)]) →
        (hh x).name = (displaceHeap x).name ∧ (hh x).parent = (displaceHeap x).parent ∧
        ∀ t r, table hh t x r = table displaceHeap t x r)) ∧
      (hh 0).modelList = [] ∧ (hh 3).modelList = [("a", 1), ("b", 2)] :=
  ⟨_, rfl,
    displace_moves_children displaceHeap _ 0 3 [("a", 1), ("b", 2)] (by decide) (by decide)
      (by decide) (by decide) (by decide) rfl,
    by decide, by decide⟩

/-! ## Creating a child under a free name -/

theorem addChildOfKind_fresh (kind : Kind) (h : Heap) (P : ModelId) (name : String) (x : ModelId)
    (hfree : findModel h P name = none) (hxP : x ≠ P)
    (hnew : ∀ k, (k, x) ∉ (h P).modelList) :
    ∃ hh, addChildOfKind kind P name x h = .ok x hh ∧ AddsChild h hh P name x kind := by
  have hex : exist h P name = false := by simp [exist, findModel] at hfree ⊢; simp [hfree]
  have hPx : P ≠ x := fun e => hxP e.symm
  refine ⟨setChild (Function.update h x (newModel kind name (some P))) P name x, ?_, ?_⟩
  · simp [addChildOfKind, hex]
  · have hml : (setChild (Function.update h x (newModel kind name (some P))) P name x P).modelList
        = mapInsert name x (h P).modelList := by
      simp [setChild, Function.update_noteq hPx]
    refine ⟨?_, ?_, ?_, ?_, ?_⟩
    · simp [setChild, Function.update_noteq hxP]
    · simp [findModel, hml, mapFind_mapInsert]
    · intro k hk
      simp [findModel, hml, mapFind_mapInsert, hk]
    · intro kc hkc
      refine ⟨?_, fun e => hnew kc.1 (by rw [← e]; exact hkc)⟩
      rw [hml]
      exact (mem_mapInsert name x _ hfree kc).2 (Or.inr hkc)
    · intro y hy
      by_cases hyP : y = P
      · subst hyP
        refine ⟨?_, ?_, ?_, ?_, fun hne => absurd rfl hne⟩
        · simp [setChild, Function.update_noteq hy]
        · simp [setChild, Function.update_noteq hy]
        · simp [setChild, Function.update_noteq hy]
        · intro t; cases t <;> simp [rawTable, setChild, Function.update_noteq hy]
      · have e : setChild (Function.update h x (newModel kind name (some P))) P name x y = h y := by
          simp [setChild, Function.update_noteq hyP, Function.update_noteq hy]
        refine ⟨by rw [e], by rw [e], by rw [e], ?_, fun _ => by rw [e]⟩
        intro t; cases t <;> simp [rawTable, e]

/-- Claim C11.  When `name` is the name of no child of `P` and `x` is the fresh
address handed out by `new`, each of `addAtomicModel`, `addCoupledModel` and
`addNoVLEModel` returns `x`; `x` is then an empty model of the requested kind
named `name` with parent `P`, `findModel name` on `P` returns `x`, and the
children that were there are still found under their names and are unchanged. -/
theorem addChild_fresh_name (h : Heap) (P : ModelId) (name : String) (x : ModelId)
    (hfree : findModel h P name = none) (hxP : x ≠ P)
    (hnew : ∀ k, (k, x) ∉ (h P).modelList) :
    (∃ hh, addAtomicModel P name x h = .ok x hh ∧ AddsChild h hh P name x .atomic) ∧
    (∃ hh, addCoupledModel P name x h = .ok x hh ∧ AddsChild h hh P name x .coupled) ∧
    (∃ hh, addNoVLEModel P name x h = .ok x hh ∧ AddsChild h hh P name x .novle) :=
  ⟨addChildOfKind_fresh .atomic h P name x hfree hxP hnew,
   addChildOfKind_fresh .coupled h P name x hfree hxP hnew,
   addChildOfKind_fresh .novle h P name x hfree hxP hnew⟩

theorem addChild_fresh_name_witness :
    findModel exampleHeap 0 "c" = none ∧
    (∃ hh, addAtomicModel 0 "c" 3 exampleHeap = .ok 3 hh ∧
      AddsChild exampleHeap hh 0 "c" 3 .atomic) ∧
    (∃ hh, addCoupledModel 0 "c" 3 exampleHeap = .ok 3 hh ∧
      AddsChild exampleHeap hh 0 "c" 3 .coupled) ∧
    (∃ hh, addNoVLEModel 0 "c" 3 exampleHeap = .ok 3 hh ∧
      AddsChild exampleHeap hh 0 "c" 3 .novle) :=
  ⟨by decide, addChild_fresh_name exampleHeap 0 "c" 3 (by decide) (by decide)
    (fun k hk => by simp [exampleHeap] at hk)⟩

/-! ## A coupled model inserted into itself -/

theorem name_setParent (h : Heap) (x y : ModelId) (p : Option ModelId) :
    (setParent h x p y).name = (h y).name := by
  by_cases e : y = x
  · subst e; simp [setParent]
  · simp [setParent, Function.update_noteq e]

theorem name_eraseChild (h : Heap) (x y : ModelId) (k : String) :
    (eraseChild h x k y).name = (h y).name := by
  by_cases e : y = x
  · subst e; simp [eraseChild]
  · simp [eraseChild, Function.update_noteq e]

theorem name_setChild (h : Heap) (x y c : ModelId) (k : String) :
    (setChild h x k c y).name = (h y).name := by
  by_cases e : y = x
  · subst e; simp [setChild]
  · simp [setChild, Function.update_noteq e]

/-- Claim C13, the claim as stated does not hold: on the coupled model `top` of
`exampleHeap`, which has no child named `top`, both `addModel(top)` and
`attachModel(top)` invoked on `top` itself return normally, and afterwards
`top` is an entry of its own child map. -/
theorem addModel_self_accepted :
    (∃ hh, addModel 0 0 exampleHeap = .ok () hh ∧ ("top", 0) ∈ (hh 0).modelList) ∧
    (∃ hh, attachModel 0 0 exampleHeap = .ok () hh ∧ ("top", 0) ∈ (hh 0).modelList) :=
  ⟨⟨_, rfl, by decide⟩, ⟨_, rfl, by decide⟩⟩

/-- Claim C13, amended.  `addModel(P)` and `attachModel(P)` invoked on `P` itself
fail with a graph error exactly when `P` already has a child bearing the name
of `P`, and then nothing is modified.  Otherwise `addModel(P)` returns, and so
does `attachModel(P)` when the parent of `P`, if it has one, holds a child
under the name of `P`; afterwards `P` is found under its own name in its own
child map and is its own parent. -/
theorem addModel_self (h : Heap) (P : ModelId) :
    (exist h P (h P).name = true →
      addModel P P h = .throw .DevsGraphError h ∧
      attachModel P P h = .throw .DevsGraphError h) ∧
    (exist h P (h P).name = false →
      (∃ hh, addModel P P h = .ok () hh ∧
        findModel hh P (h P).name = some P ∧ (hh P).parent = some P) ∧
      ((∀ Q, (h P).parent = some Q → exist h Q (h P).name = true) →
        ∃ hh, attachModel P P h = .ok () hh ∧
          findModel hh P (h P).name = some P ∧ (hh P).parent = some P)) := by
  refine ⟨fun hex => ?_, fun hex => ⟨?_, fun hpar => ?_⟩⟩
  · simp [addModel, attachModel, hex]
  · refine ⟨_, by simp only [addModel, hex]; rfl, ?_, ?_⟩
    · simp [findModel, setChild, setParent, mapFind_mapInsert]
    · simp [setChild, setParent]
  · cases hp : (h P).parent with
    | none =>
      refine ⟨_, by simp only [attachModel, hex, hp, Outcome.andThen]; rfl, ?_, ?_⟩
      · simp [findModel, setChild, setParent, mapFind_mapInsert]
      · simp [setChild, setParent]
    | some Q =>
      have hq := hpar Q hp
      simp only [exist, Option.isSome_iff_exists] at hq
      obtain ⟨c, hc⟩ := hq
      obtain ⟨h1, e1⟩ : ∃ h1, h1 = eraseChild (setParent h c none) Q (h P).name := ⟨_, rfl⟩
      have hn : (h1 P).name = (h P).name := by rw [e1, name_eraseChild, name_setParent]
      refine ⟨setParent (setChild h1 P (h1 P).name P) P (some P),
        by simp only [attachModel, hex, hp, detachModel, hc, Outcome.andThen, e1]; rfl, ?_, ?_⟩
      · simp [findModel, setChild, setParent, mapFind_mapInsert, hn]
      · simp [setChild, setParent]

theorem addModel_self_witness :
    (addModel 0 0 sameNameHeap = .throw .DevsGraphError sameNameHeap ∧
      attachModel 0 0 sameNameHeap = .throw .DevsGraphError sameNameHeap) ∧
    (∃ hh, addModel 0 0 exampleHeap = .ok () hh ∧
        findModel hh 0 (exampleHeap 0).name = some 0 ∧ (hh 0).parent = some 0) ∧
    (∃ hh, attachModel 0 0 exampleHeap = .ok () hh ∧
        findModel hh 0 (exampleHeap 0).name = some 0 ∧ (hh 0).parent = some 0) :=
  ⟨(addModel_self sameNameHeap 0).1 (by decide),
   ((addModel_self exampleHeap 0).2 (by decide)).1,
   ((addModel_self exampleHeap 0).2 (by decide)).2 (fun Q hQ => by simp [exampleHeap] at hQ)⟩

/-! ## Connections given by the name of a model that is not a child -/

theorem getModel_of_not_child {h : Heap} {P : ModelId} {name : String}
    (hn : findModel h P name = none ∨ (h P).name = name) :
    getModel h P name = none ∨ getModel h P name = some P := by
  unfold getModel
  by_cases e : (h P).name = name
  · simp [e]
  · rcases hn with hn | hn
    · simp [e, hn]
    · exact absurd hn e

theorem addInternalConnection_bad_endpoint (h : Heap) (P : ModelId) (src dst : Option ModelId)
    (p q : String)
    (hbad : (src = none ∨ src = some P) ∨ (dst = none ∨ dst = some P)) :
    addInternalConnection P src p dst q h = .throw .DevsGraphError h := by
  cases src with
  | none => simp [addInternalConnection]
  | some s =>
    cases dst with
    | none => simp [addInternalConnection]
    | some d =>
      have : s = P ∨ d = P := by
        rcases hbad with (h1 | h1) | (h1 | h1)
        · cases h1
        · exact Or.inl (Option.some.inj h1)
        · cases h1
        · exact Or.inr (Option.some.inj h1)
      simp [addInternalConnection, this]

theorem delInternalConnection_bad_endpoint (h : Heap) (P : ModelId) (src dst : Option ModelId)
    (p q : String)
    (hbad : (src = none ∨ src = some P) ∨ (dst = none ∨ dst = some P)) :
    delInternalConnection P src p dst q h = .throw .DevsGraphError h := by
  cases src with
  | none => simp [delInternalConnection]
  | some s =>
    cases dst with
    | none => simp [delInternalConnection]
    | some d =>
      have : s = P ∨ d = P := by
        rcases hbad with (h1 | h1) | (h1 | h1)
        · cases h1
        · exact Or.inl (Option.some.inj h1)
        · cases h1
        · exact Or.inr (Option.some.inj h1)
      simp [delInternalConnection, this]

/-- Claim C14.  When a model-name argument of a name-based `addInputConnection`,
`addOutputConnection`, `addInternalConnection`, `delInputConnection`,
`delOutputConnection` or `delInternalConnection` on `P` is not the name of a
child of `P`, or is the name of `P` itself (for the internal variants: the
source name or the destination name), the call throws the graph error and the
graph at the throw is the graph before the call, so no port list has been
written. -/
theorem byName_unknown_model (h : Heap) (P : ModelId) (name other p q : String)
    (hn : findModel h P name = none ∨ (h P).name = name) :
    addInputConnectionByName P p name q h = .throw .DevsGraphError h ∧
    addOutputConnectionByName P name p q h = .throw .DevsGraphError h ∧
    addInternalConnectionByName P name p other q h = .throw .DevsGraphError h ∧
    addInternalConnectionByName P other p name q h = .throw .DevsGraphError h ∧
    delInputConnectionByName P p name q h = .throw .DevsGraphError h ∧
    delOutputConnectionByName P name p q h = .throw .DevsGraphError h ∧
    delInternalConnectionByName P name p other q h = .throw .DevsGraphError h ∧
    delInternalConnectionByName P other p name q h = .throw .DevsGraphError h := by
  have hg := getModel_of_not_child hn
  refine ⟨?_, ?_, ?_, ?_, ?_, ?_, ?_, ?_⟩
  · rcases hg with e | e <;> simp [addInputConnectionByName, addInputConnection, e]
  · rcases hg with e | e <;> simp [addOutputConnectionByName, addOutputConnection, e]
  · exact addInternalConnection_bad_endpoint h P _ _ p q (Or.inl hg)
  · exact addInternalConnection_bad_endpoint h P _ _ p q (Or.inr hg)
  · rcases hg with e | e <;> simp [delInputConnectionByName, delInputConnection, e]
  · rcases hg with e | e <;> simp [delOutputConnectionByName, delOutputConnection, e]
  · exact delInternalConnection_bad_endpoint h P _ _ p q (Or.inl hg)
  · exact delInternalConnection_bad_endpoint h P _ _ p q (Or.inr hg)

theorem byName_unknown_model_witness :
    (findModel connectedHeap 0 "top" = none ∨ (connectedHeap 0).name = "top") ∧
    (addInputConnectionByName 0 "in" "top" "in" connectedHeap
        = .throw .DevsGraphError connectedHeap ∧
    addOutputConnectionByName 0 "top" "in" "in" connectedHeap
        = .throw .DevsGraphError connectedHeap ∧
    addInternalConnectionByName 0 "top" "in" "b" "in" connectedHeap
        = .throw .DevsGraphError connectedHeap ∧
    addInternalConnectionByName 0 "b" "in" "top" "in" connectedHeap
        = .throw .DevsGraphError connectedHeap ∧
    delInputConnectionByName 0 "in" "top" "in" connectedHeap
        = .throw .DevsGraphError connectedHeap ∧
    delOutputConnectionByName 0 "top" "in" "in" connectedHeap
        = .throw .DevsGraphError connectedHeap ∧
    delInternalConnectionByName 0 "top" "in" "b" "in" connectedHeap
        = .throw .DevsGraphError connectedHeap ∧
    delInternalConnectionByName 0 "b" "in" "top" "in" connectedHeap
        = .throw .DevsGraphError connectedHeap) :=
  ⟨by decide, byName_unknown_model connectedHeap 0 "top" "b" "in" "in" (by decide)⟩

/-! ## The text of the connections -/

theorem concatAll_append (a b : List String) :
    concatAll (a ++ b) = concatAll a ++ concatAll b := by
  induction a with
  | nil => simp [concatAll]
  | cons s a ih => simp [concatAll, ih, String.append_assoc]

theorem outputPort_eq (h : Heap) (P : ModelId) (port : String) (lst : ModelPortList)
    (out : String) :
    writeConnections.outputPort h P port lst out =
      out ++ concatAll (lst.map fun e =>
        connectionElement "output" ((h e.1).name, e.2) ((h P).name, port)) := by
  induction lst generalizing out with
  | nil => simp [writeConnections.outputPort, concatAll]
  | cons e lst ih =>
    obtain ⟨m, p⟩ := e
    rw [writeConnections.outputPort, ih, List.map_cons, concatAll]
    apply String.ext
    simp only [connectionElement, String.data_append, List.append_assoc]
    rfl

theorem outputs_eq (h : Heap) (P : ModelId) (l : ConnectionList) (out : String) :
    writeConnections.outputs h P l out =
      out ++ concatAll ((l.flatMap fun pl =>
        pl.2.map fun e => (((h e.1).name, e.2), ((h P).name, pl.1))).map
          fun c => connectionElement "output" c.1 c.2) := by
  induction l generalizing out with
  | nil => simp [writeConnections.outputs, concatAll]
  | cons pl l ih =>
    obtain ⟨port, lst⟩ := pl
    rw [writeConnections.outputs, ih, outputPort_eq, List.flatMap_cons, List.map_append,
      concatAll_append, String.append_assoc, List.map_map]
    rfl

theorem inputPort_eq (h : Heap) (P : ModelId) (port : String) (lst : ModelPortList)
    (out : String) :
    writeConnections.inputPort h P port lst out =
      out ++ concatAll (lst.map fun e =>
        connectionElement "input" ((h P).name, port) ((h e.1).name, e.2)) := by
  induction lst generalizing out with
  | nil => simp [writeConnections.inputPort, concatAll]
  | cons e lst ih =>
    obtain ⟨m, p⟩ := e
    rw [writeConnections.inputPort, ih, List.map_cons, concatAll]
    apply String.ext
    simp only [connectionElement, String.data_append, List.append_assoc]
    rfl

theorem inputs_eq (h : Heap) (P : ModelId) (l : ConnectionList) (out : String) :
    writeConnections.inputs h P l out =
      out ++ concatAll ((l.flatMap fun pl =>
        pl.2.map fun e => (((h P).name, pl.1), ((h e.1).name, e.2))).map
          fun c => connectionElement "input" c.1 c.2) := by
  induction l generalizing out with
  | nil => simp [writeConnections.inputs, concatAll]
  | cons pl l ih =>
    obtain ⟨port, lst⟩ := pl
    rw [writeConnections.inputs, ih, inputPort_eq, List.flatMap_cons, List.map_append,
      concatAll_append, String.append_assoc, List.map_map]
    rfl

theorem internalPort_eq (h : Heap) (P c : ModelId) (port : String) (lst : ModelPortList)
    (out : String) :
    writeConnections.internalPort h P c port lst out =
      out ++ concatAll (((lst.filter fun e => decide (e.1 ≠ P)).map fun e =>
        (((h c).name, port), ((h e.1).name, e.2))).map
          fun x => connectionElement "internal" x.1 x.2) := by
  induction lst generalizing out with
  | nil => simp [writeConnections.internalPort, concatAll]
  | cons e lst ih =>
    obtain ⟨m, p⟩ := e
    by_cases hm : m = P
    · rw [writeConnections.internalPort, if_neg (not_not.2 hm), ih]
      simp [List.filter_cons, hm]
    · rw [writeConnections.internalPort, if_pos hm, ih]
      simp only [List.filter_cons, hm, ne_eq, not_false_eq_true, decide_True, if_true,
        List.map_cons, concatAll]
      apply String.ext
      simp only [connectionElement, String.data_append, List.append_assoc]
      rfl

theorem internalPorts_eq (h : Heap) (P c : ModelId) (l : ConnectionList) (out : String) :
    writeConnections.internalPorts h P c l out =
      out ++ concatAll ((l.flatMap fun pl =>
        (pl.2.filter fun e => decide (e.1 ≠ P)).map fun e =>
          (((h c).name, pl.1), ((h e.1).name, e.2))).map
            fun x => connectionElement "internal" x.1 x.2) := by
  induction l generalizing out with
  | nil => simp [writeConnections.internalPorts, concatAll]
  | cons pl l ih =>
    obtain ⟨port, lst⟩ := pl
    rw [writeConnections.internalPorts, ih, internalPort_eq, List.flatMap_cons, List.map_append,
      concatAll_append, String.append_assoc]

theorem children_eq (h : Heap) (P : ModelId) (l : ModelList) (out : String) :
    writeConnections.children h P l out =
      out ++ concatAll ((l.flatMap fun kc =>
        (h kc.2).outPortList.flatMap fun pl =>
          (pl.2.filter fun e => decide (e.1 ≠ P)).map fun e =>
            (((h kc.2).name, pl.1), ((h e.1).name, e.2))).map
              fun x => connectionElement "internal" x.1 x.2) := by
  induction l generalizing out with
  | nil => simp [writeConnections.children, concatAll]
  | cons kc l ih =>
    obtain ⟨k, c⟩ := kc
    rw [writeConnections.children, ih, internalPorts_eq, List.flatMap_cons, List.map_append,
      concatAll_append, String.append_assoc]

/-- Claim C17.  The text that `writeConnections` appends to the stream is the
output block, then the input block, then the internal block: one
`<connection type="output">` element for every entry of an internal output
list of the coupled model, one `<connection type="input">` element for every
entry of an internal input list, and one `<connection type="internal">`
element for every entry of an output-port list of a child whose peer is not the
coupled model itself; every element names the source (model, port) as origin
and the target (model, port) as destination. -/
theorem writeConnections_three_blocks (h : Heap) (P : ModelId) (out : String) :
    writeConnections h P out = out ++ connectionsText h P := by
  simp only [writeConnections, outputs_eq, inputs_eq, children_eq, connectionsText,
    outputCouplings, inputCouplings, internalCouplings, String.append_assoc]

/-! ## The text of a coupled model -/

/-- Claim C18, the code does not do this: for the coupled model `top` of `loneHeap`,
which has no child, and a port-list writer that writes nothing, `writeXML`
writes the three start tags `<model ...>`, `<submodels>` and `<connections>`,
then `<connections>` a second time, and no end tag: the text is not balanced.
The same happens on `chainHeap` with leaf children that write nothing, although
the connection elements written in between are balanced. -/
theorem writeXML_leaves_elements_open :
    writeXML (fun _ _ out => out) (fun _ _ out => out) 1 loneHeap 0 ""
      = some "<model name=\"top\"  type=\"coupled\" >\n<submodels>\n<connections>\n<connections>\n" ∧
    (writeXML (fun _ _ out => out) (fun _ _ out => out) 1 loneHeap 0 "").map balanced
      = some false ∧
    balanced (writeConnections chainHeap 0 "") = true ∧
    (writeXML (fun _ _ out => out) (fun _ _ out => out) 2 chainHeap 0 "").map balanced
      = some false := by
  refine ⟨by decide, by decide, by decide, by decide⟩

/-- Claim C19, the code does not do this: on the coupled model `top` of `chainHeap`,
which has the two children `a` and `b`, `delAllModel` returns after deleting
`a` only; `b` is still in the child map, and the internal output list `out` of
`top` still refers to it. -/
theorem delAllModel_skips_every_other_child :
    ∃ hh, delAllModel 1 0 chainHeap = some (.ok () hh) ∧
      (hh 0).modelList = [("b", 2)] ∧
      (hh 0).internalOutputList = [("out", [(2, "out")])] :=
  ⟨_, rfl, by decide, by decide⟩

/-! ## The parent of a child is the owner of the child map -/

theorem not_mem_keys_of_mapFind_none {β : Type} {k : String} {l : List (String × β)}
    (h : mapFind k l = none) : k ∉ l.map Prod.fst := by
  induction l with
  | nil => simp
  | cons a l ih =>
    obtain ⟨ka, va⟩ := a
    by_cases hk : ka = k
    · simp [mapFind, hk] at h
    · simp only [mapFind, hk, if_false] at h
      simp only [List.map_cons, List.mem_cons, not_or]
      exact ⟨fun e => hk e.symm, ih h⟩

theorem nodup_keys_mapInsert {β : Type} (k : String) (v : β) {l : List (String × β)}
    (hk : mapFind k l = none) (hnd : (l.map Prod.fst).Nodup) :
    ((mapInsert k v l).map Prod.fst).Nodup := by
  induction l with
  | nil => simp [mapInsert]
  | cons a l ih =>
    obtain ⟨ka, va⟩ := a
    have hk0 := not_mem_keys_of_mapFind_none hk
    simp only [List.map_cons, List.nodup_cons] at hnd
    by_cases h1 : ka = k
    · simp [mapFind, h1] at hk
    · simp only [mapFind, h1, if_false] at hk
      by_cases h3 : k.data < ka.data
      · simp only [mapInsert, h1, h3, if_false, if_true, List.map_cons, List.nodup_cons]
        exact ⟨hk0, hnd.1, hnd.2⟩
      · simp only [mapInsert, h1, h3, if_false, List.map_cons, List.nodup_cons]
        refine ⟨fun hmem => ?_, ih hk hnd.2⟩
        obtain ⟨kv, hkv, e⟩ := List.mem_map.1 hmem
        rcases (mem_mapInsert k v l hk kv).1 hkv with e1 | e1
        · rw [e1] at e; exact h1 e.symm
        · exact hnd.1 (e ▸ List.mem_map_of_mem Prod.fst e1)

/-- A model held in a child map is held in that map only, under its name. -/
theorem entry_unique {h : Heap} (hp : ParentsAgree h) (hk : KeyedByName h) {Q Q' : ModelId}
    {k k' : String} {c : ModelId} (h1 : (k, c) ∈ (h Q).modelList)
    (h2 : (k', c) ∈ (h Q').modelList) : Q = Q' ∧ k = k' := by
  have a1 := hp Q _ h1
  have a2 := hp Q' _ h2
  have b1 := (hk Q).2 _ h1
  have b2 := (hk Q').2 _ h2
  simp only at a1 a2 b1 b2
  exact ⟨Option.some.inj (a1.symm.trans a2), b1.symm.trans b2⟩

/-- Taking the entry under `k` out of the child map of `P` and clearing the
parent of the model `c` that was stored there. -/
theorem invariants_after_detach {h hh : Heap} {P c : ModelId} {k : String}
    (hp : ParentsAgree h) (hk : KeyedByName h)
    (hc : mapFind k (h P).modelList = some c)
    (hf : ∀ x, (hh x).name = (h x).name ∧
      (hh x).parent = (if x = c then none else (h x).parent) ∧
      (hh x).modelList = (if x = P then mapErase k (h P).modelList else (h x).modelList)) :
    ParentsAgree hh ∧ KeyedByName hh ∧ Uncontained hh c ∧
      (∀ Q kc, kc ∈ (hh Q).modelList → kc ∈ (h Q).modelList) := by
  have hsub : ∀ Q kc, kc ∈ (hh Q).modelList → kc ∈ (h Q).modelList ∧ (Q = P → kc.1 ≠ k) := by
    intro Q kc hkc
    rw [(hf Q).2.2] at hkc
    by_cases hQ : Q = P
    · subst hQ
      simp only [if_true] at hkc
      exact ⟨mem_mapErase hkc, fun _ => key_ne_of_mem_mapErase (hk Q).1 hkc⟩
    · simp only [hQ, if_false] at hkc
      exact ⟨hkc, fun e => absurd e hQ⟩
  have hcmem : (k, c) ∈ (h P).modelList := mapFind_mem hc
  have hne : ∀ Q kc, kc ∈ (hh Q).modelList → kc.2 ≠ c := by
    intro Q kc hkc e
    obtain ⟨m1, m2⟩ := hsub Q kc hkc
    have hm : (kc.1, c) ∈ (h Q).modelList := by rw [← e]; exact m1
    obtain ⟨e1, e2⟩ := entry_unique hp hk hm hcmem
    exact m2 e1 e2
  refine ⟨?_, ?_, ?_, fun Q kc hkc => (hsub Q kc hkc).1⟩
  · intro Q kc hkc
    rw [(hf kc.2).2.1, if_neg (hne Q kc hkc)]
    exact hp Q kc (hsub Q kc hkc).1
  · intro Q
    refine ⟨?_, fun kc hkc => ?_⟩
    · rw [(hf Q).2.2]
      by_cases hQ : Q = P
      · subst hQ; simp only [if_true]; exact nodup_keys_mapErase k (hk Q).1
      · simp only [hQ, if_false]; exact (hk Q).1
    · rw [(hf kc.2).1]
      exact (hk Q).2 kc (hsub Q kc hkc).1
  · intro Q k' hkc
    exact hne Q _ hkc rfl

/-- Storing a model `m` that is held in no child map under its name in the
child map of `P`, and making `P` its parent. -/
theorem invariants_after_insert {h hh : Heap} {P m : ModelId}
    (hp : ParentsAgree h) (hk : KeyedByName h) (hm : Uncontained h m)
    (hfree : mapFind (h m).name (h P).modelList = none)
    (hf : ∀ x, (hh x).name = (h x).name ∧
      (hh x).parent = (if x = m then some P else (h x).parent) ∧
      (hh x).modelList =
        (if x = P then mapInsert (h m).name m (h P).modelList else (h x).modelList)) :
    ParentsAgree hh ∧ KeyedByName hh := by
  have hsub : ∀ Q kc, kc ∈ (hh Q).modelList →
      (Q = P ∧ kc = ((h m).name, m)) ∨ (kc ∈ (h Q).modelList ∧ kc.2 ≠ m) := by
    intro Q kc hkc
    rw [(hf Q).2.2] at hkc
    by_cases hQ : Q = P
    · subst hQ
      simp only [if_true] at hkc
      rcases (mem_mapInsert _ _ _ hfree kc).1 hkc with e | e
      · exact Or.inl ⟨rfl, e⟩
      · exact Or.inr ⟨e, fun e' => hm Q kc.1 (by rw [← e']; exact e)⟩
    · simp only [hQ, if_false] at hkc
      exact Or.inr ⟨hkc, fun e' => hm Q kc.1 (by rw [← e']; exact hkc)⟩
  refine ⟨?_, ?_⟩
  · intro Q kc hkc
    rcases hsub Q kc hkc with ⟨e1, e2⟩ | ⟨e1, e2⟩
    · rw [e2, e1, (hf m).2.1, if_pos rfl]
    · rw [(hf kc.2).2.1, if_neg e2]
      exact hp Q kc e1
  · intro Q
    refine ⟨?_, fun kc hkc => ?_⟩
    · rw [(hf Q).2.2]
      by_cases hQ : Q = P
      · subst hQ; simp only [if_true]; exact nodup_keys_mapInsert _ _ hfree (hk Q).1
      · simp only [hQ, if_false]; exact (hk Q).1
    · rw [(hf kc.2).1]
      rcases hsub Q kc hkc with ⟨_, e2⟩ | ⟨e1, _⟩
      · rw [e2]
      · exact (hk Q).2 kc e1

/-- Taking the entry under `k` out of the child map of `P`. -/
theorem invariants_after_erase {h hh : Heap} {P : ModelId} {k : String}
    (hp : ParentsAgree h) (hk : KeyedByName h)
    (hf : ∀ x, (hh x).name = (h x).name ∧ (hh x).parent = (h x).parent ∧
      (hh x).modelList = (if x = P then mapErase k (h P).modelList else (h x).modelList)) :
    ParentsAgree hh ∧ KeyedByName hh := by
  have hsub : ∀ Q kc, kc ∈ (hh Q).modelList → kc ∈ (h Q).modelList := by
    intro Q kc hkc
    rw [(hf Q).2.2] at hkc
    by_cases hQ : Q = P
    · subst hQ
      simp only [if_true] at hkc
      exact mem_mapErase hkc
    · simpa only [hQ, if_false] using hkc
  refine ⟨?_, ?_⟩
  · intro Q kc hkc
    rw [(hf kc.2).2.1]
    exact hp Q kc (hsub Q kc hkc)
  · intro Q
    refine ⟨?_, fun kc hkc => ?_⟩
    · rw [(hf Q).2.2]
      by_cases hQ : Q = P
      · subst hQ; simp only [if_true]; exact nodup_keys_mapErase k (hk Q).1
      · simp only [hQ, if_false]; exact (hk Q).1
    · rw [(hf kc.2).1]
      exact (hk Q).2 kc (hsub Q kc hkc)
theorem forEachModel_fields (f : ModelId → Heap → Outcome Unit)
    (hf : ∀ c g g', f c g = .ok () g' → HeapRel (fun _ _ _ _ => True) g g')
    (cl : ModelList) (h hh : Heap) (hr : forEachModel f cl h = .ok () hh) :
    HeapRel (fun _ _ _ _ => True) h hh := by
  induction cl generalizing h with
  | nil =>
    simp only [forEachModel, Outcome.ok.injEq, true_and] at hr
    subst hr
    exact HeapRel.rfl_of (fun _ _ _ => trivial) h
  | cons kc rest ih =>
    obtain ⟨k, c⟩ := kc
    simp only [forEachModel] at hr
    obtain ⟨_, h1, e1, e2⟩ := andThen_ok hr
    exact HeapRel.comp (fun _ _ _ _ _ _ _ => trivial) (hf c h h1 e1) (ih h1 e2)

theorem delAllConnection_fields {P c : ModelId} {h hh : Heap}
    (hr : delAllConnection P (some c) h = .ok () hh) :
    HeapRel (fun _ _ _ _ => True) h hh :=
  HeapRel.weaken (fun _ _ _ _ _ => trivial) (delAllConnection_rel hr)

/-- A returning destructor has changed the contents of port lists only. -/
theorem destroy_fields (fuel : Nat) (x : ModelId) (h hh : Heap)
    (hr : destroy fuel x h = .ok () hh) : HeapRel (fun _ _ _ _ => True) h hh := by
  induction fuel generalizing x h hh with
  | zero => simp [destroy] at hr
  | succ fuel ih =>
    simp only [destroy] at hr
    split at hr
    · obtain ⟨_, h1, e1, e2⟩ := andThen_ok hr
      have r1 : HeapRel (fun _ _ _ _ => True) h h1 :=
        forEachModel_fields _ (fun c g g' e => delAllConnection_fields e) _ h h1 e1
      have r2 : HeapRel (fun _ _ _ _ => True) h1 hh :=
        forEachModel_fields _ (fun c g g' e => ih c g g' e) _ h1 hh e2
      exact HeapRel.comp (fun _ _ _ _ _ _ _ => trivial) r1 r2
    · simp only [Outcome.ok.injEq, true_and] at hr
      subst hr
      exact HeapRel.rfl_of (fun _ _ _ => trivial) h

/-- Fields of the models after a returning `delModel`, port lists apart. -/
theorem delModel_fields (fuel : Nat) (P m : ModelId) (h hh : Heap)
    (hr : delModel fuel P m h = .ok () hh) :
    hh = h ∨ ∀ x, (hh x).name = (h x).name ∧ (hh x).parent = (h x).parent ∧
      (hh x).modelList =
        (if x = P then mapErase (h m).name (h P).modelList else (h x).modelList) := by
  simp only [delModel] at hr
  split at hr
  · right
    obtain ⟨_, h1, e1, e2⟩ := andThen_ok hr
    have r1 := delAllConnection_fields e1
    have r2 := destroy_fields fuel m _ hh e2
    intro x
    obtain ⟨a1, a2, _, a4, _⟩ := r1 x
    obtain ⟨b1, b2, _, b4, _⟩ := r2 x
    refine ⟨?_, ?_, ?_⟩
    · rw [b1, name_eraseChild, a1]
    · rw [b2]
      by_cases hx : x = P
      · subst hx; simp [eraseChild, a2]
      · simp [eraseChild, Function.update_noteq hx, a2]
    · rw [b4]
      by_cases hx : x = P
      · subst hx; simp [eraseChild, a4]
      · simp [eraseChild, Function.update_noteq hx, hx, a4]
  · left
    simp only [Outcome.ok.injEq, true_and] at hr
    exact hr.symm

/-- Fields of the models after the two writes of `attachModel`. -/
theorem insert_fields (h : Heap) (P m : ModelId) (k : String) (x : ModelId) :
    (setParent (setChild h P k m) m (some P) x).name = (h x).name ∧
    (setParent (setChild h P k m) m (some P) x).parent
      = (if x = m then some P else (h x).parent) ∧
    (setParent (setChild h P k m) m (some P) x).modelList
      = (if x = P then mapInsert k m (h P).modelList else (h x).modelList) ∧
    ∀ t, rawTable (setParent (setChild h P k m) m (some P)) t x = rawTable h t x := by
  by_cases hxm : x = m <;> by_cases hxP : x = P
  · subst hxm; subst hxP
    refine ⟨by simp [setParent, setChild], by simp [setParent, setChild],
      by simp [setParent, setChild], fun t => ?_⟩
    cases t <;> simp [rawTable, setParent, setChild]
  · subst hxm
    refine ⟨by simp [setParent, setChild, Function.update_noteq hxP],
      by simp [setParent, setChild], by simp [setParent, setChild, Function.update_noteq hxP, hxP],
      fun t => ?_⟩
    cases t <;> simp [rawTable, setParent, setChild, Function.update_noteq hxP]
  · subst hxP
    refine ⟨by simp [setParent, setChild, Function.update_noteq hxm],
      by simp [setParent, setChild, Function.update_noteq hxm, hxm],
      by simp [setParent, setChild, Function.update_noteq hxm], fun t => ?_⟩
    cases t <;> simp [rawTable, setParent, setChild, Function.update_noteq hxm]
  · refine ⟨by simp [setParent, setChild, Function.update_noteq hxm, Function.update_noteq hxP],
      by simp [setParent, setChild, Function.update_noteq hxm, Function.update_noteq hxP, hxm],
      by simp [setParent, setChild, Function.update_noteq hxm, Function.update_noteq hxP, hxP],
      fun t => ?_⟩
    cases t <;>
      simp [rawTable, setParent, setChild, Function.update_noteq hxm, Function.update_noteq hxP]

/-- Fields of the models after the two writes of `addModel`. -/
theorem addModel_fields (h : Heap) (P m : ModelId) (x : ModelId) :
    (setChild (setParent h m (some P)) P (h m).name m x).name = (h x).name ∧
    (setChild (setParent h m (some P)) P (h m).name m x).parent
      = (if x = m then some P else (h x).parent) ∧
    (setChild (setParent h m (some P)) P (h m).name m x).modelList
      = (if x = P then mapInsert (h m).name m (h P).modelList else (h x).modelList) := by
  by_cases hxm : x = m <;> by_cases hxP : x = P
  · subst hxm; subst hxP
    exact ⟨by simp [setParent, setChild], by simp [setParent, setChild],
      by simp [setParent, setChild]⟩
  · subst hxm
    exact ⟨by simp [setParent, setChild, Function.update_noteq hxP],
      by simp [setParent, setChild, Function.update_noteq hxP],
      by simp [setParent, setChild, Function.update_noteq hxP, hxP]⟩
  · subst hxP
    have hmx : m ≠ x := fun e => hxm e.symm
    exact ⟨by simp [setParent, setChild, Function.update_noteq hxm],
      by simp [setParent, setChild, Function.update_noteq hxm, hxm],
      by simp [setParent, setChild, Function.update_noteq hxm]⟩
  · exact ⟨by simp [setParent, setChild, Function.update_noteq hxm, Function.update_noteq hxP],
      by simp [setParent, setChild, Function.update_noteq hxm, Function.update_noteq hxP, hxm],
      by simp [setParent, setChild, Function.update_noteq hxm, Function.update_noteq hxP, hxP]⟩
theorem uncontained_of_no_parent {h : Heap} (hp : ParentsAgree h) {m : ModelId}
    (hm : (h m).parent = none) : Uncontained h m := by
  intro Q k hk
  have := hp Q _ hk
  simp only at this
  rw [hm] at this
  cases this

/-- Allocating an empty model at an address held in no child map. -/
theorem invariants_after_new {h : Heap} {x : ModelId} (mdl : Model)
    (hp : ParentsAgree h) (hk : KeyedByName h) (hx : Uncontained h x)
    (hml : mdl.modelList = []) :
    ParentsAgree (Function.update h x mdl) ∧ KeyedByName (Function.update h x mdl) ∧
      Uncontained (Function.update h x mdl) x := by
  have hsub : ∀ Q kc, kc ∈ (Function.update h x mdl Q).modelList →
      kc ∈ (h Q).modelList ∧ kc.2 ≠ x := by
    intro Q kc hkc
    by_cases hQ : Q = x
    · subst hQ; simp [hml] at hkc
    · rw [Function.update_noteq hQ] at hkc
      exact ⟨hkc, fun e => hx Q kc.1 (by rw [← e]; exact hkc)⟩
  refine ⟨?_, ?_, ?_⟩
  · intro Q kc hkc
    obtain ⟨a, b⟩ := hsub Q kc hkc
    rw [Function.update_noteq b]
    exact hp Q kc a
  · intro Q
    refine ⟨?_, fun kc hkc => ?_⟩
    · by_cases hQ : Q = x
      · subst hQ; simp [hml]
      · rw [Function.update_noteq hQ]; exact (hk Q).1
    · obtain ⟨a, b⟩ := hsub Q kc hkc
      rw [Function.update_noteq b]
      exact (hk Q).2 kc a
  · intro Q k hkc
    exact (hsub Q _ hkc).2 rfl

theorem invariants_after_create {kind : Kind} {h hh : Heap} {P x : ModelId} {name : String}
    (hp : ParentsAgree h) (hk : KeyedByName h) (hxP : x ≠ P) (hx : Uncontained h x)
    (hr : addChildOfKind kind P name x h = .ok x hh) :
    ParentsAgree hh ∧ KeyedByName hh := by
  simp only [addChildOfKind] at hr
  split at hr
  · simp at hr
  · rename_i hex
    simp only [Outcome.ok.injEq, true_and] at hr
    have hPx : P ≠ x := fun e => hxP e.symm
    obtain ⟨p1, k1, u1⟩ := invariants_after_new (newModel kind name none) hp hk hx rfl
    have hfree : mapFind name (h P).modelList = none := by
      simpa [exist] using hex
    refine invariants_after_insert p1 k1 u1 (P := P) (m := x) ?_ ?_
    · simpa [Function.update_noteq hPx, newModel] using hfree
    · intro y
      subst hr
      by_cases hyx : y = x <;> by_cases hyP : y = P
      · exact absurd (hyx.symm.trans hyP) hxP
      · subst hyx
        simp [setChild, Function.update_noteq hyP, newModel, hyP]
      · subst hyP
        simp [setChild, Function.update_noteq hyx, newModel, hyx]
      · simp [setChild, Function.update_noteq hyx, Function.update_noteq hyP, hyx, hyP]

theorem invariants_after_addModel {h hh : Heap} {P m : ModelId}
    (hp : ParentsAgree h) (hk : KeyedByName h) (hm : Uncontained h m)
    (hr : addModel P m h = .ok () hh) : ParentsAgree hh ∧ KeyedByName hh := by
  simp only [addModel] at hr
  split at hr
  · simp at hr
  · rename_i hex
    simp only [Outcome.ok.injEq, true_and] at hr
    have hfree : mapFind (h m).name (h P).modelList = none := by
      simpa [exist] using hex
    rw [name_setParent] at hr
    subst hr
    exact invariants_after_insert hp hk hm hfree (addModel_fields h P m)

theorem invariants_after_detachModel {h hh : Heap} {P m : ModelId}
    (hp : ParentsAgree h) (hk : KeyedByName h)
    (hr : detachModel P m h = .ok () hh) : ParentsAgree hh ∧ KeyedByName hh := by
  cases hc : mapFind (h m).name (h P).modelList with
  | none => simp [detachModel, hc] at hr
  | some c =>
    obtain ⟨gg, e, hf⟩ := detachModel_fields hc
    rw [e] at hr
    simp only [Outcome.ok.injEq, true_and] at hr
    subst hr
    obtain ⟨a, b, _, _⟩ := invariants_after_detach hp hk hc
      (fun x => ⟨(hf x).1, (hf x).2.1, (hf x).2.2.1⟩)
    exact ⟨a, b⟩

theorem invariants_after_attachModel {h hh : Heap} {P m : ModelId}
    (hp : ParentsAgree h) (hk : KeyedByName h)
    (hr : attachModel P m h = .ok () hh) : ParentsAgree hh ∧ KeyedByName hh := by
  cases hpar : (h m).parent with
  | none =>
    obtain ⟨hfree, hf⟩ := attachModel_fields hpar hr
    exact invariants_after_insert hp hk (uncontained_of_no_parent hp hpar) hfree
      (fun x => ⟨(hf x).1, (hf x).2.1, (hf x).2.2.1⟩)
  | some Q =>
    simp only [attachModel] at hr
    split at hr
    · simp at hr
    · rename_i hex
      have hfree : mapFind (h m).name (h P).modelList = none := by
        simpa [exist] using hex
      simp only [hpar] at hr
      obtain ⟨_, h1, e1, e2⟩ := andThen_ok hr
      simp only [Outcome.ok.injEq, true_and] at e2
      cases hc : mapFind (h m).name (h Q).modelList with
      | none => simp [detachModel, hc] at e1
      | some c =>
        obtain ⟨gg, e, hf⟩ := detachModel_fields hc
        rw [e] at e1
        simp only [Outcome.ok.injEq, true_and] at e1
        subst e1
        obtain ⟨p1, k1, u1, s1⟩ := invariants_after_detach hp hk hc
          (fun x => ⟨(hf x).1, (hf x).2.1, (hf x).2.2.1⟩)
        have hPQ : P ≠ Q := by
          intro e'
          rw [e', hc] at hfree
          cases hfree
        have hm1 : Uncontained gg m := by
          by_cases hcm : c = m
          · rw [← hcm]; exact u1
          · intro R k hkm
            have hmem := s1 R _ hkm
            have e1 := hp R _ hmem
            have e2 := (hk R).2 _ hmem
            simp only at e1 e2
            rw [hpar] at e1
            have hRQ : R = Q := (Option.some.inj e1).symm
            rw [hRQ, ← e2] at hmem
            have := mapFind_of_mem_nodup (hk Q).1 hmem
            rw [hc] at this
            exact hcm (Option.some.inj this)
        have hfree1 : mapFind (gg m).name (gg P).modelList = none := by
          rw [(hf m).1, (hf P).2.2.1, if_neg hPQ]
          exact hfree
        subst e2
        exact invariants_after_insert p1 k1 hm1 hfree1
          (fun x => ⟨(insert_fields gg P m _ x).1, (insert_fields gg P m _ x).2.1,
            (insert_fields gg P m _ x).2.2.1⟩)

theorem invariants_after_delModel {fuel : Nat} {h hh : Heap} {P m : ModelId}
    (hp : ParentsAgree h) (hk : KeyedByName h)
    (hr : delModel fuel P m h = .ok () hh) : ParentsAgree hh ∧ KeyedByName hh := by
  rcases delModel_fields fuel P m h hh hr with e | hf
  · rw [e]; exact ⟨hp, hk⟩
  · exact invariants_after_erase hp hk hf

/-- Claim C12, the claim as stated does not hold: from the graph `loneHeap`, in which
every child map is empty, `addAtomicModel("a")` on the coupled model at address
0 followed by `addModel` of the new model on the coupled model at address 1
both return normally, and leave the new model in the child map of the
former with the latter as its parent. -/
theorem addModel_breaks_parent_invariant :
    (∀ Q, (loneHeap Q).modelList = []) ∧
    ∃ h, Reachable false loneHeap h ∧ ¬ ParentsAgree h := by
  refine ⟨fun _ => rfl,
    setChild (setParent (setChild (Function.update loneHeap 2 (newModel .atomic "a" (some 0)))
      0 "a" 2) 2 (some 1)) 1 "a" 2, ?_, ?_⟩
  · exact Reachable.step _ _
      (Reachable.step _ _ Reachable.start
        (Step.atomic 0 "a" 2 loneHeap _ (by decide)
          (fun Q k hk => by simp [loneHeap, newModel] at hk) rfl))
      (Step.add 1 2 _ _ (fun e => by cases e) rfl)
  · intro hp
    have := hp 0 ("a", 2) (by decide)
    revert this
    decide

/-- Claim C12, amended.  Starting from a graph in which every child map is empty,
after any sequence of returning `addAtomicModel`, `addCoupledModel`,
`addNoVLEModel`, `addModel`, `attachModel`, `detachModel` and `delModel` calls
in which `addModel` is only applied to a model that is held in no child map,
every model found in a child map has the owner of that map as its parent. -/
theorem parent_invariant (h0 h : Heap) (hempty : ∀ Q, (h0 Q).modelList = [])
    (hreach : Reachable true h0 h) : ParentsAgree h := by
  have key : ParentsAgree h ∧ KeyedByName h := by
    induction hreach with
    | start =>
      refine ⟨fun Q kc hkc => ?_, fun Q => ⟨?_, fun kc hkc => ?_⟩⟩
      · rw [hempty Q] at hkc; cases hkc
      · rw [hempty Q]; exact List.nodup_nil
      · rw [hempty Q] at hkc; cases hkc
    | step g gg _ hstep ih =>
      obtain ⟨hp, hk⟩ := ih
      cases hstep with
      | atomic P name x _ _ hxP hx hr => exact invariants_after_create hp hk hxP hx hr
      | coupled P name x _ _ hxP hx hr => exact invariants_after_create hp hk hxP hx hr
      | novle P name x _ _ hxP hx hr => exact invariants_after_create hp hk hxP hx hr
      | add P m _ _ hm hr => exact invariants_after_addModel hp hk (hm rfl) hr
      | attach P m _ _ hr => exact invariants_after_attachModel hp hk hr
      | detach P m _ _ hr => exact invariants_after_detachModel hp hk hr
      | del fuel P m _ _ hr => exact invariants_after_delModel hp hk hr
  exact key.1

theorem parent_invariant_witness :
    (∀ Q, (loneHeap Q).modelList = []) ∧
    ∃ h1 h2 h3, addAtomicModel 0 "a" 2 loneHeap = .ok 2 h1 ∧
      attachModel 1 2 h1 = .ok () h2 ∧ addModel 0 3 h2 = .ok () h3 ∧
      (h3 2).parent = some 1 ∧ ParentsAgree h3 :=
  ⟨fun _ => rfl, _, _, _, rfl, rfl, rfl, by decide,
    parent_invariant loneHeap _ (fun _ => rfl)
      (Reachable.step _ _
        (Reachable.step _ _
          (Reachable.step _ _ Reachable.start
            (Step.atomic 0 "a" 2 loneHeap _ (by decide)
              (fun Q k hk => by simp [loneHeap, newModel] at hk) rfl))
          (Step.attach 1 2 _ _ rfl))
        (Step.add 0 3 _ _
          (fun _ Q k hk => by
            revert hk
            simp only [setChild, setParent, eraseChild, loneHeap, newModel,
              Function.update_apply]
            split_ifs <;> simp [mapInsert, mapErase]) rfl))⟩

/-! ## `displace` into a coupled model that has a child of the same name -/

/-- On a set of children of `P`, `detachModels` returns. -/
theorem detachModels_total {P : ModelId} (models : ModelList) (g : Heap)
    (hkeys : ((g P).modelList.map Prod.fst).Nodup)
    (hnames : ∀ kc ∈ (g P).modelList, (g kc.2).name = kc.1)
    (hmkeys : (models.map Prod.fst).Nodup)
    (hsubset : ∀ kc ∈ models, kc ∈ (g P).modelList) :
    ∃ gg, detachModels P models g = .ok () gg := by
  induction models generalizing g with
  | nil => exact ⟨g, rfl⟩
  | cons km rest ih =>
    obtain ⟨k, m⟩ := km
    have hmem : (k, m) ∈ (g P).modelList := hsubset _ (List.mem_cons_self _ _)
    have hname : (g m).name = k := hnames _ hmem
    have hfind : mapFind (g m).name (g P).modelList = some m := by
      rw [hname]; exact mapFind_of_mem_nodup hkeys hmem
    obtain ⟨g1, e1, hf⟩ := detachModel_fields hfind
    simp only [List.map_cons, List.nodup_cons] at hmkeys
    have hP1 : (g1 P).modelList = mapErase k (g P).modelList := by
      have := (hf P).2.2.1
      simpa [hname] using this
    obtain ⟨gg, e2⟩ := ih g1 (by rw [hP1]; exact nodup_keys_mapErase k hkeys)
      (by
        intro kc hkc
        rw [hP1] at hkc
        rw [(hf kc.2).1]
        exact hnames kc (mem_mapErase hkc))
      hmkeys.2
      (by
        intro kc hkc
        rw [hP1]
        refine mem_mapErase_of_ne (hsubset kc (List.mem_cons_of_mem _ hkc)) ?_
        intro e
        exact hmkeys.1 (e ▸ List.mem_map_of_mem Prod.fst hkc))
    refine ⟨gg, ?_⟩
    simp only [detachModels] at e2
    simp only [detachModels, forEachModel, e1, Outcome.andThen, e2]

theorem getBasicConnections_total (h : Heap) (P : ModelId) (models : ModelList)
    (hpar : ∀ kc ∈ models, (h kc.2).parent = some P) :
    ∃ cnts, getBasicConnections h P models = .ok cnts := by
  induction models with
  | nil => exact ⟨[], rfl⟩
  | cons km rest ih =>
    obtain ⟨k, m⟩ := km
    obtain ⟨l, hl⟩ := ih (fun kc hkc => hpar kc (List.mem_cons_of_mem _ hkc))
    have hm : (h m).parent = some P := hpar _ (List.mem_cons_self _ _)
    exact ⟨getBasicConnections.ports h m (h m).outPortList ++ l,
      by simp only [getBasicConnections, hm, if_true, hl]⟩

/-- When a model of `models` bears the name of a child of `D`, `attachModels`
throws, after it has attached the models that come before. -/
theorem attachModels_collision {D : ModelId} (models : ModelList) (g : Heap)
    (hmkeys : (models.map Prod.fst).Nodup)
    (hnm : ∀ kc ∈ models, (g kc.2).name = kc.1)
    (hpar : ∀ kc ∈ models, (g kc.2).parent = none)
    (hcol : ∃ kc ∈ models, (mapFind kc.1 (g D).modelList).isSome = true) :
    ∃ gg, attachModels D models g = .throw .DevsGraphError gg ∧
      ∀ x, (gg x).name = (g x).name ∧
        ((∃ k, (k, x) ∈ models) → (gg x).parent = none ∨ (gg x).parent = some D) ∧
        ((∀ k, (k, x) ∉ models) → (gg x).parent = (g x).parent) ∧
        (x ≠ D → (gg x).modelList = (g x).modelList) ∧
        ∀ t, rawTable gg t x = rawTable g t x := by
  induction models generalizing g with
  | nil =>
    obtain ⟨kc, hkc, _⟩ := hcol
    cases hkc
  | cons km rest ih =>
    obtain ⟨k, m⟩ := km
    have hname : (g m).name = k := hnm _ (List.mem_cons_self _ _)
    have hparm : (g m).parent = none := hpar _ (List.mem_cons_self _ _)
    by_cases hex : (mapFind k (g D).modelList).isSome = true
    · refine ⟨g, ?_, fun x => ⟨rfl, fun hx => ?_, fun _ => rfl, fun _ => rfl, fun _ => rfl⟩⟩
      · simp only [attachModels, forEachModel, attachModel, exist, hname, hex, if_true,
          Outcome.andThen]
      · obtain ⟨k', hk'⟩ := hx
        exact Or.inl (hpar _ hk')
    · have e1 : attachModel D m g
          = .ok () (setParent (setChild g D (g m).name m) m (some D)) := by
        simp only [attachModel, exist, hname, hex, hparm, Outcome.andThen]
        rfl
      obtain ⟨hnone, hf⟩ := attachModel_fields hparm e1
      rw [hname] at hnone
      simp only [List.map_cons, List.nodup_cons] at hmkeys
      have hrest_ne : ∀ kc ∈ rest, kc.2 ≠ m := by
        intro kc hkc e
        have h1 := hnm kc (List.mem_cons_of_mem _ hkc)
        rw [e, hname] at h1
        exact hmkeys.1 (h1 ▸ List.mem_map_of_mem Prod.fst hkc)
      obtain ⟨gg, e2, i1⟩ := ih (setParent (setChild g D (g m).name m) m (some D)) hmkeys.2
        (by
          intro kc hkc
          rw [(hf kc.2).1]
          exact hnm kc (List.mem_cons_of_mem _ hkc))
        (by
          intro kc hkc
          rw [(hf kc.2).2.1, if_neg (hrest_ne kc hkc)]
          exact hpar kc (List.mem_cons_of_mem _ hkc))
        (by
          obtain ⟨kc, hkc, hsome⟩ := hcol
          rcases List.mem_cons.1 hkc with e | hkc'
          · rw [e] at hsome; exact absurd hsome hex
          · refine ⟨kc, hkc', ?_⟩
            rw [(hf D).2.2.1, if_pos rfl, mapFind_mapInsert]
            split
            · rfl
            · exact hsome)
      refine ⟨gg, ?_, fun x => ?_⟩
      · simp only [attachModels] at e2
        simp only [attachModels, forEachModel, e1, Outcome.andThen, e2]
      · obtain ⟨a1, a2, a3, a4, a5⟩ := i1 x
        obtain ⟨b1, b2, b3, b4⟩ := hf x
        refine ⟨a1.trans b1, ?_, ?_, ?_, fun t => (a5 t).trans (b4 t)⟩
        · rintro ⟨k', hk'⟩
          rcases List.mem_cons.1 hk' with e | hk''
          · simp only [Prod.mk.injEq] at e
            by_cases hx : ∃ k, (k, x) ∈ rest
            · exact a2 hx
            · push_neg at hx
              right
              rw [a3 hx, b2, if_pos e.2]
          · exact a2 ⟨k', hk''⟩
        · intro hx
          have hx1 : ∀ k, (k, x) ∉ rest := fun k' hk' => hx k' (List.mem_cons_of_mem _ hk')
          have hxm : x ≠ m := fun e => hx k (e ▸ List.mem_cons_self _ _)
          rw [a3 hx1, b2, if_neg hxm]
        · intro hxD
          rw [a4 hxD, b3, if_neg hxD]

/-- Claim C15, the claim as stated does not hold: in `collideHeap` the coupled model
`dest` already has a child named `a`; `displace` of the children `a` and `b` of
`top` into `dest` throws, and at the throw the child map of `top` is empty and
`a` and `b` have no parent, whereas before the call `top` held both. -/
theorem displace_not_rolled_back :
    hasConnectionProblem collideHeap [("a", 1), ("b", 2)] = false ∧
    (collideHeap 0).modelList = [("a", 1), ("b", 2)] ∧
    (collideHeap 1).parent = some 0 ∧ (collideHeap 2).parent = some 0 ∧
    ∃ hh, displace 0 [("a", 1), ("b", 2)] 3 collideHeap = .throw .DevsGraphError hh ∧
      (hh 0).modelList = [] ∧ (hh 1).parent = none ∧ (hh 2).parent = none :=
  ⟨by decide, by decide, by decide, by decide, _, rfl, by decide, by decide, by decide⟩

/-- Claim C15, amended.  Let the child map of `P` have distinct keys that are the
names of its children, let `models` be a map of children of `P` without
external connections, and let `destination`, a coupled model other than `P`,
already have a child bearing the name of one of them.  Then `displace(models,
destination)` throws the graph error, and at the throw every port list is as
before the call, but the models have been detached: the child map of `P` is the
old one without the entries of `models`, and every model of `models` has no
parent or has `destination` as parent; the other models keep their name and
parent, and the models other than `P` and `destination` their child map. -/
theorem displace_name_collision (h : Heap) (P destination : ModelId) (models : ModelList)
    (hne : destination ≠ P)
    (hkeys : ((h P).modelList.map Prod.fst).Nodup)
    (hnames : ∀ kc ∈ (h P).modelList, (h kc.2).name = kc.1)
    (hmkeys : (models.map Prod.fst).Nodup)
    (hsubset : ∀ kc ∈ models, kc ∈ (h P).modelList)
    (hparents : ∀ kc ∈ models, (h kc.2).parent = some P)
    (hprob : hasConnectionProblem h models = false)
    (hcol : ∃ kc ∈ models, (mapFind kc.1 (h destination).modelList).isSome = true) :
    ∃ hh, displace P models destination h = .throw .DevsGraphError hh ∧
      (∀ x t, rawTable hh t x = rawTable h t x) ∧
      (∀ kc, kc ∈ (hh P).modelList ↔ kc ∈ (h P).modelList ∧ kc ∉ models) ∧
      (∀ kc ∈ models, (hh kc.2).parent = none ∨ (hh kc.2).parent = some destination) ∧
      (∀ x, (hh x).name = (h x).name ∧
        ((∀ k, (k, x) ∉ models) → (hh x).parent = (h x).parent) ∧
        (x ≠ P → x ≠ destination → (hh x).modelList = (h x).modelList)) := by
  obtain ⟨cnts, hgb⟩ := getBasicConnections_total h P models hparents
  obtain ⟨g1, e1⟩ := detachModels_total models h hkeys hnames hmkeys hsubset
  obtain ⟨d1, d2⟩ := detachModels_fields models h g1 hkeys hnames hmkeys hsubset e1
  have hnm : ∀ kc ∈ models, (g1 kc.2).name = kc.1 := fun kc hkc => by
    rw [(d1 kc.2).1]; exact hnames kc (hsubset kc hkc)
  have hpar : ∀ kc ∈ models, (g1 kc.2).parent = none := fun kc hkc =>
    (d1 kc.2).2.1 ⟨kc.1, hkc⟩
  obtain ⟨g2, e2, t1⟩ := attachModels_collision models g1 hmkeys hnm hpar
    (by
      obtain ⟨kc, hkc, hsome⟩ := hcol
      refine ⟨kc, hkc, ?_⟩
      rw [(d1 destination).2.2.2.1 hne]
      exact hsome)
  refine ⟨g2, ?_, fun x t => ?_, fun kc => ?_, fun kc hkc => ?_, fun x => ⟨?_, ?_, ?_⟩⟩
  · simp only [displace, hprob, hgb, e1, e2, Outcome.andThen]
    rfl
  · rw [(t1 x).2.2.2.2 t, (d1 x).2.2.2.2 t]
  · rw [(t1 P).2.2.2.1 (fun e => hne e.symm), d2]
    constructor
    · rintro ⟨h1, h2⟩
      exact ⟨h1, fun hin => h2 kc hin rfl⟩
    · rintro ⟨h1, h2⟩
      refine ⟨h1, fun kc' hkc' e => h2 ?_⟩
      have h3 : (kc'.1, kc'.2) ∈ (h P).modelList := hsubset kc' hkc'
      rw [e] at h3
      have := value_unique_of_nodup_keys hkeys h3 (show (kc.1, kc.2) ∈ _ from h1)
      have hk : kc' = kc := Prod.ext e this
      rw [← hk]; exact hkc'
  · exact (t1 kc.2).2.1 ⟨kc.1, hkc⟩
  · rw [(t1 x).1, (d1 x).1]
  · intro hx
    rw [(t1 x).2.2.1 hx, (d1 x).2.2.1 hx]
  · intro hxP hxD
    rw [(t1 x).2.2.2.1 hxD, (d1 x).2.2.2.1 hxP]

theorem displace_name_collision_witness :
    ∃ hh, displace 0 [("a", 1), ("b", 2)] 3 collideHeap = .throw .DevsGraphError hh ∧
      (∀ x t, rawTable hh t x = rawTable collideHeap t x) ∧
      (∀ kc, kc ∈ (hh 0).modelList ↔
        kc ∈ (collideHeap 0).modelList ∧ kc ∉ [("a", 1), ("b", 2)]) ∧
      (∀ kc ∈ [("a", 1), ("b", 2)], (hh kc.2).parent = none ∨ (hh kc.2).parent = some 3) ∧
      (∀ x, (hh x).name = (collideHeap x).name ∧
        ((∀ k, (k, x) ∉ [("a", 1), ("b", 2)]) → (hh x).parent = (collideHeap x).parent) ∧
        (x ≠ 0 → x ≠ 3 → (hh x).modelList = (collideHeap x).modelList)) :=
  displace_name_collision collideHeap 0 3 [("a", 1), ("b", 2)] (by decide) (by decide)
    (by decide) (by decide) (by decide) (by decide) (by decide) (by decide)

/-! ## `replace` by a model whose name is taken -/

theorem PortsWritten.nothing (n : ModelId) (h : Heap) : PortsWritten n h h :=
  ⟨fun _ _ => rfl, ⟨rfl, rfl, rfl, rfl⟩, fun _ hs => hs⟩

theorem PortsWritten.followed {n : ModelId} {h g k : Heap} (a : PortsWritten n h g)
    (b : PortsWritten n g k) : PortsWritten n h k := by
  obtain ⟨a1, ⟨a2, a3, a4, a5⟩, a6⟩ := a
  obtain ⟨b1, ⟨b2, b3, b4, b5⟩, b6⟩ := b
  exact ⟨fun x hx => (b1 x hx).trans (a1 x hx),
    ⟨b2.trans a2, b3.trans a3, b4.trans a4, b5.trans a5⟩, fun s hs => b6 s (a6 s hs)⟩

theorem PortsWritten.by_modTable (n : ModelId) (h : Heap) (t : Table) (port : String)
    (f : ModelPortList → ModelPortList) : PortsWritten n h (modTable h (t, n, port) f) := by
  refine ⟨fun x hx => ?_, ?_, fun s hs => (hasSlot_modTable h _ f s).2 hs⟩
  · cases t <;>
      simp [modTable, modInPort, modOutPort, modInternalInPort, modInternalOutPort,
        Function.update_noteq hx]
  · obtain ⟨a, b, c, d⟩ := fields_modTable h (t, n, port) f n
    exact ⟨a, b, c, d⟩

theorem addInputPort_written (n : ModelId) (port : String) (h : Heap) :
    PortsWritten n h (addInputPort h n port) ∧
      hasSlot (addInputPort h n port) (.inP, n, port) := by
  unfold addInputPort
  cases hp : inPort h n port with
  | some l =>
    exact ⟨PortsWritten.nothing n h, by simp [hasSlot, table, hp]⟩
  | none =>
    refine ⟨⟨fun x hx => by simp [Function.update_noteq hx], by simp, fun s hs => ?_⟩, ?_⟩
    · obtain ⟨t, x, r⟩ := s
      by_cases hx : x = n
      · subst hx
        cases t
        · simp only [hasSlot, table, inPort, Function.update_same, mapFind_mapInsert] at hs ⊢
          split
          · rfl
          · exact hs
        · simpa [hasSlot, table, outPort] using hs
        · simpa [hasSlot, table, internalInPort] using hs
        · simpa [hasSlot, table, internalOutPort] using hs
      · cases t <;>
          simpa [hasSlot, table, inPort, outPort, internalInPort, internalOutPort,
            Function.update_noteq hx] using hs
    · simp [hasSlot, table, inPort, mapFind_mapInsert]

theorem addOutputPort_written (n : ModelId) (port : String) (h : Heap) :
    PortsWritten n h (addOutputPort h n port) ∧
      hasSlot (addOutputPort h n port) (.outP, n, port) := by
  unfold addOutputPort
  cases hp : outPort h n port with
  | some l =>
    exact ⟨PortsWritten.nothing n h, by simp [hasSlot, table, hp]⟩
  | none =>
    refine ⟨⟨fun x hx => by simp [Function.update_noteq hx], by simp, fun s hs => ?_⟩, ?_⟩
    · obtain ⟨t, x, r⟩ := s
      by_cases hx : x = n
      · subst hx
        cases t
        · simpa [hasSlot, table, inPort] using hs
        · simp only [hasSlot, table, outPort, Function.update_same, mapFind_mapInsert] at hs ⊢
          split
          · rfl
          · exact hs
        · simpa [hasSlot, table, internalInPort] using hs
        · simpa [hasSlot, table, internalOutPort] using hs
      · cases t <;>
          simpa [hasSlot, table, inPort, outPort, internalInPort, internalOutPort,
            Function.update_noteq hx] using hs
    · simp [hasSlot, table, outPort, mapFind_mapInsert]

/-- The first block of `replace` writes to the new model only, which then has
every input port of the list. -/
theorem replace_inputs_written (n : ModelId) (l : ConnectionList) (h : Heap) :
    PortsWritten n h (replace.inputs n l h) ∧
      ∀ pl ∈ l, hasSlot (replace.inputs n l h) (.inP, n, pl.1) := by
  induction l generalizing h with
  | nil => exact ⟨PortsWritten.nothing n h, fun pl hpl => by cases hpl⟩
  | cons a l ih =>
    obtain ⟨port, lst⟩ := a
    obtain ⟨w1, s1⟩ := addInputPort_written n port h
    have w2 := PortsWritten.by_modTable n (addInputPort h n port) .inP port
      (fun l => l.merge lst)
    obtain ⟨w3, s3⟩ := ih (modInPort (addInputPort h n port) n port (fun l => l.merge lst))
    refine ⟨(w1.followed w2).followed w3, fun pl hpl => ?_⟩
    rcases List.mem_cons.1 hpl with e | hpl'
    · rw [e]
      exact w3.2.2 _ (w2.2.2 _ s1)
    · exact s3 pl hpl'

/-- The second block of `replace` writes to the new model only, which then
has every output port of the list. -/
theorem replace_outputs_written (n : ModelId) (l : ConnectionList) (h : Heap) :
    PortsWritten n h (replace.outputs n l h) ∧
      ∀ pl ∈ l, hasSlot (replace.outputs n l h) (.outP, n, pl.1) := by
  induction l generalizing h with
  | nil => exact ⟨PortsWritten.nothing n h, fun pl hpl => by cases hpl⟩
  | cons a l ih =>
    obtain ⟨port, lst⟩ := a
    obtain ⟨w1, s1⟩ := addOutputPort_written n port h
    have w2 := PortsWritten.by_modTable n (addOutputPort h n port) .outP port
      (fun l => l.merge lst)
    obtain ⟨w3, s3⟩ := ih (modOutPort (addOutputPort h n port) n port (fun l => l.merge lst))
    refine ⟨(w1.followed w2).followed w3, fun pl hpl => ?_⟩
    rcases List.mem_cons.1 hpl with e | hpl'
    · rw [e]
      exact w3.2.2 _ (w2.2.2 _ s1)
    · exact s3 pl hpl'
/-- The mirror invariant of `P` only reads `P` and its children. -/
theorem Mirror.of_same_cells {h g : Heap} {P : ModelId}
    (hc : ∀ x, inScope h P x → g x = h x) (hm : Mirror h P) : Mirror g P := by
  have hP : g P = h P := hc P (Or.inl rfl)
  have hsc : ∀ x, inScope g P x → inScope h P x := by
    intro x hx
    rcases hx with e | ⟨k, hk⟩
    · exact Or.inl e
    · rw [hP] at hk; exact Or.inr ⟨k, hk⟩
  intro a b p q ha hb
  have ea := hc a (hsc a ha)
  have eb := hc b (hsc b hb)
  have := hm a b p q (hsc a ha) (hsc b hb)
  simpa [outbound, inbound, internalInPort, internalOutPort, outPort, inPort, ea, eb, hP]
    using this

theorem EndpointsExist.of_written {n : ModelId} {h g : Heap} (w : PortsWritten n h g)
    {P c : ModelId} (hc : c ≠ n) (he : EndpointsExist h P c) : EndpointsExist g P c := by
  have e := w.1 c hc
  constructor
  · intro pl hpl x hx
    rw [e] at hpl
    exact w.2.2 _ (he.1 pl hpl x hx)
  · intro pl hpl x hx
    rw [e] at hpl
    exact w.2.2 _ (he.2 pl hpl x hx)

theorem outbound_inbound_of_same_cells {h g : Heap} {P c : ModelId}
    (hP : g P = h P) (hc : g c = h c) (q : String) :
    outbound g P c q = outbound h P c q ∧ inbound g P c q = inbound h P c q := by
  simp [outbound, inbound, internalInPort, internalOutPort, outPort, inPort, hP, hc]

/-- Claim C16, the claim as stated does not hold: in `clashHeap` the fresh model at
address 3 is named `b`, like the second child of `top`.  `replace(a, 3)` on
`top` throws, and at the throw `a` is no longer in the child map of `top`, the
lists of its peers (`top.in` and `b.in`) have lost their entries, and the new
model has acquired the input port `in` of `a` with its list. -/
theorem replace_not_rolled_back :
    (clashHeap 3).name = "b" ∧ mapFind "b" (clashHeap 0).modelList = some 2 ∧
    (clashHeap 0).modelList = [("a", 1), ("b", 2)] ∧
    internalInPort clashHeap 0 "in" = some [(1, "in")] ∧
    inPort clashHeap 2 "in" = some [(1, "out")] ∧ inPort clashHeap 3 "in" = none ∧
    ∃ hh, replace 1 0 (some 1) (some 3) clashHeap = .throw .DevsGraphError hh ∧
      (hh 0).modelList = [("b", 2)] ∧ internalInPort hh 0 "in" = some [] ∧
      inPort hh 2 "in" = some [] ∧ inPort hh 3 "in" = some [(0, "in")] :=
  ⟨by decide, by decide, by decide, by decide, by decide, by decide,
    _, rfl, by decide, by decide, by decide, by decide⟩

/-- Claim C16, amended.  Let `old` be a well-formed child of `P` as in claim C5, and
let `new` be a model outside the graph of `P` (not `P`, not a child of `P`, not
at or below `old`) whose name is the name of a child of `P` other than `old`.
Then `replace(old, new)` throws the graph error as soon as the budget of the
destructor exceeds the rank of `old`, and at the throw the call has not been
undone: `old` has been deleted (the child map of `P` has lost its entry, and
the lists of `P` and of the remaining children have lost the entries that
refer to it), `new` has acquired every input and output port of `old`, and
`new` has not been added to `P` (its parent is unchanged). -/
theorem replace_name_collision (fuel : Nat) (h : Heap) (P o n : ModelId)
    (S : ModelId → Prop) (rank : ModelId → Nat) (hoP : o ≠ P)
    (hchild : mapFind (h o).name (h P).modelList = some o)
    (hkeys : ((h P).modelList.map Prod.fst).Nodup)
    (hnames : ∀ kc ∈ (h P).modelList, (h kc.2).name = kc.1)
    (hmir : Mirror h P) (hends : EndpointsExist h P o)
    (hsub : Subtree h S o) (hSP : ¬ S P)
    (hsib : ∀ kc ∈ (h P).modelList, kc.2 ≠ o → ¬ S kc.2)
    (hendsS : ∀ x, S x → ∀ kc ∈ (h x).modelList, EndpointsExist h x kc.2)
    (hrank : ∀ x, S x → ∀ kc ∈ (h x).modelList, rank kc.2 < rank x)
    (hfuel : rank o < fuel)
    (hnP : n ≠ P) (hnS : ¬ S n) (hnchild : ∀ k, (k, n) ∉ (h P).modelList)
    (hcol : (h n).name ≠ (h o).name ∧ (mapFind (h n).name (h P).modelList).isSome = true) :
    ∃ hh, replace fuel P (some o) (some n) h = .throw .DevsGraphError hh ∧
      (hh P).modelList = mapErase (h o).name (h P).modelList ∧
      (∀ k, (k, o) ∉ (hh P).modelList) ∧
      (∀ c, inScope hh P c → ∀ q,
        outbound hh P c q = (outbound h P c q).filter (notAbout o) ∧
        inbound hh P c q = (inbound h P c q).filter (notAbout o)) ∧
      (∀ pl ∈ (h o).inPortList, hasSlot hh (.inP, n, pl.1)) ∧
      (∀ pl ∈ (h o).outPortList, hasSlot hh (.outP, n, pl.1)) ∧
      (hh n).parent = (h n).parent := by
  have hno : o ≠ n := fun e => hnS (e ▸ hsub.1)
  have hPn : P ≠ n := fun e => hnP e.symm
  obtain ⟨w1, s1⟩ := replace_inputs_written n (h o).inPortList h
  obtain ⟨w2, s2⟩ := replace_outputs_written n
    (replace.inputs n (h o).inPortList h o).outPortList (replace.inputs n (h o).inPortList h)
  obtain ⟨h2, e2⟩ : ∃ h2, h2 = replace.outputs n
    (replace.inputs n (h o).inPortList h o).outPortList (replace.inputs n (h o).inPortList h) :=
    ⟨_, rfl⟩
  rw [← e2] at w2 s2
  have w := w1.followed w2
  have ho1 : replace.inputs n (h o).inPortList h o = h o := w1.1 o hno
  rw [ho1] at s2
  have cP : h2 P = h P := w.1 P hPn
  have co : h2 o = h o := w.1 o hno
  have cS : ∀ x, S x → h2 x = h x := fun x hx => w.1 x (fun e => hnS (e ▸ hx))
  have cchild : ∀ kc ∈ (h P).modelList, h2 kc.2 = h kc.2 := fun kc hkc =>
    w.1 kc.2 (fun e => hnchild kc.1 (by rw [← e]; exact hkc))
  obtain ⟨h3, e3, p1, p2, p3, p4⟩ := delModel_returns fuel h2 P o S rank hoP
    (by rw [co, cP]; exact hchild) (by rw [cP]; exact hkeys)
    (by intro kc hkc; rw [cP] at hkc; rw [cchild kc hkc]; exact hnames kc hkc)
    (Mirror.of_same_cells (fun x hx => by
      rcases hx with e | ⟨k, hk⟩
      · rw [e]; exact cP
      · exact cchild _ hk) hmir)
    (hends.of_written w hno)
    ⟨hsub.1, fun x hx kc hkc => hsub.2.1 x hx kc (by rw [cS x hx] at hkc; exact hkc),
      fun x hx hxo pl hpl e he => hsub.2.2 x hx hxo pl (by rw [cS x hx] at hpl; exact hpl) e he⟩
    hSP
    (by intro kc hkc; rw [cP] at hkc; exact hsib kc hkc)
    (by
      intro x hx kc hkc
      rw [cS x hx] at hkc
      exact (hendsS x hx kc hkc).of_written w (fun e => hnS (e ▸ (hsub.2.1 x hx kc hkc).1)))
    (by intro x hx kc hkc; rw [cS x hx] at hkc; exact hrank x hx kc hkc)
    hfuel
  rw [co, cP] at p1
  have hname3 : (h3 n).name = (h n).name := by
    rcases delModel_fields fuel P o h2 h3 e3 with e | hf
    · rw [e]; exact w.2.1.1
    · rw [(hf n).1]; exact w.2.1.1
  have hpar3 : (h3 n).parent = (h n).parent := by
    rcases delModel_fields fuel P o h2 h3 e3 with e | hf
    · rw [e]; exact w.2.1.2.1
    · rw [(hf n).2.1]; exact w.2.1.2.1
  have hslot3 : ∀ s : Table × ModelId × String, s.2.1 = n → hasSlot h2 s → hasSlot h3 s := by
    intro s hs h2s
    have := p4 n hnS s.1 s.2.2
    simp only [hasSlot] at h2s ⊢
    rw [hs] at h2s
    rw [hs]
    cases h3t : table h3 s.1 n s.2.2 with
    | some l => rfl
    | none =>
      rw [h3t] at this
      cases h2t : table h2 s.1 n s.2.2 with
      | some l => rw [h2t] at this; simp at this
      | none => rw [h2t] at h2s; exact h2s
  have hex : exist h3 P (h3 n).name = true := by
    rw [hname3]
    unfold exist
    rw [p1]
    obtain ⟨c, hc⟩ := Option.isSome_iff_exists.1 hcol.2
    have hmem : ((h n).name, c) ∈ mapErase (h o).name (h P).modelList :=
      mem_mapErase_of_ne (mapFind_mem hc) hcol.1
    rw [mapFind_of_mem_nodup (nodup_keys_mapErase _ hkeys) hmem]
    rfl
  refine ⟨h3, ?_, p1, p2, fun c hc q => ?_, fun pl hpl => ?_, fun pl hpl => ?_, hpar3⟩
  · simp only [replace, ← e2, e3, Outcome.andThen, addModel, hex, if_true]
  · have hcc : h2 c = h c := by
      rcases hc with e | ⟨k, hk⟩
      · rw [e]; exact cP
      · rw [p1] at hk
        exact cchild _ (mem_mapErase hk)
    obtain ⟨a, b⟩ := outbound_inbound_of_same_cells cP hcc q
    rw [← a, ← b]
    exact p3 c hc q
  · exact hslot3 _ rfl (w2.2.2 _ (s1 pl hpl))
  · exact hslot3 _ rfl (s2 pl hpl)

theorem clashHeap_endpoints : EndpointsExist clashHeap 0 1 := by
  constructor
  · intro pl hpl e he
    simp [clashHeap, chainHeap] at hpl
    subst hpl
    simp at he
    subst he
    unfold hasSlot
    decide
  · intro pl hpl e he
    simp [clashHeap, chainHeap] at hpl
    subst hpl
    simp at he
    subst he
    unfold hasSlot
    decide

theorem replace_name_collision_witness :
    ∃ hh, replace 1 0 (some 1) (some 3) clashHeap = .throw .DevsGraphError hh ∧
      (hh 0).modelList = mapErase (clashHeap 1).name (clashHeap 0).modelList ∧
      (∀ k, (k, 1) ∉ (hh 0).modelList) ∧
      (∀ c, inScope hh 0 c → ∀ q,
        outbound hh 0 c q = (outbound clashHeap 0 c q).filter (notAbout 1) ∧
        inbound hh 0 c q = (inbound clashHeap 0 c q).filter (notAbout 1)) ∧
      (∀ pl ∈ (clashHeap 1).inPortList, hasSlot hh (.inP, 3, pl.1)) ∧
      (∀ pl ∈ (clashHeap 1).outPortList, hasSlot hh (.outP, 3, pl.1)) ∧
      (hh 3).parent = (clashHeap 3).parent :=
  replace_name_collision 1 clashHeap 0 1 3 (fun x => x = 1) (fun _ => 0)
    (by decide) (by decide) (by decide) (by decide)
    (Mirror.of_same_cells (fun x hx => by
      rcases hx with e | ⟨k, hk⟩
      · subst e; rfl
      · have : k = "a" ∧ x = 1 ∨ k = "b" ∧ x = 2 := by simpa [chainHeap] using hk
        rcases this with ⟨_, e⟩ | ⟨_, e⟩ <;> subst e <;> rfl) chainHeap_mirror)
    clashHeap_endpoints
    ⟨rfl, fun x hx => by subst hx; intro kc hkc; simp [clashHeap, chainHeap] at hkc,
      fun x hx hne => absurd hx hne⟩
    (by decide) (fun kc _ hne => hne)
    (fun x hx => by subst hx; intro kc hkc; simp [clashHeap, chainHeap] at hkc)
    (fun x hx => by subst hx; intro kc hkc; simp [clashHeap, chainHeap] at hkc)
    (by decide) (by decide) (by decide)
    (fun k hk => by simp [clashHeap, chainHeap] at hk)
    ⟨by decide, by decide⟩

/-! ## Adding a connection and removing it again -/

theorem table_twoWrites (f : ModelPortList → ModelId → String → ModelPortList) (h : Heap)
    (s1 s2 : Table × ModelId × String) (e1 e2 : ModelId × String) (hne : s1 ≠ s2)
    (t : Table) (x : ModelId) (r : String) :
    table (twoWrites f h s1 e1 s2 e2) t x r =
      if (t, x, r) = s1 then (table h t x r).map (fun l => f l e1.1 e1.2)
      else if (t, x, r) = s2 then (table h t x r).map (fun l => f l e2.1 e2.2)
      else table h t x r := by
  simp only [twoWrites, table_modTable]
  by_cases c1 : (t, x, r) = s1
  · have c2 : (t, x, r) ≠ s2 := fun e => hne (c1.symm.trans e)
    simp [c1, c2]
    intro e; exact absurd e hne
  · by_cases c2 : (t, x, r) = s2
    · have hne' : s2 ≠ s1 := fun e => hne e.symm
      simp [c2, hne']
    · simp [c1, c2]

theorem fields_twoWrites (f : ModelPortList → ModelId → String → ModelPortList) (h : Heap)
    (s1 s2 : Table × ModelId × String) (e1 e2 : ModelId × String) (x : ModelId) :
    (twoWrites f h s1 e1 s2 e2 x).name = (h x).name ∧
      (twoWrites f h s1 e1 s2 e2 x).modelList = (h x).modelList := by
  obtain ⟨a1, _, _, a4⟩ := fields_modTable (modTable h s1 (fun l => f l e1.1 e1.2)) s2
    (fun l => f l e2.1 e2.2) x
  obtain ⟨b1, _, _, b4⟩ := fields_modTable h s1 (fun l => f l e1.1 e1.2) x
  exact ⟨a1.trans b1, a4.trans b4⟩

theorem erase_append_self_perm (l : ModelPortList) (e : ModelId × String) :
    List.Perm ((l ++ [e]).erase e) l := by
  induction l with
  | nil => simp
  | cons a l ih =>
    rw [List.cons_append, List.erase_cons]
    by_cases hae : a = e
    · subst hae
      simp only [beq_self_eq_true, if_true]
      exact List.perm_append_singleton a l
    · have : (a == e) = false := by simpa using hae
      simp only [this]
      exact List.Perm.cons a ih

/-- Adding an entry to the lists in two slots and removing it again. -/
theorem twoWrites_round_trip (h : Heap) (s1 s2 : Table × ModelId × String)
    (e1 e2 : ModelId × String) (l1 l2 : ModelPortList) (hne : s1 ≠ s2)
    (h1 : table h s1.1 s1.2.1 s1.2.2 = some l1) (h2 : table h s2.1 s2.2.1 s2.2.2 = some l2) :
    table (twoWrites ModelPortList.add h s1 e1 s2 e2) s1.1 s1.2.1 s1.2.2 = some (l1 ++ [e1]) ∧
    table (twoWrites ModelPortList.add h s1 e1 s2 e2) s2.1 s2.2.1 s2.2.2 = some (l2 ++ [e2]) ∧
    table (twoWrites ModelPortList.remove (twoWrites ModelPortList.add h s1 e1 s2 e2)
      s1 e1 s2 e2) s1.1 s1.2.1 s1.2.2 = some ((l1 ++ [e1]).erase e1) ∧
    table (twoWrites ModelPortList.remove (twoWrites ModelPortList.add h s1 e1 s2 e2)
      s1 e1 s2 e2) s2.1 s2.2.1 s2.2.2 = some ((l2 ++ [e2]).erase e2) ∧
    SameLists h (twoWrites ModelPortList.remove (twoWrites ModelPortList.add h s1 e1 s2 e2)
      s1 e1 s2 e2) := by
  have hne' : s2 ≠ s1 := fun e => hne e.symm
  refine ⟨?_, ?_, ?_, ?_, ?_⟩
  · rw [table_twoWrites _ _ _ _ _ _ hne]
    simp [h1, ModelPortList.add]
  · rw [table_twoWrites _ _ _ _ _ _ hne]
    simp [h2, hne', ModelPortList.add]
  · rw [table_twoWrites _ _ _ _ _ _ hne, table_twoWrites _ _ _ _ _ _ hne]
    simp [h1, ModelPortList.add, ModelPortList.remove]
  · rw [table_twoWrites _ _ _ _ _ _ hne, table_twoWrites _ _ _ _ _ _ hne]
    simp [h2, hne', ModelPortList.add, ModelPortList.remove]
  · intro t x r
    rw [table_twoWrites _ _ _ _ _ _ hne, table_twoWrites _ _ _ _ _ _ hne]
    by_cases c1 : (t, x, r) = s1
    · right
      subst c1
      simp only at h1
      refine ⟨l1, (l1 ++ [e1]).erase e1, h1, ?_, erase_append_self_perm l1 e1⟩
      simp [h1, ModelPortList.add, ModelPortList.remove]
    · by_cases c2 : (t, x, r) = s2
      · right
        subst c2
        simp only at h2
        refine ⟨l2, (l2 ++ [e2]).erase e2, h2, ?_, erase_append_self_perm l2 e2⟩
        simp [h2, c1, ModelPortList.add, ModelPortList.remove]
      · simp only [c1, c2, if_false]
        cases hh : table h t x r with
        | none => exact Or.inl ⟨rfl, rfl⟩
        | some l => exact Or.inr ⟨l, l, rfl, rfl, List.Perm.refl l⟩
theorem addInternalConnection_total {h : Heap} {P s d : ModelId} {p q : String}
    {l1 l2 : ModelPortList} (hsP : s ≠ P) (hdP : d ≠ P)
    (hp : outPort h s p = some l1) (hq : inPort h d q = some l2) :
    addInternalConnection P (some s) p (some d) q h
      = .ok () (twoWrites ModelPortList.add h (.outP, s, p) (d, q) (.inP, d, q) (s, p)) := by
  have hq1 : inPort (modOutPort h s p (fun outs => outs.add d q)) d q = some l2 := by
    have := table_modTable h (.outP, s, p) (fun outs => outs.add d q) .inP d q
    simpa [table, modTable, hq] using this
  simp only [addInternalConnection, hsP, hdP, or_self, if_false, getOutPort, hp, getInPort, hq1]
  rfl

theorem delInternalConnection_total {h : Heap} {P s d : ModelId} {p q : String}
    {l1 l2 : ModelPortList} (hsP : s ≠ P) (hdP : d ≠ P)
    (hp : outPort h s p = some l1) (hq : inPort h d q = some l2) :
    delInternalConnection P (some s) p (some d) q h
      = .ok () (twoWrites ModelPortList.remove h (.outP, s, p) (d, q) (.inP, d, q) (s, p)) := by
  have hq1 : inPort (modOutPort h s p (fun outs => outs.remove d q)) d q = some l2 := by
    have := table_modTable h (.outP, s, p) (fun outs => outs.remove d q) .inP d q
    simpa [table, modTable, hq] using this
  simp only [delInternalConnection, hsP, hdP, or_self, if_false, getOutPort, hp, getInPort, hq1]
  rfl

theorem addInputConnection_total {h : Heap} {P d : ModelId} {p q : String}
    {l1 l2 : ModelPortList} (hdP : d ≠ P)
    (hp : internalInPort h P p = some l1) (hq : inPort h d q = some l2) :
    addInputConnection P p (some d) q h
      = .ok () (twoWrites ModelPortList.add h (.internalIn, P, p) (d, q) (.inP, d, q) (P, p)) := by
  have hq1 : inPort (modInternalInPort h P p (fun outs => outs.add d q)) d q = some l2 := by
    have := table_modTable h (.internalIn, P, p) (fun outs => outs.add d q) .inP d q
    simpa [table, modTable, hq] using this
  have hp' : mapFind p (h P).internalInputList = some l1 := hp
  simp only [addInputConnection, hdP, if_false, getInternalInPort, hp', getInPort, hq1]
  rfl

theorem delInputConnection_total {h : Heap} {P d : ModelId} {p q : String}
    {l1 l2 : ModelPortList} (hdP : d ≠ P)
    (hp : internalInPort h P p = some l1) (hq : inPort h d q = some l2) :
    delInputConnection P p (some d) q h
      = .ok () (twoWrites ModelPortList.remove h (.internalIn, P, p) (d, q) (.inP, d, q)
          (P, p)) := by
  have hq1 : inPort (modInternalInPort h P p (fun outs => outs.remove d q)) d q = some l2 := by
    have := table_modTable h (.internalIn, P, p) (fun outs => outs.remove d q) .inP d q
    simpa [table, modTable, hq] using this
  have hp' : mapFind p (h P).internalInputList = some l1 := hp
  simp only [delInputConnection, hdP, if_false, getInternalInPort, hp', getInPort, hq1]
  rfl

theorem addOutputConnection_total {h : Heap} {P s : ModelId} {p q : String}
    {l1 l2 : ModelPortList} (hsP : s ≠ P)
    (hp : outPort h s p = some l1) (hq : internalOutPort h P q = some l2) :
    addOutputConnection P (some s) p q h
      = .ok () (twoWrites ModelPortList.add h (.outP, s, p) (P, q) (.internalOut, P, q)
          (s, p)) := by
  have hq1 : mapFind q (modOutPort h s p (fun outs => outs.add P q) P).internalOutputList
      = some l2 := by
    have := table_modTable h (.outP, s, p) (fun outs => outs.add P q) .internalOut P q
    have hq' : mapFind q (h P).internalOutputList = some l2 := hq
    simpa [table, modTable, internalOutPort, hq'] using this
  simp only [addOutputConnection, hsP, if_false, getOutPort, hp, getInternalOutPort, hq1]
  rfl

theorem delOutputConnection_total {h : Heap} {P s : ModelId} {p q : String}
    {l1 l2 : ModelPortList} (hsP : s ≠ P)
    (hp : outPort h s p = some l1) (hq : internalOutPort h P q = some l2) :
    delOutputConnection P (some s) p q h
      = .ok () (twoWrites ModelPortList.remove h (.outP, s, p) (P, q) (.internalOut, P, q)
          (s, p)) := by
  have hq1 : mapFind q (modOutPort h s p (fun outs => outs.remove P q) P).internalOutputList
      = some l2 := by
    have := table_modTable h (.outP, s, p) (fun outs => outs.remove P q) .internalOut P q
    have hq' : mapFind q (h P).internalOutputList = some l2 := hq
    simpa [table, modTable, internalOutPort, hq'] using this
  simp only [delOutputConnection, hsP, if_false, getOutPort, hp, getInternalOutPort, hq1]
  rfl

theorem existInternalConnection_eq {h : Heap} {P s d : ModelId} {sn dn p q : String}
    {l1 l2 : ModelPortList} (hs : findModel h P sn = some s) (hd : findModel h P dn = some d)
    (hp : outPort h s p = some l1) (hq : inPort h d q = some l2) :
    existInternalConnection h P sn p dn q
      = .ok (decide ((d, q) ∈ l1) && decide ((s, p) ∈ l2)) := by
  simp only [existInternalConnection, hs, hd, existOutputPort, existInputPort, hp, hq,
    getOutPort, getInPort, ModelPortList.exist]
  by_cases a : (d, q) ∈ l1 <;> by_cases b : (s, p) ∈ l2 <;> simp [a, b]

theorem existInputConnection_eq {h : Heap} {P d : ModelId} {dn p q : String}
    {l1 l2 : ModelPortList} (hd : findModel h P dn = some d)
    (hp : internalInPort h P p = some l1) (hq : inPort h d q = some l2) :
    existInputConnection h P p dn q
      = .ok (decide ((d, q) ∈ l1) && decide ((P, p) ∈ l2)) := by
  have hp' : mapFind p (h P).internalInputList = some l1 := hp
  simp only [existInputConnection, hd, existInternalInputPort, existInputPort, hp, hq,
    getInternalInPort, hp', getInPort, ModelPortList.exist]
  by_cases a : (d, q) ∈ l1 <;> by_cases b : (P, p) ∈ l2 <;> simp [a, b]

theorem existOutputConnection_eq {h : Heap} {P s : ModelId} {sn p q : String}
    {l1 l2 : ModelPortList} (hs : findModel h P sn = some s)
    (hp : outPort h s p = some l1) (hq : internalOutPort h P q = some l2) :
    existOutputConnection h P sn p q
      = .ok (decide ((P, q) ∈ l1) && decide ((s, p) ∈ l2)) := by
  have hq' : mapFind q (h P).internalOutputList = some l2 := hq
  simp only [existOutputConnection, hs, existInternalOutputPort, existOutputPort, hp, hq,
    getInternalOutPort, hq', getOutPort, ModelPortList.exist]
  by_cases a : (P, q) ∈ l1 <;> by_cases b : (s, p) ∈ l2 <;> simp [a, b]
/-- Round trip for an operation pair that performs the two writes on slots
`s1` and `s2`, and a test that looks the entries up in these two slots. -/
theorem roundTrip_of_twoWrites (ex : Heap → Except Error Bool) (add del : Heap → Outcome Unit)
    (h : Heap) (s1 s2 : Table × ModelId × String) (e1 e2 : ModelId × String)
    (l1 l2 : ModelPortList) (hne : s1 ≠ s2)
    (h1 : table h s1.1 s1.2.1 s1.2.2 = some l1) (h2 : table h s2.1 s2.2.1 s2.2.2 = some l2)
    (habs : ¬ (e1 ∈ l1 ∧ e2 ∈ l2))
    (hex : ∀ g m1 m2, table g s1.1 s1.2.1 s1.2.2 = some m1 →
      table g s2.1 s2.2.1 s2.2.2 = some m2 →
      (∀ x, (g x).name = (h x).name ∧ (g x).modelList = (h x).modelList) →
      ex g = .ok (decide (e1 ∈ m1) && decide (e2 ∈ m2)))
    (hadd : ∀ g m1 m2, table g s1.1 s1.2.1 s1.2.2 = some m1 →
      table g s2.1 s2.2.1 s2.2.2 = some m2 →
      (∀ x, (g x).name = (h x).name ∧ (g x).modelList = (h x).modelList) →
      add g = .ok () (twoWrites ModelPortList.add g s1 e1 s2 e2))
    (hdel : ∀ g m1 m2, table g s1.1 s1.2.1 s1.2.2 = some m1 →
      table g s2.1 s2.2.1 s2.2.2 = some m2 →
      (∀ x, (g x).name = (h x).name ∧ (g x).modelList = (h x).modelList) →
      del g = .ok () (twoWrites ModelPortList.remove g s1 e1 s2 e2)) :
    RoundTrip ex add del h := by
  obtain ⟨t1, t2, t3, t4, sl⟩ := twoWrites_round_trip h s1 s2 e1 e2 l1 l2 hne h1 h2
  have f1 : ∀ x, (twoWrites ModelPortList.add h s1 e1 s2 e2 x).name = (h x).name ∧
      (twoWrites ModelPortList.add h s1 e1 s2 e2 x).modelList = (h x).modelList :=
    fun x => fields_twoWrites _ h s1 s2 e1 e2 x
  have f2 : ∀ x, (twoWrites ModelPortList.remove (twoWrites ModelPortList.add h s1 e1 s2 e2)
        s1 e1 s2 e2 x).name = (h x).name ∧
      (twoWrites ModelPortList.remove (twoWrites ModelPortList.add h s1 e1 s2 e2)
        s1 e1 s2 e2 x).modelList = (h x).modelList := by
    intro x
    obtain ⟨a, b⟩ := fields_twoWrites ModelPortList.remove
      (twoWrites ModelPortList.add h s1 e1 s2 e2) s1 s2 e1 e2 x
    exact ⟨a.trans (f1 x).1, b.trans (f1 x).2⟩
  refine ⟨?_, _, hadd h l1 l2 h1 h2 (fun _ => ⟨rfl, rfl⟩), ?_, _, hdel _ _ _ t1 t2 f1, ?_, sl⟩
  · rw [hex h l1 l2 h1 h2 (fun _ => ⟨rfl, rfl⟩)]
    by_cases a : e1 ∈ l1 <;> by_cases b : e2 ∈ l2 <;> simp [a, b]
    exact habs ⟨a, b⟩
  · rw [hex _ _ _ t1 t2 f1]
    simp
  · rw [hex _ _ _ t3 t4 f2]
    have m1 := (erase_append_self_perm l1 e1).mem_iff (a := e1)
    have m2 := (erase_append_self_perm l2 e2).mem_iff (a := e2)
    by_cases a : e1 ∈ l1 <;> by_cases b : e2 ∈ l2
    · exact absurd ⟨a, b⟩ habs
    · have : e2 ∉ (l2 ++ [e2]).erase e2 := fun hm => b (m2.1 hm)
      simp [this]
    · have : e1 ∉ (l1 ++ [e1]).erase e1 := fun hm => a (m1.1 hm)
      simp [this]
    · have : e1 ∉ (l1 ++ [e1]).erase e1 := fun hm => a (m1.1 hm)
      simp [this]

theorem getModel_of_fields {h g : Heap} {P c : ModelId} {name : String}
    (hf : ∀ x, (g x).name = (h x).name ∧ (g x).modelList = (h x).modelList)
    (hc : findModel h P name = some c) (hn : (h P).name ≠ name) :
    findModel g P name = some c ∧ getModel g P name = some c := by
  have e1 : findModel g P name = some c := by
    simp only [findModel, (hf P).2]
    exact hc
  refine ⟨e1, ?_⟩
  simp only [getModel, (hf P).1, hn, if_false]
  exact e1

/-- Claim C20, the claim as stated does not hold: in `sameNameHeap` the first child
of `top` is itself named `top`.  Its output port `out` and the input port `in`
of the child `b` exist and are not connected, but the name-based
`addInternalConnection("top", "out", "b", "in")` on `top` throws, because the
name `top` is resolved to the coupled model itself. -/
theorem addConnection_to_namesake_fails :
    findModel sameNameHeap 0 "top" = some 1 ∧ findModel sameNameHeap 0 "b" = some 2 ∧
    outPort sameNameHeap 1 "out" = some [] ∧ inPort sameNameHeap 2 "in" = some [] ∧
    existInternalConnection sameNameHeap 0 "top" "out" "b" "in" = .ok false ∧
    addInternalConnectionByName 0 "top" "out" "b" "in" sameNameHeap
      = .throw .DevsGraphError sameNameHeap ∧
    ¬ RoundTrip (fun g => existInternalConnection g 0 "top" "out" "b" "in")
      (addInternalConnectionByName 0 "top" "out" "b" "in")
      (delInternalConnectionByName 0 "top" "out" "b" "in") sameNameHeap := by
  refine ⟨by decide, by decide, by decide, by decide, rfl, rfl, ?_⟩
  rintro ⟨_, h1, e, _⟩
  have : addInternalConnectionByName 0 "top" "out" "b" "in" sameNameHeap
      = .throw .DevsGraphError sameNameHeap := rfl
  rw [this] at e
  cases e

/-- Claim C20, amended.  Let `src` and `dst` be children of `P` other than `P`
itself, found under the names `sn` and `dn`, both different from the name of
`P`.  For an existing output port `p` of `src` and input port `q` of `dst` that
are not connected (the two mirror entries are not both present), the test
`existInternalConnection` is false; the name-based `addInternalConnection`
returns and the test is true; the name-based `delInternalConnection` then
returns and the test is false again, every port list being a permutation of
what it was before the add.  The same holds for the input triple (internal
input list `p` of `P`, input port `q` of `dst`) and for the output triple
(output port `p` of `src`, internal output list `q` of `P`). -/
theorem connection_round_trip (h : Heap) (P : ModelId) (sn dn : String) (s d : ModelId)
    (p q : String)
    (hs : findModel h P sn = some s) (hd : findModel h P dn = some d)
    (hsn : (h P).name ≠ sn) (hdn : (h P).name ≠ dn) (hsP : s ≠ P) (hdP : d ≠ P) :
    (∀ l1 l2, outPort h s p = some l1 → inPort h d q = some l2 →
      ¬ ((d, q) ∈ l1 ∧ (s, p) ∈ l2) →
      RoundTrip (fun g => existInternalConnection g P sn p dn q)
        (addInternalConnectionByName P sn p dn q)
        (delInternalConnectionByName P sn p dn q) h) ∧
    (∀ l1 l2, internalInPort h P p = some l1 → inPort h d q = some l2 →
      ¬ ((d, q) ∈ l1 ∧ (P, p) ∈ l2) →
      RoundTrip (fun g => existInputConnection g P p dn q)
        (addInputConnectionByName P p dn q)
        (delInputConnectionByName P p dn q) h) ∧
    (∀ l1 l2, outPort h s p = some l1 → internalOutPort h P q = some l2 →
      ¬ ((P, q) ∈ l1 ∧ (s, p) ∈ l2) →
      RoundTrip (fun g => existOutputConnection g P sn p q)
        (addOutputConnectionByName P sn p q)
        (delOutputConnectionByName P sn p q) h) := by
  refine ⟨fun l1 l2 hp hq habs => ?_, fun l1 l2 hp hq habs => ?_, fun l1 l2 hp hq habs => ?_⟩
  · refine roundTrip_of_twoWrites _ _ _ h (.outP, s, p) (.inP, d, q) (d, q) (s, p) l1 l2
      (by simp) hp hq habs ?_ ?_ ?_
    · intro g m1 m2 g1 g2 hf
      exact existInternalConnection_eq (getModel_of_fields hf hs hsn).1
        (getModel_of_fields hf hd hdn).1 g1 g2
    · intro g m1 m2 g1 g2 hf
      simp only [addInternalConnectionByName, (getModel_of_fields hf hs hsn).2,
        (getModel_of_fields hf hd hdn).2]
      exact addInternalConnection_total hsP hdP g1 g2
    · intro g m1 m2 g1 g2 hf
      simp only [delInternalConnectionByName, (getModel_of_fields hf hs hsn).2,
        (getModel_of_fields hf hd hdn).2]
      exact delInternalConnection_total hsP hdP g1 g2
  · refine roundTrip_of_twoWrites _ _ _ h (.internalIn, P, p) (.inP, d, q) (d, q) (P, p) l1 l2
      (by simp) hp hq habs ?_ ?_ ?_
    · intro g m1 m2 g1 g2 hf
      exact existInputConnection_eq (getModel_of_fields hf hd hdn).1 g1 g2
    · intro g m1 m2 g1 g2 hf
      simp only [addInputConnectionByName, (getModel_of_fields hf hd hdn).2]
      exact addInputConnection_total hdP g1 g2
    · intro g m1 m2 g1 g2 hf
      simp only [delInputConnectionByName, (getModel_of_fields hf hd hdn).2]
      exact delInputConnection_total hdP g1 g2
  · refine roundTrip_of_twoWrites _ _ _ h (.outP, s, p) (.internalOut, P, q) (P, q) (s, p) l1 l2
      (by simp) hp hq habs ?_ ?_ ?_
    · intro g m1 m2 g1 g2 hf
      exact existOutputConnection_eq (getModel_of_fields hf hs hsn).1 g1 g2
    · intro g m1 m2 g1 g2 hf
      simp only [addOutputConnectionByName, (getModel_of_fields hf hs hsn).2]
      exact addOutputConnection_total hsP g1 g2
    · intro g m1 m2 g1 g2 hf
      simp only [delOutputConnectionByName, (getModel_of_fields hf hs hsn).2]
      exact delOutputConnection_total hsP g1 g2

theorem connection_round_trip_witness :
    RoundTrip (fun g => existInternalConnection g 0 "a" "out" "b" "in")
      (addInternalConnectionByName 0 "a" "out" "b" "in")
      (delInternalConnectionByName 0 "a" "out" "b" "in") exampleHeap ∧
    RoundTrip (fun g => existInputConnection g 0 "in" "b" "in")
      (addInputConnectionByName 0 "in" "b" "in")
      (delInputConnectionByName 0 "in" "b" "in") exampleHeap ∧
    RoundTrip (fun g => existOutputConnection g 0 "a" "out" "out")
      (addOutputConnectionByName 0 "a" "out" "out")
      (delOutputConnectionByName 0 "a" "out" "out") exampleHeap :=
  ⟨(connection_round_trip exampleHeap 0 "a" "b" 1 2 "out" "in" (by decide) (by decide)
      (by decide) (by decide) (by decide) (by decide)).1 [] [] (by decide) (by decide)
      (by simp),
   (connection_round_trip exampleHeap 0 "a" "b" 1 2 "in" "in" (by decide) (by decide)
      (by decide) (by decide) (by decide) (by decide)).2.1 [] [] (by decide) (by decide)
      (by simp),
   (connection_round_trip exampleHeap 0 "a" "b" 1 2 "out" "out" (by decide) (by decide)
      (by decide) (by decide) (by decide) (by decide)).2.2 [] [] (by decide) (by decide)
      (by simp)⟩

/-! ## `buildNewName` -/

theorem buildNewName_loop_of_free (h : Heap) (P : ModelId) (name : String) (fuel : Nat)
    (hfree : exist h P name = false) :
    buildNewName.loop h P name (fuel + 1) 0 = .name (name ++ "-" ++ toString 0) := by
  simp [buildNewName.loop, hfree, INT_MAX]

theorem buildNewName_loop_of_taken (h : Heap) (P : ModelId) (name : String)
    (htaken : exist h P name = true) (fuel i : Nat) (s : String) :
    buildNewName.loop h P name fuel i ≠ .name s := by
  induction fuel generalizing i with
  | zero => simp [buildNewName.loop]
  | succ fuel ih =>
    simp only [buildNewName.loop, htaken, if_true]
    split
    · simp
    · exact ih (i + 1)

theorem buildNewName_loop_overflows (h : Heap) (P : ModelId) (name : String)
    (htaken : exist h P name = true) (fuel i : Nat) (hi : i ≤ INT_MAX)
    (hfuel : INT_MAX - i < fuel) : buildNewName.loop h P name fuel i = .overflow := by
  induction fuel generalizing i with
  | zero => omega
  | succ fuel ih =>
    simp only [buildNewName.loop, htaken, if_true]
    split
    · rfl
    · rename_i hne
      exact ih (i + 1) (by omega) (by omega)

/-- Claim C22, the code does not do this: the coupled model `top` of
`takenNameHeap` has a child named `p-0` and no child named `p`.  With any
budget of at least one iteration `buildNewName("p")` returns `p-0`, the name
of that child, and `addAtomicModel("p-0")` then fails on the duplicate name. -/
theorem buildNewName_returns_taken_name :
    ∀ fuel, buildNewName (fuel + 1) takenNameHeap 0 "p" = .name "p-0" ∧
      findModel takenNameHeap 0 "p-0" = some 1 ∧ (takenNameHeap 1).name = "p-0" ∧
      addAtomicModel 0 "p-0" 2 takenNameHeap = .throw .DevsGraphError takenNameHeap := by
  intro fuel
  refine ⟨?_, by decide, by decide, rfl⟩
  have h1 : (("p" : String).isEmpty) = false := by decide
  simp only [buildNewName, h1, Bool.false_eq_true, if_false]
  rw [buildNewName_loop_of_free takenNameHeap 0 "p" fuel (by decide)]
  decide

/-- Claim C23, the code does not do this: the coupled model `top` of
`exampleHeap` has a child named `a`; a second coupled model is given a single
child named `runtimebuilding`.  Whatever the budget of iterations,
`buildNewName("a")` on the first and `buildNewName("")` on the second do not
return a name: the loop goes on until the counter
overflows, which a budget of `INT_MAX + 1` iterations reaches. -/
theorem buildNewName_never_returns :
    exist exampleHeap 0 "a" = true ∧
    (∀ fuel s, buildNewName fuel exampleHeap 0 "a" ≠ .name s) ∧
    (∀ fuel s, buildNewName fuel
      (Function.update loneHeap 0 { loneHeap 0 with modelList := [("runtimebuilding", 1)] })
      0 "" ≠ .name s) ∧
    buildNewName (INT_MAX + 1) exampleHeap 0 "a" = .overflow := by
  refine ⟨by decide, fun fuel s => ?_, fun fuel s => ?_, ?_⟩
  · have h1 : (("a" : String).isEmpty) = false := by decide
    simp only [buildNewName, h1, Bool.false_eq_true, if_false]
    exact buildNewName_loop_of_taken exampleHeap 0 "a" (by decide) fuel 0 s
  · have h1 : (("" : String).isEmpty) = true := by decide
    simp only [buildNewName, h1, if_true]
    exact buildNewName_loop_of_taken _ 0 "runtimebuilding" (by decide) fuel 0 s
  · have h1 : (("a" : String).isEmpty) = false := by decide
    simp only [buildNewName, h1, Bool.false_eq_true, if_false]
    exact buildNewName_loop_overflows exampleHeap 0 "a" (by decide) _ 0 (Nat.zero_le _)
      (by omega)
/-! ## Resolving a model name -/

/-- Claim C24, the claim as stated does not hold: in `sameNameHeap` the name
`top` is the name of a child of the coupled model `top` (the model at address
1, which `findModel` returns), but `getModel("top")` returns the coupled model
itself. -/
theorem getModel_prefers_self :
    (sameNameHeap 0).name = "top" ∧ (sameNameHeap 1).name = "top" ∧
    findModel sameNameHeap 0 "top" = some 1 ∧ getModel sameNameHeap 0 "top" = some 0 := by
  decide

/-- Claim C24, amended.  For every name `n` other than the name of `P` itself,
`getModel(n)` on `P` returns what `findModel(n)` returns, so a child `c` found
under `n` is resolved to `c` and the name-based `add...Connection` and
`del...Connection` are the pointer-based ones applied to that child; for the
name of `P` itself `getModel` returns `P`, whether or not a child bears that
name. -/
theorem getModel_resolves_other_names (h : Heap) (P : ModelId) (n : String) :
    ((h P).name ≠ n →
      getModel h P n = findModel h P n ∧
      ∀ c, findModel h P n = some c →
        getModel h P n = some c ∧
        (∀ p q, addInputConnectionByName P p n q h = addInputConnection P p (some c) q h) ∧
        (∀ p q, addOutputConnectionByName P n p q h = addOutputConnection P (some c) p q h) ∧
        (∀ p q, delInputConnectionByName P p n q h = delInputConnection P p (some c) q h) ∧
        (∀ p q, delOutputConnectionByName P n p q h = delOutputConnection P (some c) p q h) ∧
        (∀ n2 d p q, (h P).name ≠ n2 → findModel h P n2 = some d →
          addInternalConnectionByName P n p n2 q h
            = addInternalConnection P (some c) p (some d) q h ∧
          delInternalConnectionByName P n p n2 q h
            = delInternalConnection P (some c) p (some d) q h)) ∧
    ((h P).name = n → getModel h P n = some P) := by
  refine ⟨fun hn => ⟨by simp [getModel, hn], fun c hc => ?_⟩, fun hn => by simp [getModel, hn]⟩
  have hg : getModel h P n = some c := by simp [getModel, hn, hc]
  refine ⟨hg, ?_, ?_, ?_, ?_, ?_⟩
  · intro p q; simp [addInputConnectionByName, hg]
  · intro p q; simp [addOutputConnectionByName, hg]
  · intro p q; simp [delInputConnectionByName, hg]
  · intro p q; simp [delOutputConnectionByName, hg]
  · intro n2 d p q hn2 hd
    have hg2 : getModel h P n2 = some d := by simp [getModel, hn2, hd]
    simp [addInternalConnectionByName, delInternalConnectionByName, hg, hg2]

theorem getModel_resolves_other_names_witness :
    (getModel exampleHeap 0 "a" = findModel exampleHeap 0 "a" ∧
      ∀ c, findModel exampleHeap 0 "a" = some c →
        getModel exampleHeap 0 "a" = some c ∧
        (∀ p q, addInputConnectionByName 0 p "a" q exampleHeap
          = addInputConnection 0 p (some c) q exampleHeap) ∧
        (∀ p q, addOutputConnectionByName 0 "a" p q exampleHeap
          = addOutputConnection 0 (some c) p q exampleHeap) ∧
        (∀ p q, delInputConnectionByName 0 p "a" q exampleHeap
          = delInputConnection 0 p (some c) q exampleHeap) ∧
        (∀ p q, delOutputConnectionByName 0 "a" p q exampleHeap
          = delOutputConnection 0 (some c) p q exampleHeap) ∧
        (∀ n2 d p q, (exampleHeap 0).name ≠ n2 → findModel exampleHeap 0 n2 = some d →
          addInternalConnectionByName 0 "a" p n2 q exampleHeap
            = addInternalConnection 0 (some c) p (some d) q exampleHeap ∧
          delInternalConnectionByName 0 "a" p n2 q exampleHeap
            = delInternalConnection 0 (some c) p (some d) q exampleHeap)) ∧
    getModel exampleHeap 0 "top" = some 0 ∧ getModel exampleHeap 0 "a" = some 1 :=
  ⟨(getModel_resolves_other_names exampleHeap 0 "a").1 (by decide),
   (getModel_resolves_other_names exampleHeap 0 "top").2 (by decide), by decide⟩
/-! ## The connection tests -/

/-- Claim C25.  For all arguments each of `existInternalConnection`,
`existInputConnection` and `existOutputConnection` returns a truth value
without raising, and the value is true exactly when the named models are
children of the coupled model, the port exists on either side, and both mirror
entries are present: the list of the source side holds the destination and
the list of the destination side holds the source. -/
theorem existConnection_exact (h : Heap) (P : ModelId) (a p b q : String) :
    (∃ r, existInternalConnection h P a p b q = .ok r ∧
      (r = true ↔ ∃ s d l1 l2, findModel h P a = some s ∧ findModel h P b = some d ∧
        outPort h s p = some l1 ∧ inPort h d q = some l2 ∧ (d, q) ∈ l1 ∧ (s, p) ∈ l2)) ∧
    (∃ r, existInputConnection h P p b q = .ok r ∧
      (r = true ↔ ∃ d l1 l2, findModel h P b = some d ∧
        internalInPort h P p = some l1 ∧ inPort h d q = some l2 ∧
        (d, q) ∈ l1 ∧ (P, p) ∈ l2)) ∧
    (∃ r, existOutputConnection h P a p q = .ok r ∧
      (r = true ↔ ∃ s l1 l2, findModel h P a = some s ∧
        outPort h s p = some l1 ∧ internalOutPort h P q = some l2 ∧
        (P, q) ∈ l1 ∧ (s, p) ∈ l2)) := by
  refine ⟨?_, ?_, ?_⟩
  · cases hs : findModel h P a with
    | none => exact ⟨false, by simp [existInternalConnection, hs], by simp⟩
    | some s =>
      cases hd : findModel h P b with
      | none => exact ⟨false, by simp [existInternalConnection, hs, hd], by simp⟩
      | some d =>
        cases hp : outPort h s p with
        | none =>
          exact ⟨false, by simp [existInternalConnection, hs, hd, existOutputPort, hp],
            by simp [hp]⟩
        | some l1 =>
          cases hq : inPort h d q with
          | none =>
            exact ⟨false,
              by simp [existInternalConnection, hs, hd, existOutputPort, existInputPort, hp, hq],
              by simp [hp, hq]⟩
          | some l2 =>
            refine ⟨_, existInternalConnection_eq hs hd hp hq, ?_⟩
            simp [hp, hq]
  · cases hd : findModel h P b with
    | none => exact ⟨false, by simp [existInputConnection, hd], by simp⟩
    | some d =>
      cases hq : inPort h d q with
      | none =>
        exact ⟨false, by simp [existInputConnection, hd, existInputPort, hq], by simp [hq]⟩
      | some l2 =>
        cases hp : internalInPort h P p with
        | none =>
          exact ⟨false,
            by simp [existInputConnection, hd, existInputPort, existInternalInputPort, hp, hq],
            by simp [hp, hq]⟩
        | some l1 =>
          refine ⟨_, existInputConnection_eq hd hp hq, ?_⟩
          simp [hp, hq]
  · cases hs : findModel h P a with
    | none => exact ⟨false, by simp [existOutputConnection, hs], by simp⟩
    | some s =>
      cases hp : outPort h s p with
      | none =>
        exact ⟨false, by simp [existOutputConnection, hs, existOutputPort, hp], by simp [hp]⟩
      | some l1 =>
        cases hq : internalOutPort h P q with
        | none =>
          exact ⟨false,
            by simp [existOutputConnection, hs, existOutputPort, existInternalOutputPort, hp,
              hq],
            by simp [hp, hq]⟩
        | some l2 =>
          refine ⟨_, existOutputConnection_eq hs hp hq, ?_⟩
          simp [hp, hq]
/-! ## `hasConnectionProblem` compares names -/

theorem mapFind_ne_none_of_mem {β : Type} {k : String} {v : β} {l : List (String × β)}
    (h : (k, v) ∈ l) : mapFind k l ≠ none := fun hn =>
  not_mem_keys_of_mapFind_none hn (List.mem_map_of_mem Prod.fst h)

/-- Claim C26, the claim as stated does not hold: in `namesakeInputHeap` the
child at address 1 is named `top`, like the coupled model that holds it, and
is coupled to the input port `in` of that coupled model.  For the set made of
this child alone `hasConnectionProblem` is false, although the peer of the
coupling, the coupled model itself, is not in the set. -/
theorem hasConnectionProblem_misses_namesake :
    inPort namesakeInputHeap 1 "in" = some [(0, "in")] ∧
    internalInPort namesakeInputHeap 0 "in" = some [(1, "in")] ∧
    (namesakeInputHeap 0).name = "top" ∧ (∀ k, (k, 0) ∉ [("top", 1)]) ∧
    hasConnectionProblem namesakeInputHeap [("top", 1)] = false := by
  refine ⟨by decide, by decide, by decide, fun k hk => by simp at hk, by decide⟩

/-- Claim C26, amended.  `hasConnectionProblem(lst)` is true exactly when some
model of `lst` has, in one of its input-port or output-port lists, an entry
whose peer has a name that is not a key of `lst`.  When the models of `lst` are
stored under their names and no peer outside `lst` bears the name of a key of
`lst`, this is the case exactly when some entry has a peer that is not a model
of `lst`. -/
theorem hasConnectionProblem_iff_peer_name (h : Heap) (lst : ModelList) :
    (hasConnectionProblem h lst = true ↔
      ∃ km ∈ lst, ∃ pl ∈ (h km.2).inPortList ++ (h km.2).outPortList, ∃ e ∈ pl.2,
        mapFind (h e.1).name lst = none) ∧
    ((∀ km ∈ lst, (h km.2).name = km.1) →
      (∀ km ∈ lst, ∀ pl ∈ (h km.2).inPortList ++ (h km.2).outPortList, ∀ e ∈ pl.2,
        ∀ kc ∈ lst, (h e.1).name = kc.1 → e.1 = kc.2) →
      (hasConnectionProblem h lst = true ↔
        ∃ km ∈ lst, ∃ pl ∈ (h km.2).inPortList ++ (h km.2).outPortList, ∃ e ∈ pl.2,
          ∀ k, (k, e.1) ∉ lst)) := by
  have key : hasConnectionProblem h lst = true ↔
      ∃ km ∈ lst, ∃ pl ∈ (h km.2).inPortList ++ (h km.2).outPortList, ∃ e ∈ pl.2,
        mapFind (h e.1).name lst = none := by
    constructor
    · intro hp
      simp only [hasConnectionProblem, haveConnectionWithOtherModel, List.any_eq_true,
        Bool.or_eq_true, Option.isNone_iff_eq_none] at hp
      obtain ⟨km, hkm, ⟨pl, hpl, e, he, hn⟩ | ⟨pl, hpl, e, he, hn⟩⟩ := hp
      · exact ⟨km, hkm, pl, List.mem_append_left _ hpl, e, he, hn⟩
      · exact ⟨km, hkm, pl, List.mem_append_right _ hpl, e, he, hn⟩
    · rintro ⟨km, hkm, pl, hpl, e, he, hn⟩
      exact hasConnectionProblem_of_entry h lst km hkm pl (List.mem_append.1 hpl) e he hn
  refine ⟨key, fun hnm huniq => ?_⟩
  rw [key]
  constructor
  · rintro ⟨km, hkm, pl, hpl, e, he, hn⟩
    refine ⟨km, hkm, pl, hpl, e, he, fun k hk => ?_⟩
    have := hnm _ hk
    simp only at this
    rw [this] at hn
    exact mapFind_ne_none_of_mem hk hn
  · rintro ⟨km, hkm, pl, hpl, e, he, hn⟩
    refine ⟨km, hkm, pl, hpl, e, he, ?_⟩
    cases hf : mapFind (h e.1).name lst with
    | none => rfl
    | some c =>
      have hmem := mapFind_mem hf
      have := huniq km hkm pl hpl e he _ hmem rfl
      simp only at this
      rw [← this] at hmem
      exact absurd hmem (hn _)

theorem hasConnectionProblem_iff_peer_name_witness :
    hasConnectionProblem connectedHeap [("a", 1)] = true ∧
    (hasConnectionProblem connectedHeap [("a", 1)] = true ↔
      ∃ km ∈ [("a", 1)],
        ∃ pl ∈ (connectedHeap km.2).inPortList ++ (connectedHeap km.2).outPortList,
          ∃ e ∈ pl.2, ∀ k, (k, e.1) ∉ [("a", 1)]) :=
  ⟨by decide,
    (hasConnectionProblem_iff_peer_name connectedHeap [("a", 1)]).2 (by decide) (by decide)⟩
/-! ## `detachModel` looks the model up by its name -/

/-- Claim C27, the claim as stated does not hold: in `clashHeap` the model at
address 3 is named `b` and is not a child of `top`.  `detachModel` of that
model on `top` returns normally; it has removed the child `b` of `top` (the
model at address 2) from the child map and cleared its parent. -/
theorem detachModel_removes_namesake :
    (∀ k, (k, 3) ∉ (clashHeap 0).modelList) ∧ (clashHeap 3).name = "b" ∧
    (clashHeap 0).modelList = [("a", 1), ("b", 2)] ∧ (clashHeap 2).parent = some 0 ∧
    ∃ hh, detachModel 0 3 clashHeap = .ok () hh ∧
      (hh 0).modelList = [("a", 1)] ∧ (hh 2).parent = none := by
  refine ⟨fun k hk => ?_, by decide, by decide, by decide, _, rfl, by decide, by decide⟩
  simp [clashHeap, chainHeap] at hk

/-- Claim C27, amended.  `detachModel(m)` on `P` looks up the name of `m`.
When `P` has a child `c` under that name the call returns: the entry of that
name is erased from the child map of `P`, the parent of `c` becomes empty, and
every other parent field, every other child map, every name and every port
list is unchanged.  When `P` has no child under that name the call fails with
the graph error and changes nothing.  When the child map of `P` has distinct
keys that are the names of its children and `m` is a child of `P`, the child
found is `m` itself and the entries that remain are those of the other
children. -/
theorem detachModel_by_name (h : Heap) (P m : ModelId) :
    (∀ c, findModel h P (h m).name = some c →
      ∃ hh, detachModel P m h = .ok () hh ∧
        (hh c).parent = none ∧ (∀ x, x ≠ c → (hh x).parent = (h x).parent) ∧
        (hh P).modelList = mapErase (h m).name (h P).modelList ∧
        (∀ x, x ≠ P → (hh x).modelList = (h x).modelList) ∧
        (∀ x, (hh x).name = (h x).name) ∧ (∀ x t, rawTable hh t x = rawTable h t x)) ∧
    (findModel h P (h m).name = none → detachModel P m h = .throw .DevsGraphError h) ∧
    (((h P).modelList.map Prod.fst).Nodup →
      (∀ kc ∈ (h P).modelList, (h kc.2).name = kc.1) →
      (∃ k, (k, m) ∈ (h P).modelList) →
      findModel h P (h m).name = some m ∧
      ∀ kc, kc ∈ mapErase (h m).name (h P).modelList ↔ kc ∈ (h P).modelList ∧ kc.2 ≠ m) := by
  refine ⟨fun c hc => ?_, fun hn => ?_, fun hnd hnames hm => ?_⟩
  · obtain ⟨gg, e, hf⟩ := detachModel_fields (show mapFind (h m).name (h P).modelList = some c
      from hc)
    refine ⟨gg, e, ?_, fun x hx => ?_, ?_, fun x hx => ?_, fun x => (hf x).1,
      fun x t => (hf x).2.2.2 t⟩
    · rw [(hf c).2.1, if_pos rfl]
    · rw [(hf x).2.1, if_neg hx]
    · rw [(hf P).2.2.1, if_pos rfl]
    · rw [(hf x).2.2.1, if_neg hx]
  · have hn' : mapFind (h m).name (h P).modelList = none := hn
    simp only [detachModel, hn']
  · obtain ⟨k, hk⟩ := hm
    have hkn : (h m).name = k := hnames _ hk
    have hfind : findModel h P (h m).name = some m := by
      rw [hkn]; exact mapFind_of_mem_nodup hnd hk
    refine ⟨hfind, fun kc => ?_⟩
    rw [mem_mapErase_iff hnd]
    constructor
    · rintro ⟨h1, h2⟩
      refine ⟨h1, fun e => h2 ?_⟩
      have := hnames kc h1
      rw [e] at this
      exact this.symm
    · rintro ⟨h1, h2⟩
      refine ⟨h1, fun e => h2 ?_⟩
      have h3 : (kc.1, kc.2) ∈ (h P).modelList := h1
      rw [e, hkn] at h3
      exact value_unique_of_nodup_keys hnd h3 hk

theorem detachModel_by_name_witness :
    (∃ hh, detachModel 0 1 exampleHeap = .ok () hh ∧
        (hh 1).parent = none ∧ (∀ x, x ≠ 1 → (hh x).parent = (exampleHeap x).parent) ∧
        (hh 0).modelList = mapErase (exampleHeap 1).name (exampleHeap 0).modelList ∧
        (∀ x, x ≠ 0 → (hh x).modelList = (exampleHeap x).modelList) ∧
        (∀ x, (hh x).name = (exampleHeap x).name) ∧
        (∀ x t, rawTable hh t x = rawTable exampleHeap t x)) ∧
    detachModel 0 3 exampleHeap = .throw .DevsGraphError exampleHeap ∧
    (findModel exampleHeap 0 (exampleHeap 1).name = some 1 ∧
      ∀ kc, kc ∈ mapErase (exampleHeap 1).name (exampleHeap 0).modelList ↔
        kc ∈ (exampleHeap 0).modelList ∧ kc.2 ≠ 1) :=
  ⟨(detachModel_by_name exampleHeap 0 1).1 1 (by decide),
   (detachModel_by_name exampleHeap 0 3).2.1 (by decide),
   (detachModel_by_name exampleHeap 0 1).2.2 (by decide) (by decide) ⟨"a", by decide⟩⟩
/-! ## Lists of basic connections -/

theorem flattenQuadruples_append (a b : List (String × String × String × String)) :
    flattenQuadruples (a ++ b) = flattenQuadruples a ++ flattenQuadruples b := by
  induction a with
  | nil => rfl
  | cons q a ih =>
    obtain ⟨x, y, z, w⟩ := q
    simp [flattenQuadruples, ih]

theorem length_flattenQuadruples (a : List (String × String × String × String)) :
    (flattenQuadruples a).length = 4 * a.length := by
  induction a with
  | nil => rfl
  | cons q a ih =>
    obtain ⟨x, y, z, w⟩ := q
    simp only [flattenQuadruples, List.length_cons, ih]
    omega

theorem entries_eq_quadruples (h : Heap) (m : ModelId) (port : String) (l : ModelPortList) :
    getBasicConnections.entries h m port l =
      flattenQuadruples (l.map fun e => ((h m).name, port, (h e.1).name, e.2)) := by
  induction l with
  | nil => rfl
  | cons e l ih =>
    obtain ⟨peer, pport⟩ := e
    simp [getBasicConnections.entries, flattenQuadruples, ih]

theorem ports_eq_quadruples (h : Heap) (m : ModelId) (l : ConnectionList) :
    getBasicConnections.ports h m l =
      flattenQuadruples (l.flatMap fun pl =>
        pl.2.map fun e => ((h m).name, pl.1, (h e.1).name, e.2)) := by
  induction l with
  | nil => rfl
  | cons pl l ih =>
    obtain ⟨port, lst⟩ := pl
    simp only [getBasicConnections.ports, ih, entries_eq_quadruples, List.flatMap_cons,
      flattenQuadruples_append]

theorem length_basicQuadruples (h : Heap) (models : ModelList) :
    (basicQuadruples h models).length = outputEntryCount h models := by
  induction models with
  | nil => rfl
  | cons km models ih =>
    have inner : ∀ l : ConnectionList,
        (l.flatMap fun pl => pl.2.map fun e => ((h km.2).name, pl.1, (h e.1).name, e.2)).length
          = (l.map fun pl => pl.2.length).sum := by
      intro l
      induction l with
      | nil => rfl
      | cons pl l ihl => simp [List.flatMap_cons, ihl]
    simp only [basicQuadruples, outputEntryCount, List.flatMap_cons, List.length_append,
      List.map_cons, List.sum_cons] at ih ⊢
    rw [ih, inner]

theorem loop_eq_connectAll (P : ModelId) (n : Nat) (l : List String) (g : Heap)
    (hn : l.length ≤ n) :
    setBasicConnections.loop P l g = connectAll P (quadruplesOf l) g := by
  induction n generalizing l g with
  | zero =>
    have : l = [] := List.length_eq_zero.1 (Nat.le_zero.1 hn)
    subst this
    rfl
  | succ n ih =>
    match l, hn with
    | [], _ | [_], _ | [_, _], _ | [_, _, _], _ => rfl
    | s :: p :: d :: q :: rest, hn =>
      simp only [setBasicConnections.loop, quadruplesOf, connectAll]
      congr 1
      funext _ g1
      exact ih rest g1 (by simp only [List.length_cons] at hn; omega)

theorem flatten_quadruplesOf (n : Nat) (l : List String) (hn : l.length ≤ n)
    (h4 : l.length % 4 = 0) : flattenQuadruples (quadruplesOf l) = l := by
  induction n generalizing l with
  | zero =>
    have : l = [] := List.length_eq_zero.1 (Nat.le_zero.1 hn)
    subst this
    rfl
  | succ n ih =>
    match l, hn, h4 with
    | [], _, _ => rfl
    | [_], _, h4 | [_, _], _, h4 | [_, _, _], _, h4 => simp at h4
    | s :: p :: d :: q :: rest, hn, h4 =>
      simp only [quadruplesOf, flattenQuadruples]
      simp only [List.length_cons] at hn h4
      rw [ih rest (by omega) (by omega)]

/-- Claim C28.  `getBasicConnections(models)` fails with the graph error when
the parent of some listed model is not the coupled model; otherwise it
returns the flat list of the quadruples (model name, port, peer name, peer
port), one for every entry of an output-port list of a listed model, in
iteration order, so its length is four times the number of these entries.
`setBasicConnections(lst)` fails with the graph error on the unchanged graph
when the length of `lst` is not a multiple of 4; otherwise `lst` is the flat
list of its quadruples and the call is one name-based `addInternalConnection`
per quadruple, in order. -/
theorem basicConnections_shape (h : Heap) (P : ModelId) (models : ModelList)
    (lst : List String) :
    ((∃ km ∈ models, (h km.2).parent ≠ some P) →
      getBasicConnections h P models = .error .DevsGraphError) ∧
    ((∀ km ∈ models, (h km.2).parent = some P) →
      getBasicConnections h P models = .ok (flattenQuadruples (basicQuadruples h models)) ∧
      (flattenQuadruples (basicQuadruples h models)).length
        = 4 * outputEntryCount h models) ∧
    (lst.length % 4 ≠ 0 → setBasicConnections P lst h = .throw .DevsGraphError h) ∧
    (lst.length % 4 = 0 →
      flattenQuadruples (quadruplesOf lst) = lst ∧
      setBasicConnections P lst h = connectAll P (quadruplesOf lst) h) := by
  refine ⟨?_, ?_, ?_, ?_⟩
  · intro hbad
    induction models with
    | nil => obtain ⟨km, hkm, _⟩ := hbad; cases hkm
    | cons km models ih =>
      obtain ⟨k, m⟩ := km
      by_cases hm : (h m).parent = some P
      · obtain ⟨km', hkm', hne⟩ := hbad
        rcases List.mem_cons.1 hkm' with e | hin
        · rw [e] at hne; exact absurd hm hne
        · simp only [getBasicConnections, hm, if_true, ih ⟨km', hin, hne⟩]
      · simp only [getBasicConnections, hm, if_false]
  · intro hgood
    refine ⟨?_, by rw [length_flattenQuadruples, length_basicQuadruples]⟩
    induction models with
    | nil => rfl
    | cons km models ih =>
      obtain ⟨k, m⟩ := km
      have hm : (h m).parent = some P := hgood _ (List.mem_cons_self _ _)
      have ih' := ih (fun km' hkm' => hgood km' (List.mem_cons_of_mem _ hkm'))
      simp only [getBasicConnections, hm, if_true, ih', ports_eq_quadruples, basicQuadruples,
        List.flatMap_cons, flattenQuadruples_append]
  · intro h4
    simp only [setBasicConnections, h4, if_false]
  · intro h4
    refine ⟨flatten_quadruplesOf lst.length lst (Nat.le_refl _) h4, ?_⟩
    simp only [setBasicConnections, h4, if_true]
    exact loop_eq_connectAll P lst.length lst h (Nat.le_refl _)

theorem basicConnections_shape_witness :
    getBasicConnections chainHeap 3 [("a", 1)] = .error .DevsGraphError ∧
    (getBasicConnections chainHeap 0 [("a", 1), ("b", 2)]
        = .ok (flattenQuadruples (basicQuadruples chainHeap [("a", 1), ("b", 2)])) ∧
      (flattenQuadruples (basicQuadruples chainHeap [("a", 1), ("b", 2)])).length
        = 4 * outputEntryCount chainHeap [("a", 1), ("b", 2)]) ∧
    flattenQuadruples (basicQuadruples chainHeap [("a", 1), ("b", 2)])
      = ["a", "out", "b", "in", "b", "out", "top", "out"] ∧
    setBasicConnections 0 ["a", "out", "b"] exampleHeap
      = .throw .DevsGraphError exampleHeap ∧
    (flattenQuadruples (quadruplesOf ["a", "out", "b", "in"]) = ["a", "out", "b", "in"] ∧
      setBasicConnections 0 ["a", "out", "b", "in"] exampleHeap
        = connectAll 0 (quadruplesOf ["a", "out", "b", "in"]) exampleHeap) :=
  ⟨(basicConnections_shape chainHeap 3 [("a", 1)] []).1 ⟨("a", 1), by decide, by decide⟩,
   (basicConnections_shape chainHeap 0 [("a", 1), ("b", 2)] []).2.1 (by decide),
   by decide,
   (basicConnections_shape exampleHeap 0 [] ["a", "out", "b"]).2.2.1 (by decide),
   (basicConnections_shape exampleHeap 0 [] ["a", "out", "b", "in"]).2.2.2 (by decide)⟩

end vle.graph

namespace vle.apps.oov

/-- Claim C21.  `EXIT_SUCCESS` is 0 and `EXIT_FAILURE` is not.  When a call of
the first `try` block (command-line parsing, the option check, the set-up of
the trace) throws, `main` does not return 0, and it returns `EXIT_FAILURE` when
the exception is of a class that the block handles (`Glib::Error` or
`std::exception`).  When the block completes, `main` returns 0 if `--info` or
`--version` was requested; otherwise it returns 0 if the construction of the
network stream reader, `setBufferSize` and `process()` complete, and when one
of them throws it does not return 0 and returns `EXIT_FAILURE` for the handled
classes (`Glib::Exception`, `std::exception`). -/
theorem main_exit_code (env : Env) :
    EXIT_SUCCESS = 0 ∧ EXIT_FAILURE ≠ 0 ∧
    (∀ e, firstThrow [env.parse, env.check, env.setLogFile, env.setLevel] = some e →
      main env ≠ .returned 0 ∧
      (e = .glibError ∨ e = .stdException → main env = .returned EXIT_FAILURE)) ∧
    (firstThrow [env.parse, env.check, env.setLogFile, env.setLevel] = none →
      (env.infos = true ∨ env.version = true → main env = .returned 0) ∧
      (firstThrow [env.netNew, env.setBufferSize, env.process] = none →
        main env = .returned 0) ∧
      (env.infos = false → env.version = false →
        ∀ e, firstThrow [env.netNew, env.setBufferSize, env.process] = some e →
          main env ≠ .returned 0 ∧ (e ≠ .other → main env = .returned EXIT_FAILURE))) := by
  refine ⟨rfl, by decide, fun e he => ?_, fun hnone => ⟨fun hiv => ?_, fun hn => ?_,
    fun hi hv e he => ?_⟩⟩
  · cases e <;> simp [main, he, EXIT_FAILURE]
  · rcases hiv with hi | hv
    · simp [main, hnone, hi, EXIT_SUCCESS]
    · cases hi : env.infos <;> simp [main, hnone, hi, hv, EXIT_SUCCESS]
  · cases hi : env.infos <;> cases hv : env.version <;>
      simp [main, hnone, hn, hi, hv, EXIT_SUCCESS]
  · cases e <;> simp [main, hnone, hi, hv, he, EXIT_FAILURE]

theorem main_exit_code_witness :
    main parseErrorEnv = .returned EXIT_FAILURE ∧ main versionEnv = .returned 0 ∧
    main cleanEnv = .returned 0 ∧ main processErrorEnv = .returned EXIT_FAILURE :=
  ⟨((main_exit_code parseErrorEnv).2.2.1 .glibError rfl).2 (Or.inl rfl),
   ((main_exit_code versionEnv).2.2.2 rfl).1 (Or.inr rfl),
   ((main_exit_code cleanEnv).2.2.2 rfl).2.1 rfl,
   ((((main_exit_code processErrorEnv).2.2.2 rfl).2.2 rfl rfl) .glibException rfl).2
     (by decide)⟩

end vle.apps.oov

namespace vle.oov.plugin

/-! ## Committing the observation times -/

theorem committedTimes_append (s : Storage) (cs : List MatrixCall) :
    committedTimes { s with m_matrix := s.m_matrix ++ cs } =
      committedTimes s ++ cs.filterMap commitOf := by
  simp [committedTimes, List.filterMap_append]

/-- The loop over the model trames leaves the time, the flag and the committed
times alone. -/
theorem values_frame (s : Storage) (l : List ModelTrame) :
    (onValue.values s l).m_time = s.m_time ∧ (onValue.values s l).m_isstart = s.m_isstart ∧
      committedTimes (onValue.values s l) = committedTimes s := by
  induction l generalizing s with
  | nil => exact ⟨rfl, rfl, rfl⟩
  | cons it rest ih =>
    simp only [onValue.values]
    split
    · obtain ⟨a, b, c⟩ := ih { s with m_matrix := s.m_matrix ++
        [.addValue (it.parent ++ it.simulator) it.port] }
      refine ⟨a, b, ?_⟩
      rw [c, committedTimes_append]
      simp [commitOf]
    · exact ih s

theorem collapse_ne_nil (a : ℚ) (l : List ℚ) : collapse (a :: l) ≠ [] := by
  induction l generalizing a with
  | nil => simp [collapse]
  | cons b l ih =>
    simp only [collapse]
    split
    · exact ih b
    · simp

theorem collapse_snoc (ts : List ℚ) (c : List ℚ) (u t : ℚ) (hc : collapse ts = c ++ [u]) :
    collapse (ts ++ [t]) = if u = t then c ++ [u] else c ++ [u, t] := by
  induction ts generalizing c with
  | nil => simp [collapse] at hc
  | cons a ts ih =>
    cases ts with
    | nil =>
      simp only [collapse] at hc
      have hcu : c = [] ∧ a = u := by
        cases c with
        | nil => simpa using hc
        | cons x c => simp at hc
      obtain ⟨rfl, rfl⟩ := hcu
      by_cases e : a = t
      · simp [collapse, e]
      · simp [collapse, e]
    | cons b r =>
      simp only [List.cons_append, collapse] at hc ⊢
      by_cases e : a = b
      · simp only [e, if_true] at hc ⊢
        exact ih c hc
      · simp only [e, if_false] at hc ⊢
        cases c with
        | nil =>
          simp only [List.nil_append, List.cons.injEq] at hc
          exact absurd hc.2 (collapse_ne_nil b r)
        | cons x c' =>
          simp only [List.cons_append, List.cons.injEq] at hc
          obtain ⟨rfl, hc'⟩ := hc
          have := ih c' hc'
          simp only [List.cons_append] at this
          change a :: collapse (b :: (r ++ [t])) = _
          rw [this]
          split <;> simp

/-- State of the plugin after the value trames `trames`. -/
theorem onValue_invariant (trames : List ValueTrame) (hne : trames ≠ [])
    (hpos : ∀ tr ∈ trames, 0 ≤ tr.time) :
    0 ≤ (trames.foldl onValue newStorage).m_time ∧
    (∃ pre tr, trames = pre ++ [tr] ∧ (trames.foldl onValue newStorage).m_time = tr.time) ∧
    committedTimes (trames.foldl onValue newStorage) ++ [(trames.foldl onValue newStorage).m_time]
      = collapse (trames.map fun tr => tr.time) := by
  induction trames using List.reverseRecOn with
  | nil => exact absurd rfl hne
  | append_singleton pre tr ih =>
    have ht : 0 ≤ tr.time := hpos tr (by simp)
    rw [List.foldl_append]
    simp only [List.foldl_cons, List.foldl_nil]
    by_cases hpre : pre = []
    · subst hpre
      obtain ⟨a, b, c⟩ := values_frame { newStorage with m_time := tr.time } tr.trames
      have e : onValue newStorage tr
          = onValue.values { newStorage with m_time := tr.time } tr.trames := by
        simp [onValue, newStorage]
      simp only [List.foldl_nil, List.nil_append, List.map_cons, List.map_nil]
      rw [e, a, c]
      refine ⟨ht, ⟨[], tr, rfl, rfl⟩, ?_⟩
      simp [committedTimes, newStorage, collapse]
    · obtain ⟨i1, _, i3⟩ := ih hpre (fun x hx => hpos x (by simp [hx]))
      obtain ⟨s, hs⟩ : ∃ s, s = pre.foldl onValue newStorage := ⟨_, rfl⟩
      rw [← hs] at i1 i3 ⊢
      have hnot : ¬ s.m_time < 0 := not_lt.2 i1
      have key : ∃ s1, onValue s tr = onValue.values s1 tr.trames ∧
          s1.m_time = tr.time ∧
          committedTimes s1 ++ [s1.m_time]
            = if s.m_time = tr.time then committedTimes s ++ [s.m_time]
              else committedTimes s ++ [s.m_time, tr.time] := by
        by_cases hst : s.m_isstart = true
        · refine ⟨nextTime s tr.time, by simp [onValue, hst], ?_, ?_⟩
          · simp only [nextTime]; split <;> simp_all
          · by_cases e : tr.time = s.m_time
            · simp [nextTime, e]
            · have e' : ¬ s.m_time = tr.time := fun h => e h.symm
              simp only [nextTime, ne_eq, e, not_false_eq_true, if_true, e', if_false]
              simp [committedTimes, List.filterMap_append, commitOf]
        · refine ⟨{ nextTime s tr.time with m_isstart := true },
            by simp [onValue, hst, hnot], ?_, ?_⟩
          · simp only [nextTime]; split <;> simp_all
          · by_cases e : tr.time = s.m_time
            · simp [nextTime, e, committedTimes]
            · have e' : ¬ s.m_time = tr.time := fun h => e h.symm
              simp only [nextTime, ne_eq, e, not_false_eq_true, if_true, e', if_false]
              simp [committedTimes, List.filterMap_append, commitOf]
      obtain ⟨s1, e1, e2, e3⟩ := key
      obtain ⟨a, b, c⟩ := values_frame s1 tr.trames
      rw [e1, a, c, e2]
      refine ⟨ht, ⟨pre, tr, rfl, rfl⟩, ?_⟩
      rw [e2] at e3
      rw [e3, List.map_append, List.map_cons, List.map_nil]
      exact (collapse_snoc _ _ _ _ i3.symm).symm

/-- Claim C29.  Let a non-empty sequence of value trames with non-negative
times be delivered to a fresh `Storage` through `onValue`, followed by
`close`.  The times passed to `setLastTime` are then exactly the times of the
trames with consecutive equal times collapsed, and after every `onValue` the
stored time `m_time` is the time of the trame just delivered. -/
theorem storage_commits_each_time_once (trames : List ValueTrame) (hne : trames ≠ [])
    (hpos : ∀ tr ∈ trames, 0 ≤ tr.time) :
    committedTimes (close (trames.foldl onValue newStorage))
      = collapse (trames.map fun tr => tr.time) ∧
    ∀ pre tr post, trames = pre ++ tr :: post →
      ((pre ++ [tr]).foldl onValue newStorage).m_time = tr.time := by
  refine ⟨?_, fun pre tr post e => ?_⟩
  · obtain ⟨_, _, h3⟩ := onValue_invariant trames hne hpos
    rw [← h3]
    simp [close, committedTimes, List.filterMap_append, commitOf]
  · have hpos' : ∀ x ∈ pre ++ [tr], 0 ≤ x.time := by
      intro x hx
      apply hpos x
      rw [e]
      rcases List.mem_append.1 hx with h | h
      · exact List.mem_append_left _ h
      · have hx' : x = tr := by simpa using h
        exact List.mem_append_right _ (by simp [hx'])
    obtain ⟨_, ⟨pre', tr', e', h2⟩, _⟩ := onValue_invariant (pre ++ [tr]) (by simp) hpos'
    have := List.append_inj' e' rfl
    obtain ⟨_, e2⟩ := this
    simp only [List.cons.injEq, and_true] at e2
    rw [h2, e2]

theorem storage_commits_each_time_once_witness :
    (committedTimes (close (exampleTrames.foldl onValue newStorage))
        = collapse (exampleTrames.map fun tr => tr.time) ∧
      ∀ pre tr post, exampleTrames = pre ++ tr :: post →
        ((pre ++ [tr]).foldl onValue newStorage).m_time = tr.time) ∧
    collapse (exampleTrames.map fun tr => tr.time) = [0, 2, 5] ∧
    (close (exampleTrames.foldl onValue newStorage)).m_matrix
      = [.addValue "top,a" "out", .setLastTime 0, .addValue "top,a" "out", .setLastTime 2,
         .setLastTime 5] :=
  ⟨storage_commits_each_time_once exampleTrames (by simp [exampleTrames]) (by decide),
    by decide, by decide⟩

/-! ## Sizing the matrix -/

theorem orDefault_gt (bound dflt : Int) (x : Option Int) (h : bound < dflt) :
    bound < orDefault bound dflt x := by
  unfold orDefault
  cases x with
  | none => exact h
  | some v =>
    simp only
    split
    · assumption
    · exact h

/-- Claim C30.  For every parameter text, `onParameter` makes exactly two
calls on the matrix, `resize(c, r)` and `updateStep(zc, zr)`, where `c` and `r`
are the first and the second integer read from the text when greater than 1
and 10 otherwise, and `zc` and `zr` are the third and the fourth integer when
greater than 0 and 1 otherwise; a field that is missing, or that cannot be
read, or that follows one that cannot be read, takes the default, and an
integer that does not fit an `int` is read as the nearest `int`.  So
`c >= 2`, `r >= 2`, `zc >= 1` and `zr >= 1` in all cases. -/
theorem onParameter_configures (s : Storage) (data : String) :
    onParameter s data =
      { s with m_matrix := s.m_matrix ++
          [.resize (orDefault 1 10 ((parsedInts 4 data.data)[0]?))
              (orDefault 1 10 ((parsedInts 4 data.data)[1]?)),
           .updateStep (orDefault 0 1 ((parsedInts 4 data.data)[2]?))
              (orDefault 0 1 ((parsedInts 4 data.data)[3]?))] } ∧
    2 ≤ orDefault 1 10 ((parsedInts 4 data.data)[0]?) ∧
    2 ≤ orDefault 1 10 ((parsedInts 4 data.data)[1]?) ∧
    1 ≤ orDefault 0 1 ((parsedInts 4 data.data)[2]?) ∧
    1 ≤ orDefault 0 1 ((parsedInts 4 data.data)[3]?) := by
  refine ⟨?_, orDefault_gt 1 10 _ (by decide), orDefault_gt 1 10 _ (by decide),
    orDefault_gt 0 1 _ (by decide), orDefault_gt 0 1 _ (by decide)⟩
  cases h1 : scan data.data with
  | missing => simp [onParameter, extractInt, h1, parsedInts, orDefault]
  | invalid => simp [onParameter, extractInt, h1, parsedInts, orDefault]
  | clamped v => simp [onParameter, extractInt, h1, parsedInts, orDefault]
  | value v1 rest1 =>
    cases h2 : scan rest1 with
    | missing => simp [onParameter, extractInt, h1, h2, parsedInts, orDefault]
    | invalid => simp [onParameter, extractInt, h1, h2, parsedInts, orDefault]
    | clamped v => simp [onParameter, extractInt, h1, h2, parsedInts, orDefault]
    | value v2 rest2 =>
      cases h3 : scan rest2 with
      | missing => simp [onParameter, extractInt, h1, h2, h3, parsedInts, orDefault]
      | invalid => simp [onParameter, extractInt, h1, h2, h3, parsedInts, orDefault]
      | clamped v => simp [onParameter, extractInt, h1, h2, h3, parsedInts, orDefault]
      | value v3 rest3 =>
        cases h4 : scan rest3 with
        | missing => simp [onParameter, extractInt, h1, h2, h3, h4, parsedInts, orDefault]
        | invalid => simp [onParameter, extractInt, h1, h2, h3, h4, parsedInts, orDefault]
        | clamped v => simp [onParameter, extractInt, h1, h2, h3, h4, parsedInts, orDefault]
        | value v4 rest4 =>
          simp [onParameter, extractInt, h1, h2, h3, h4, parsedInts, orDefault]

/-- Instances of `onParameter`: a complete text, the empty text, a text whose
second field cannot be read, and a text with fields that are too small. -/
theorem onParameter_examples :
    (onParameter newStorage "5 7 2 3").m_matrix = [.resize 5 7, .updateStep 2 3] ∧
    (onParameter newStorage "").m_matrix = [.resize 10 10, .updateStep 1 1] ∧
    (onParameter newStorage "5 x 2 3").m_matrix = [.resize 5 10, .updateStep 1 1] ∧
    (onParameter newStorage " 1 -4 0 +6").m_matrix = [.resize 10 10, .updateStep 1 6] ∧
    (onParameter newStorage "99999999999 3").m_matrix
      = [.resize 2147483647 10, .updateStep 1 1] := by
  refine ⟨by decide, by decide, by decide, by decide, by decide⟩

end vle.oov.plugin
